import Mathlib

/-!
# mruby-yaml: the tree-transcoding core of `src/yaml.c`

A shallow embedding of `yaml_node_to_mrb` (document node to host value),
`yaml_mrb_to_node` (host value to document nodes) and `mrb_yaml_load`, together
with the parts of libyaml's document interface and of the mruby value interface
that these functions call.

Conventions of the embedding.

* libyaml (`yaml.h`) and the mruby runtime (`mruby.h`, `mruby/*.h`) are external to
  `yaml.c`.  The operations of theirs that `yaml.c` calls are modelled from the
  interface the specification gives for them (sections 3 and 6); their doc comments
  say so.  The host's string conversion and the YAML parser are parameters.
* `yaml_document_add_scalar` returns the node id or `0` on error (`yaml.h`): libyaml
  refuses scalar bytes that are not UTF-8 and then appends nothing.  `yaml.c` passes the
  returned id on unchecked, so the refusal is part of the embedding.  Allocation
  failures are not modelled.
* A libyaml document is the list of its nodes; node ids are 1-based positions in
  that list, as in libyaml (`yaml_document_get_node` returns `NULL` for an id
  that is `0` or larger than the node count).  Ids are natural numbers: a negative
  C `int` id behaves exactly like `0`.
* A host value is a finite tree.  Mappings are association lists in the host's
  enumeration order; host key equality is structural equality of values.
* `mrb_gc_arena_save` and `mrb_gc_arena_restore` only manage the collector's root
  set and do not change any value; they have no counterpart in the embedding.
* The two transcoders are recursive on data that the C code does not bound (a
  document may list a node among its own descendants), so each takes a `fuel`
  argument that bounds the recursion depth.  Running out of fuel is reported as
  `Fault.out_of_fuel`, dereferencing a `NULL` node as `Fault.null_deref`, a
  failed libyaml `assert` as `Fault.assert_failed`.
-/

namespace MrubyYaml

/-! ## Bytes -/

/-- One byte of a host string or of a YAML scalar. -/
abbrev Byte := Fin 256

/-- A byte string with explicit length: NUL bytes are ordinary elements. -/
abbrev Bytes := List Byte

/-! ## libyaml document model -/

/-- Modelled from the spec: the node type tag `yaml_node_type_t` of `yaml.h`, with the
kinds of section 6, `kind(node) ∈ {Scalar, Sequence, Mapping, Alias}`, and libyaml's
`YAML_NO_NODE` for a node without kind. -/
inductive yaml_node_type_t where
  | YAML_NO_NODE
  | YAML_SCALAR_NODE
  | YAML_SEQUENCE_NODE
  | YAML_MAPPING_NODE
  | YAML_ALIAS_NODE
  deriving DecidableEq, Repr

/-- Modelled from the spec: a document node `yaml_node_t` of `yaml.h`, the tagged union
of section 3: the type tag together with the member of the `data` union that the tag
selects (scalar bytes with their length, item ids in order, key and value id pairs in
order). -/
inductive yaml_node_t where
  | no_node
  | scalar (value : Bytes)
  | sequence (items : List Nat)
  | mapping (pairs : List (Nat × Nat))
  | alias_node
  deriving DecidableEq, Repr

/-- The `type` field of a node. -/
def yaml_node_t.type : yaml_node_t → yaml_node_type_t
  | .no_node => .YAML_NO_NODE
  | .scalar _ => .YAML_SCALAR_NODE
  | .sequence _ => .YAML_SEQUENCE_NODE
  | .mapping _ => .YAML_MAPPING_NODE
  | .alias_node => .YAML_ALIAS_NODE

/-- Modelled from the spec: the document arena `yaml_document_t` of `yaml.h`, as the
node stack `document->nodes` from `start` to `top`. -/
abbrev yaml_document_t := List yaml_node_t

/-- What can go wrong below the host level. -/
inductive Fault where
  | null_deref
  | assert_failed
  | out_of_fuel
  deriving DecidableEq, Repr

/-- Modelled from the spec: the libyaml accessor `yaml_document_get_node` (a node is
retrieved from the document by id): the node with the given 1-based id, or `NULL`
(`none`) when the id is not positive or exceeds the node count. -/
def yaml_document_get_node (document : yaml_document_t) (index : Nat) : Option yaml_node_t :=
  if 0 < index ∧ index ≤ document.length then document.get? (index - 1) else none

/-- Modelled from the spec: the libyaml accessor `yaml_document_get_root_node`: the
first node of the document, or `NULL` (`none`) for a document without nodes. -/
def yaml_document_get_root_node (document : yaml_document_t) : Option yaml_node_t :=
  match document with
  | [] => none
  | root :: _ => some root

/-- Modelled from the spec: `new_document()`, the document that libyaml's document
constructor builds in `mrb_yaml_dump`: no nodes. -/
def yaml_document_new : yaml_document_t := []

/-- The loop of libyaml's `yaml_check_utf8` over the octets from `pointer` to `end`.
The lead octet gives the width of the character (`(octet & 0x80) == 0x00` is width 1,
`(octet & 0xE0) == 0xC0` width 2, `(octet & 0xF0) == 0xE0` width 3,
`(octet & 0xF8) == 0xF0` width 4, anything else is refused) and the first bits of its
value; the character must fit before `end`; each further octet must satisfy
`(octet & 0xC0) == 0x80` and adds six bits; the value must need the width (no overlong
form).  The first argument bounds the number of characters and is the number of octets
at the start, which is never exceeded because every character has at least one octet. -/
def yaml_check_utf8_from : Nat → List Nat → Bool
  | _, [] => true
  | 0, _ :: _ => false
  | fuel + 1, octet :: rest =>
      let width :=
        if octet < 0x80 then 1
        else if 0xC0 ≤ octet ∧ octet < 0xE0 then 2
        else if 0xE0 ≤ octet ∧ octet < 0xF0 then 3
        else if 0xF0 ≤ octet ∧ octet < 0xF8 then 4
        else 0
      let lead :=
        if octet < 0x80 then octet
        else if 0xC0 ≤ octet ∧ octet < 0xE0 then octet % 0x20
        else if 0xE0 ≤ octet ∧ octet < 0xF0 then octet % 0x10
        else if 0xF0 ≤ octet ∧ octet < 0xF8 then octet % 0x08
        else 0
      if width = 0 then false
      else if rest.length + 1 < width then false
      else
        let trail := rest.take (width - 1)
        if trail.all (fun o => decide (0x80 ≤ o ∧ o < 0xC0)) then
          let value := trail.foldl (fun v o => v * 64 + o % 64) lead
          if width = 1 ∨ (width = 2 ∧ 0x80 ≤ value) ∨ (width = 3 ∧ 0x800 ≤ value) ∨
              (width = 4 ∧ 0x10000 ≤ value) then
            yaml_check_utf8_from fuel (rest.drop (width - 1))
          else false
        else false

/-- The check `yaml_check_utf8` that libyaml applies to the bytes of a scalar before it
adds the node: the bytes are a sequence of well-formed UTF-8 characters. -/
def yaml_check_utf8 (start : Bytes) : Bool :=
  yaml_check_utf8_from start.length (start.map Fin.val)

/-- The libyaml mutator `yaml_document_add_scalar` (`add_scalar(doc, bytes) -> id`), which
returns the node id or `0` on error: when the bytes pass `yaml_check_utf8` it pushes a
scalar node and returns its id, the new node count; when they do not it pushes nothing
and returns `0`.  Allocation failures are not modelled. -/
def yaml_document_add_scalar (document : yaml_document_t) (value : Bytes) :
    yaml_document_t × Nat :=
  if yaml_check_utf8 value then (document ++ [.scalar value], document.length + 1)
  else (document, 0)

/-- Modelled from the spec: the libyaml mutator `yaml_document_add_sequence`
(`add_sequence(doc) -> id`): push an empty sequence node, return its id.  With the
default tag that `yaml.c` asks for, libyaml returns `0` here only when an allocation
fails, which is not modelled. -/
def yaml_document_add_sequence (document : yaml_document_t) : yaml_document_t × Nat :=
  (document ++ [.sequence []], document.length + 1)

/-- Modelled from the spec: the libyaml mutator `yaml_document_add_mapping`
(`add_mapping(doc) -> id`): push an empty mapping node, return its id.  With the
default tag that `yaml.c` asks for, libyaml returns `0` here only when an allocation
fails, which is not modelled. -/
def yaml_document_add_mapping (document : yaml_document_t) : yaml_document_t × Nat :=
  (document ++ [.mapping []], document.length + 1)

/-- Modelled from the spec: the libyaml mutator `yaml_document_append_sequence_item`
(`append_sequence_item(doc, seq_id, child_id)`).  libyaml asserts that
`sequence` is the id of a sequence node and that `item` is the id of a node, then pushes
`item` onto the sequence's item stack. -/
def yaml_document_append_sequence_item (document : yaml_document_t) (sequence item : Nat) :
    Except Fault yaml_document_t :=
  match yaml_document_get_node document sequence, yaml_document_get_node document item with
  | some (.sequence items), some _ =>
      .ok (document.set (sequence - 1) (.sequence (items ++ [item])))
  | _, _ => .error .assert_failed

/-- Modelled from the spec: the libyaml mutator `yaml_document_append_mapping_pair`
(`append_mapping_pair(doc, map_id, key_id, value_id)`).  libyaml asserts that
`mapping` is the id of a mapping node and that `key` and `value` are ids of nodes, then
pushes the pair onto the mapping's pair stack. -/
def yaml_document_append_mapping_pair (document : yaml_document_t) (mapping key value : Nat) :
    Except Fault yaml_document_t :=
  match yaml_document_get_node document mapping, yaml_document_get_node document key,
      yaml_document_get_node document value with
  | some (.mapping pairs), some _, some _ =>
      .ok (document.set (mapping - 1) (.mapping (pairs ++ [(key, value)])))
  | _, _, _ => .error .assert_failed

/-! ## Host values -/

/-- Modelled from the spec: a host value `mrb_value` (the DynamicValue of section 3), as
a finite tree: strings, arrays, mappings as ordered lists of key and value pairs, and the
kinds the transcoder does not look into, `nil`, `bool`, `fixnum` and `obj`, where `obj`
covers every other host object. -/
inductive mrb_value where
  | nil
  | bool (b : Bool)
  | fixnum (n : Int)
  | obj (id : Nat)
  | str (b : Bytes)
  | ary (xs : List mrb_value)
  | hash (kvs : List (mrb_value × mrb_value))

/-- Modelled from the spec: the host type tag `enum mrb_vtype` of `mruby.h`, restricted
to the tags of the modelled kinds. -/
inductive mrb_vtype where
  | MRB_TT_FALSE
  | MRB_TT_TRUE
  | MRB_TT_FIXNUM
  | MRB_TT_OBJECT
  | MRB_TT_STRING
  | MRB_TT_ARRAY
  | MRB_TT_HASH
  deriving DecidableEq, Repr

/-- Modelled from the spec: the host macro `mrb_type`, the type tag of a value (`nil`
and `false` share `MRB_TT_FALSE`). -/
def mrb_type : mrb_value → mrb_vtype
  | .nil => .MRB_TT_FALSE
  | .bool false => .MRB_TT_FALSE
  | .bool true => .MRB_TT_TRUE
  | .fixnum _ => .MRB_TT_FIXNUM
  | .obj _ => .MRB_TT_OBJECT
  | .str _ => .MRB_TT_STRING
  | .ary _ => .MRB_TT_ARRAY
  | .hash _ => .MRB_TT_HASH

namespace mrb_value

mutual
/-- Structural equality test on host values. -/
def beq : mrb_value → mrb_value → Bool
  | .nil, .nil => true
  | .bool a, .bool b => a == b
  | .fixnum a, .fixnum b => a == b
  | .obj a, .obj b => a == b
  | .str a, .str b => a == b
  | .ary xs, .ary ys => beqList xs ys
  | .hash xs, .hash ys => beqPairs xs ys
  | _, _ => false
/-- Structural equality test on lists of host values. -/
def beqList : List mrb_value → List mrb_value → Bool
  | [], [] => true
  | x :: xs, y :: ys => beq x y && beqList xs ys
  | _, _ => false
/-- Structural equality test on association lists of host values. -/
def beqPairs : List (mrb_value × mrb_value) → List (mrb_value × mrb_value) → Bool
  | [], [] => true
  | (a, b) :: xs, (c, d) :: ys => beq a c && (beq b d && beqPairs xs ys)
  | _, _ => false
end

end mrb_value

/-- Modelled from the spec: the host's key equality for mappings, taken as structural
equality of values. -/
def mrb_eql (a b : mrb_value) : Bool := mrb_value.beq a b

/-- Modelled from the spec: the host constructor `mrb_nil_value`, the nil sentinel. -/
def mrb_nil_value : mrb_value := .nil

/-- Modelled from the spec: the host constructor `mrb_str_new`: a string holding the
given bytes, as many as the given length. -/
def mrb_str_new (value : Bytes) : mrb_value := .str value

/-- Modelled from the spec: the host constructor `mrb_ary_new`: an empty array. -/
def mrb_ary_new : mrb_value := .ary []

/-- Modelled from the spec: the host operation `mrb_ary_push`: append one element at
the end of an array. -/
def mrb_ary_push (ary : mrb_value) (elem : mrb_value) : mrb_value :=
  match ary with
  | .ary xs => .ary (xs ++ [elem])
  | other => other

/-- Modelled from the spec: the host constructor `mrb_hash_new`: an empty mapping. -/
def mrb_hash_new : mrb_value := .hash []

/-- Modelled from the spec: storing into a host mapping, which keeps keys unique under
the host's equality with the last write winning: the entry whose key equals `key` gets
the new value and keeps its place, and a new key is entered at the end. -/
def hash_store (key val : mrb_value) :
    List (mrb_value × mrb_value) → List (mrb_value × mrb_value)
  | [] => [(key, val)]
  | (k, v) :: rest =>
      if mrb_eql k key then (k, val) :: rest else (k, v) :: hash_store key val rest

/-- Modelled from the spec: the host operation `mrb_hash_set`. -/
def mrb_hash_set (hash key val : mrb_value) : mrb_value :=
  match hash with
  | .hash kvs => .hash (hash_store key val kvs)
  | other => other

/-- Modelled from the spec: lookup in a host mapping: the value of the entry whose key
equals `key`, the first such entry of the list. -/
def hash_fetch (key : mrb_value) : List (mrb_value × mrb_value) → Option mrb_value
  | [] => none
  | (k, v) :: rest => if mrb_eql k key then some v else hash_fetch key rest

/-- Modelled from the spec: the host operation `mrb_hash_get`: the value stored under
`key`, or `nil` when there is none. -/
def mrb_hash_get (hash key : mrb_value) : mrb_value :=
  match hash with
  | .hash kvs =>
      match hash_fetch key kvs with
      | some v => v
      | none => mrb_nil_value
  | _ => mrb_nil_value

/-- Modelled from the spec: the host operation `mrb_hash_keys`: the keys in the order
in which the host mapping enumerates them. -/
def mrb_hash_keys (hash : mrb_value) : List mrb_value :=
  match hash with
  | .hash kvs => kvs.map Prod.fst
  | _ => []

/-! ## Decoder: `yaml_node_to_mrb` -/

/-- The loop of the `YAML_SEQUENCE_NODE` case: for each item id in stored order, fetch the
child node, decode it with `decode` (the recursive call) and push the child onto
`result`. -/
def decode_sequence_items (decode : Option yaml_node_t → Except Fault mrb_value)
    (document : yaml_document_t) : List Nat → mrb_value → Except Fault mrb_value
  | [], result => .ok result
  | item :: rest, result =>
      let child_node := yaml_document_get_node document item
      match decode child_node with
      | .error e => .error e
      | .ok child => decode_sequence_items decode document rest (mrb_ary_push result child)

/-- The loop of the `YAML_MAPPING_NODE` case: for each pair in stored order, fetch the key
and value nodes, decode the key and then the value, and set the entry in `result`. -/
def decode_mapping_pairs (decode : Option yaml_node_t → Except Fault mrb_value)
    (document : yaml_document_t) : List (Nat × Nat) → mrb_value → Except Fault mrb_value
  | [], result => .ok result
  | pair :: rest, result =>
      let key_node := yaml_document_get_node document pair.1
      let value_node := yaml_document_get_node document pair.2
      match decode key_node with
      | .error e => .error e
      | .ok key =>
          match decode value_node with
          | .error e => .error e
          | .ok value =>
              decode_mapping_pairs decode document rest (mrb_hash_set result key value)

/-- The decoder `yaml_node_to_mrb` of `yaml.c`.  `node` is the C pointer: `none` is `NULL`,
which the `switch (node->type)` dereferences. -/
def yaml_node_to_mrb : Nat → yaml_document_t → Option yaml_node_t → Except Fault mrb_value
  | 0, _, _ => .error .out_of_fuel
  | _ + 1, _, none => .error .null_deref
  | _ + 1, _, some (.scalar value) => .ok (mrb_str_new value)
  | fuel + 1, document, some (.sequence items) =>
      decode_sequence_items (yaml_node_to_mrb fuel document) document items mrb_ary_new
  | fuel + 1, document, some (.mapping pairs) =>
      decode_mapping_pairs (yaml_node_to_mrb fuel document) document pairs mrb_hash_new
  | _ + 1, _, some _ => .ok mrb_nil_value

/-! ## Encoder: `yaml_mrb_to_node` -/

/-- The loop of the `MRB_TT_ARRAY` case: for each element in index order, encode it with
`encode` (the recursive call) and append the returned id to the sequence `node`. -/
def encode_array_items
    (encode : yaml_document_t → mrb_value → Except Fault (yaml_document_t × Nat))
    (node : Nat) : List mrb_value → yaml_document_t → Except Fault yaml_document_t
  | [], document => .ok document
  | child :: rest, document =>
      match encode document child with
      | .error e => .error e
      | .ok (document, child_node) =>
          match yaml_document_append_sequence_item document node child_node with
          | .error e => .error e
          | .ok document => encode_array_items encode node rest document

/-- The loop of the `MRB_TT_HASH` case: for each key of the key list, look the value up
in the mapping, encode the key and then the value, and append the pair to the mapping
`node`. -/
def encode_hash_pairs
    (encode : yaml_document_t → mrb_value → Except Fault (yaml_document_t × Nat))
    (value : mrb_value) (node : Nat) :
    List mrb_value → yaml_document_t → Except Fault yaml_document_t
  | [], document => .ok document
  | key :: rest, document =>
      let child := mrb_hash_get value key
      match encode document key with
      | .error e => .error e
      | .ok (document, key_node) =>
          match encode document child with
          | .error e => .error e
          | .ok (document, child_node) =>
              match yaml_document_append_mapping_pair document node key_node child_node with
              | .error e => .error e
              | .ok document => encode_hash_pairs encode value node rest document

/-- The encoder `yaml_mrb_to_node` of `yaml.c`.  `mrb_obj_as_string` is the host's string
conversion (`to_s`), used by the `default:` case, which then falls through to the
`MRB_TT_STRING` case.  The result is the document after the call and the returned id. -/
def yaml_mrb_to_node (mrb_obj_as_string : mrb_value → Bytes) :
    Nat → yaml_document_t → mrb_value → Except Fault (yaml_document_t × Nat)
  | 0, _, _ => .error .out_of_fuel
  | fuel + 1, document, .ary xs =>
      let added := yaml_document_add_sequence document
      match encode_array_items (yaml_mrb_to_node mrb_obj_as_string fuel) added.2 xs added.1 with
      | .error e => .error e
      | .ok document => .ok (document, added.2)
  | fuel + 1, document, .hash kvs =>
      let keys := mrb_hash_keys (.hash kvs)
      let added := yaml_document_add_mapping document
      match encode_hash_pairs (yaml_mrb_to_node mrb_obj_as_string fuel) (.hash kvs) added.2
          keys added.1 with
      | .error e => .error e
      | .ok document => .ok (document, added.2)
  | _ + 1, document, .str b => .ok (yaml_document_add_scalar document b)
  | _ + 1, document, value =>
      .ok (yaml_document_add_scalar document (mrb_obj_as_string value))

/-! ## Entry point: `mrb_yaml_load` -/

/-- Modelled from the spec: the parser's error field `yaml_error_type_t` of `yaml.h`;
`YAML_NO_ERROR` is the value of a successful parse. -/
inductive yaml_error_type_t where
  | YAML_NO_ERROR
  | YAML_MEMORY_ERROR
  | YAML_READER_ERROR
  | YAML_SCANNER_ERROR
  | YAML_PARSER_ERROR
  | YAML_COMPOSER_ERROR
  deriving DecidableEq, Repr

/-- Modelled from the spec: the fields of `yaml_parser_t` that `mrb_yaml_load` reads
after `yaml_parser_load`: the error kind and the problem description. -/
structure yaml_parser_t where
  error : yaml_error_type_t
  problem : String
  deriving DecidableEq, Repr

/-- The calls `mrb_yaml_load` makes, in the order of its statements;
`yaml_parser_init` is the call that sets the parser up at line 67. -/
inductive Call where
  | yaml_parser_init
  | yaml_parser_set_input_string
  | yaml_parser_load
  | mrb_raise
  | yaml_document_get_root_node
  | yaml_node_to_mrb
  | yaml_document_delete
  | yaml_parser_delete
  deriving DecidableEq, Repr

/-- How a call of `mrb_yaml_load` ends: `mrb_raise` leaves the function with a host
`RuntimeError` carrying a message, a fault stops the process, or a value is returned. -/
inductive LoadOutcome where
  | raised (message : String)
  | fault (f : Fault)
  | returned (result : mrb_value)

/-- A run of `mrb_yaml_load`: how it ended and the calls made up to that point. -/
structure LoadRun where
  outcome : LoadOutcome
  calls : List Call

/-- The entry point `mrb_yaml_load` of `yaml.c`.  `yaml_parser_load` is the external
parser: from the input bytes it yields the parser state and the loaded document. -/
def mrb_yaml_load (yaml_parser_load : Bytes → yaml_parser_t × yaml_document_t)
    (fuel : Nat) (yaml_str : Bytes) : LoadRun :=
  let loaded := yaml_parser_load yaml_str
  let parser := loaded.1
  let document := loaded.2
  let opening := [Call.yaml_parser_init, Call.yaml_parser_set_input_string,
    Call.yaml_parser_load]
  if parser.error ≠ .YAML_NO_ERROR then
    ⟨.raised parser.problem, opening ++ [Call.mrb_raise]⟩
  else
    let root := yaml_document_get_root_node document
    match yaml_node_to_mrb fuel document root with
    | .error f =>
        ⟨.fault f, opening ++ [Call.yaml_document_get_root_node, Call.yaml_node_to_mrb]⟩
    | .ok result =>
        ⟨.returned result, opening ++ [Call.yaml_document_get_root_node,
          Call.yaml_node_to_mrb, Call.yaml_document_delete, Call.yaml_parser_delete]⟩

/-! ## Entry point: `mrb_yaml_dump` and the byte sink `yaml_write` -/

/-- The sink `yaml_write_data_t` of `yaml.c`: the host string that accumulates the
emitted bytes (the `mrb` field is the interpreter handle and holds no data). -/
structure yaml_write_data_t where
  str : mrb_value

/-- Modelled from the spec: the host operation `mrb_str_buf_cat`: append the bytes of
`buffer`, as many as its size, at the end of a host string. -/
def mrb_str_buf_cat (str : mrb_value) (buffer : Bytes) : mrb_value :=
  match str with
  | .str b => .str (b ++ buffer)
  | other => other

/-- The write handler `yaml_write` of `yaml.c`: `buffer` with its `size` is one chunk.
The result is the sink after the call and the returned `int`. -/
def yaml_write (data : yaml_write_data_t) (buffer : Bytes) : yaml_write_data_t × Int :=
  (⟨mrb_str_buf_cat data.str buffer⟩, 1)

/-- Modelled from the spec: `emit(Document, sink)` calls the sink's write operation once
per chunk, in order; as libyaml does, it stops at the first call that reports failure by
returning `0`.  The result is the sink at the end and the values the calls returned. -/
def emit_chunks : List Bytes → yaml_write_data_t → yaml_write_data_t × List Int
  | [], data => (data, [])
  | chunk :: rest, data =>
      let written := yaml_write data chunk
      if written.2 = 0 then (written.1, [written.2])
      else
        let emitted := emit_chunks rest written.1
        (emitted.1, written.2 :: emitted.2)

/-- The entry point `mrb_yaml_dump` of `yaml.c`.  `yaml_emitter_dump` is the external
emitter: the chunks it hands to the write handler, from `yaml_emitter_open` to
`yaml_emitter_close`, for a given document.  The id returned by `yaml_mrb_to_node` is
discarded, as in the C code. -/
def mrb_yaml_dump (mrb_obj_as_string : mrb_value → Bytes)
    (yaml_emitter_dump : yaml_document_t → List Bytes) (fuel : Nat) (root : mrb_value) :
    Except Fault mrb_value :=
  let document := yaml_document_new
  match yaml_mrb_to_node mrb_obj_as_string fuel document root with
  | .error f => .error f
  | .ok (document, _) =>
      let write_data : yaml_write_data_t := ⟨mrb_str_new []⟩
      let emitted := emit_chunks (yaml_emitter_dump document) write_data
      .ok emitted.1.str

/-! ## Specification vocabulary -/

/-- Node `node` of `document` decodes to `v`: some recursion depth is enough for
`yaml_node_to_mrb` to return `v`. -/
def Decodes (document : yaml_document_t) (node : Option yaml_node_t) (v : mrb_value) : Prop :=
  ∃ fuel, yaml_node_to_mrb fuel document node = .ok v

/-- The association list obtained by storing the pairs `kvs` in turn, starting from
`acc`. -/
def hash_store_all (kvs acc : List (mrb_value × mrb_value)) : List (mrb_value × mrb_value) :=
  kvs.foldl (fun entries kv => hash_store kv.1 kv.2 entries) acc

mutual
/-- The number of nested calls of the encoder that a host value needs: `1` for a leaf
and for an empty container, one more than its deepest element otherwise. -/
def mrb_value.depth : mrb_value → Nat
  | .ary xs => depthList xs + 1
  | .hash kvs => depthPairs kvs + 1
  | _ => 1
/-- The largest depth among the elements of an array. -/
def depthList : List mrb_value → Nat
  | [] => 0
  | x :: xs => max (mrb_value.depth x) (depthList xs)
/-- The largest depth among the keys and values of a mapping. -/
def depthPairs : List (mrb_value × mrb_value) → Nat
  | [] => 0
  | (k, v) :: rest => max (max (mrb_value.depth k) (mrb_value.depth v)) (depthPairs rest)
end

/-- No two keys of the list are equal under the host's key equality. -/
def keys_unique : List mrb_value → Bool
  | [] => true
  | k :: ks => !(ks.any (fun other => mrb_eql k other)) && keys_unique ks

mutual
/-- A value as the decoder builds them: strings, arrays of such values, and mappings of
such values whose keys are pairwise different. -/
def mrb_value.normal : mrb_value → Bool
  | .str _ => true
  | .ary xs => normalList xs
  | .hash kvs => normalPairs kvs && keys_unique (kvs.map Prod.fst)
  | _ => false
/-- Every element of the list is normal. -/
def normalList : List mrb_value → Bool
  | [] => true
  | x :: xs => mrb_value.normal x && normalList xs
/-- Every key and value of the association list is normal. -/
def normalPairs : List (mrb_value × mrb_value) → Bool
  | [] => true
  | (k, v) :: rest => mrb_value.normal k && (mrb_value.normal v && normalPairs rest)
end

/-- The value is a host string. -/
def mrb_string_p : mrb_value → Bool
  | .str _ => true
  | _ => false

mutual
/-- A plain tree: built only from strings, arrays and mappings, every mapping having
string keys that are pairwise different. -/
def mrb_value.plain : mrb_value → Bool
  | .str _ => true
  | .ary xs => plainList xs
  | .hash kvs => plainPairs kvs && keys_unique (kvs.map Prod.fst)
  | _ => false
/-- Every element of the list is a plain tree. -/
def plainList : List mrb_value → Bool
  | [] => true
  | x :: xs => mrb_value.plain x && plainList xs
/-- Every key is a string and every value is a plain tree. -/
def plainPairs : List (mrb_value × mrb_value) → Bool
  | [] => true
  | (k, v) :: rest => mrb_string_p k && (mrb_value.plain v && plainPairs rest)
end

/-- The run of the `MRB_TT_ARRAY` loop as a relation: from document `d`, encoding the
elements in order with `encode` and appending each returned id to sequence `node` ends
in the last document, the ids returned by the recursive calls being `ids`, in call
order. -/
inductive ItemsRun
    (encode : yaml_document_t → mrb_value → Except Fault (yaml_document_t × Nat))
    (node : Nat) : List mrb_value → yaml_document_t → List Nat → yaml_document_t → Prop where
  | done (d : yaml_document_t) : ItemsRun encode node [] d [] d
  | step {x : mrb_value} {xs : List mrb_value} {d d₁ d₂ d₃ : yaml_document_t}
      {child_node : Nat} {ids : List Nat}
      (henc : encode d x = .ok (d₁, child_node))
      (happ : yaml_document_append_sequence_item d₁ node child_node = .ok d₂)
      (hrest : ItemsRun encode node xs d₂ ids d₃) :
      ItemsRun encode node (x :: xs) d (child_node :: ids) d₃

/-- The run of the `MRB_TT_HASH` loop as a relation: for each key in order, the key is
encoded first, then the value looked up under it, then the pair of returned ids is
appended to mapping `node`; `pairs` lists the returned id pairs in call order. -/
inductive PairsRun
    (encode : yaml_document_t → mrb_value → Except Fault (yaml_document_t × Nat))
    (value : mrb_value) (node : Nat) :
    List mrb_value → yaml_document_t → List (Nat × Nat) → yaml_document_t → Prop where
  | done (d : yaml_document_t) : PairsRun encode value node [] d [] d
  | step {key : mrb_value} {keys : List mrb_value} {d d₁ d₂ d₃ d₄ : yaml_document_t}
      {key_node child_node : Nat} {pairs : List (Nat × Nat)}
      (hkey : encode d key = .ok (d₁, key_node))
      (hval : encode d₁ (mrb_hash_get value key) = .ok (d₂, child_node))
      (happ : yaml_document_append_mapping_pair d₂ node key_node child_node = .ok d₃)
      (hrest : PairsRun encode value node keys d₃ pairs d₄) :
      PairsRun encode value node (key :: keys) d ((key_node, child_node) :: pairs) d₄

/-- A recursive call `encode` handles `x` well: on every document it only appends nodes,
at least one, returns the id of the first appended node, and that node decodes to `w`
with recursion depth `fuel` wherever the appended nodes sit at the same position. -/
def EncodesTo (encode : yaml_document_t → mrb_value → Except Fault (yaml_document_t × Nat))
    (fuel : Nat) (x w : mrb_value) : Prop :=
  ∀ d : yaml_document_t, ∃ new : List yaml_node_t,
    encode d x = .ok (d ++ new, d.length + 1) ∧ new ≠ [] ∧
    ∀ pre ext : yaml_document_t, pre.length = d.length →
      yaml_node_to_mrb fuel (pre ++ new ++ ext)
        (yaml_document_get_node (pre ++ new ++ ext) (d.length + 1)) = .ok w

/-- The key and value ids of a list of pairs, pair by pair, the key id first. -/
def pair_refs : List (Nat × Nat) → List Nat
  | [] => []
  | (key, value) :: rest => key :: value :: pair_refs rest

/-- The child references held by one node, in stored order: the item ids of a sequence,
the key and value ids of the pairs of a mapping, none for the other kinds. -/
def node_refs : yaml_node_t → List Nat
  | .sequence items => items
  | .mapping pairs => pair_refs pairs
  | _ => []

/-- All child references of a list of nodes, node by node. -/
def child_refs : List yaml_node_t → List Nat
  | [] => []
  | n :: rest => node_refs n ++ child_refs rest

/-- The nodes `nodes`, which sit at the ids `id`, `id + 1`, ... of a document of `count`
nodes, refer only to existing nodes with an id larger than their own. -/
def well_formed_from (count : Nat) : Nat → List yaml_node_t → Bool
  | _, [] => true
  | id, n :: rest =>
      (node_refs n).all (fun child => decide (id < child ∧ child ≤ count)) &&
        well_formed_from count (id + 1) rest

/-- A well-formed document: every item, key and value id refers to an existing node and
is strictly greater than the id of the node that holds it. -/
def document_well_formed (document : yaml_document_t) : Bool :=
  well_formed_from document.length 1 document

mutual
/-- A value built, at every depth, only from strings, arrays, mappings and nil. -/
def mrb_value.decoded : mrb_value → Bool
  | .nil => true
  | .str _ => true
  | .ary xs => decodedList xs
  | .hash kvs => decodedPairs kvs
  | _ => false
/-- Every element of the list is built only from strings, arrays, mappings and nil. -/
def decodedList : List mrb_value → Bool
  | [] => true
  | x :: xs => mrb_value.decoded x && decodedList xs
/-- Every key and value is built only from strings, arrays, mappings and nil. -/
def decodedPairs : List (mrb_value × mrb_value) → Bool
  | [] => true
  | (k, v) :: rest => mrb_value.decoded k && (mrb_value.decoded v && decodedPairs rest)
end

/-- The value `x` occurs strictly inside the value `v`: as an element, a key or a value
of `v`, or inside one of those. -/
inductive Within : mrb_value → mrb_value → Prop where
  | elem {x : mrb_value} {xs : List mrb_value} (h : x ∈ xs) : Within x (.ary xs)
  | key {p : mrb_value × mrb_value} {kvs : List (mrb_value × mrb_value)} (h : p ∈ kvs) :
      Within p.1 (.hash kvs)
  | val {p : mrb_value × mrb_value} {kvs : List (mrb_value × mrb_value)} (h : p ∈ kvs) :
      Within p.2 (.hash kvs)
  | step {x y z : mrb_value} (hxy : Within x y) (hyz : Within y z) : Within x z

/-- Normalisation `N`: encode a value into a fresh empty document and decode the node
whose id the encoder returned. -/
def normalise (mrb_obj_as_string : mrb_value → Bytes) (fuel : Nat) (v : mrb_value) :
    Except Fault mrb_value :=
  match yaml_mrb_to_node mrb_obj_as_string fuel yaml_document_new v with
  | .error f => .error f
  | .ok (document, node) =>
      yaml_node_to_mrb fuel document (yaml_document_get_node document node)

mutual
/-- Every scalar that encoding the value hands to libyaml passes `yaml_check_utf8`: the
bytes of every string in it and the string conversion of every other leaf. -/
def mrb_value.encodable (mrb_obj_as_string : mrb_value → Bytes) : mrb_value → Bool
  | .str b => yaml_check_utf8 b
  | .ary xs => encodableList mrb_obj_as_string xs
  | .hash kvs => encodablePairs mrb_obj_as_string kvs
  | .nil => yaml_check_utf8 (mrb_obj_as_string .nil)
  | .bool b => yaml_check_utf8 (mrb_obj_as_string (.bool b))
  | .fixnum n => yaml_check_utf8 (mrb_obj_as_string (.fixnum n))
  | .obj i => yaml_check_utf8 (mrb_obj_as_string (.obj i))
/-- Every element of the list is encodable. -/
def encodableList (mrb_obj_as_string : mrb_value → Bytes) : List mrb_value → Bool
  | [] => true
  | x :: xs => mrb_value.encodable mrb_obj_as_string x && encodableList mrb_obj_as_string xs
/-- Every key and value of the association list is encodable. -/
def encodablePairs (mrb_obj_as_string : mrb_value → Bytes) :
    List (mrb_value × mrb_value) → Bool
  | [] => true
  | (k, v) :: rest =>
      mrb_value.encodable mrb_obj_as_string k &&
        (mrb_value.encodable mrb_obj_as_string v && encodablePairs mrb_obj_as_string rest)
end

/-- The value `w` is the normal form of `v`: a string stays as it is; any other value
that is neither an array nor a mapping becomes the string of its string conversion; an
array becomes the array of the normal forms of its elements, in order; a mapping becomes
the mapping obtained from the empty one by `mrb_hash_set` with, for each key in
enumeration order, the normal form of the key and the normal form of the value stored
under it, so that of two keys with the same normal form the later one wins. -/
inductive Normalises (mrb_obj_as_string : mrb_value → Bytes) : mrb_value → mrb_value → Prop where
  | leaf (v : mrb_value) (hary : mrb_type v ≠ .MRB_TT_ARRAY) (hhash : mrb_type v ≠ .MRB_TT_HASH)
      (hstr : mrb_type v ≠ .MRB_TT_STRING) :
      Normalises mrb_obj_as_string v (.str (mrb_obj_as_string v))
  | str (b : Bytes) : Normalises mrb_obj_as_string (.str b) (.str b)
  | ary (xs ws : List mrb_value) (hlen : ws.length = xs.length)
      (helem : ∀ (i : Nat) (x w : mrb_value), xs.get? i = some x → ws.get? i = some w →
        Normalises mrb_obj_as_string x w) :
      Normalises mrb_obj_as_string (.ary xs) (.ary ws)
  | hash (kvs kws : List (mrb_value × mrb_value)) (hlen : kws.length = kvs.length)
      (hkey : ∀ (i : Nat) (kv kw : mrb_value × mrb_value), kvs.get? i = some kv →
        kws.get? i = some kw → Normalises mrb_obj_as_string kv.1 kw.1)
      (hval : ∀ (i : Nat) (kv kw : mrb_value × mrb_value), kvs.get? i = some kv →
        kws.get? i = some kw →
        Normalises mrb_obj_as_string (mrb_hash_get (.hash kvs) kv.1) kw.2) :
      Normalises mrb_obj_as_string (.hash kvs)
        (kws.foldl (fun h (kw : mrb_value × mrb_value) => mrb_hash_set h kw.1 kw.2)
          mrb_hash_new)

/-- What a call of the encoder that returns has done to the document, as a property of
the recursive call `encode`.  Either libyaml refused the scalar: the document is
unchanged and the returned id is `0`.  Or the call has appended a non-empty list `new` of
nodes and returned the id of the first of them; the child references held by the new
nodes are, up to order, the ids of the other new nodes, each once; and every new node
refers only to nodes with a larger id than its own. -/
def Appends (encode : yaml_document_t → mrb_value → Except Fault (yaml_document_t × Nat)) :
    Prop :=
  ∀ (d : yaml_document_t) (v : mrb_value) (d' : yaml_document_t) (id : Nat),
    encode d v = .ok (d', id) →
    (d' = d ∧ id = 0) ∨
    ∃ new : List yaml_node_t, d' = d ++ new ∧ id = d.length + 1 ∧ new ≠ [] ∧
      List.Perm (child_refs new) (List.range' (d.length + 2) (new.length - 1)) ∧
      well_formed_from (d.length + new.length) (d.length + 1) new = true

/-! ## Host values: induction and equality -/

namespace mrb_value

/-- Induction over host values: a property that holds for the leaves, for an array
whose elements have it and for a mapping whose keys and values have it, holds for every
value. -/
theorem induct {P : mrb_value → Prop} (hnil : P .nil) (hbool : ∀ b, P (.bool b))
    (hfix : ∀ n, P (.fixnum n)) (hobj : ∀ i, P (.obj i)) (hstr : ∀ b, P (.str b))
    (hary : ∀ xs, (∀ x ∈ xs, P x) → P (.ary xs))
    (hhash : ∀ kvs, (∀ p ∈ kvs, P p.1 ∧ P p.2) → P (.hash kvs)) : ∀ v, P v := by
  intro v
  refine @mrb_value.rec P (fun xs => ∀ x ∈ xs, P x)
    (fun kvs => ∀ p ∈ kvs, P p.1 ∧ P p.2) (fun p => P p.1 ∧ P p.2)
    hnil hbool hfix hobj hstr hary hhash ?_ ?_ ?_ ?_ ?_ v
  · intro x hx; cases hx
  · intro x xs hx hxs y hy
    rcases List.mem_cons.1 hy with h | h
    · exact h ▸ hx
    · exact hxs y h
  · intro p hp; cases hp
  · intro p ps hp hps q hq
    rcases List.mem_cons.1 hq with h | h
    · exact h ▸ hp
    · exact hps q h
  · intro a b ha hb; exact ⟨ha, hb⟩

theorem beqList_iff {xs : List mrb_value}
    (ih : ∀ x ∈ xs, ∀ y, beq x y = true ↔ x = y) :
    ∀ ys, beqList xs ys = true ↔ xs = ys := by
  induction xs with
  | nil => intro ys; cases ys <;> simp [beqList]
  | cons x xs hxs =>
    intro ys
    cases ys with
    | nil => simp [beqList]
    | cons y ys =>
      simp [beqList, ih x (List.mem_cons_self _ _) y,
        hxs (fun z hz => ih z (List.mem_cons_of_mem _ hz)) ys]

theorem beqPairs_iff {xs : List (mrb_value × mrb_value)}
    (ih : ∀ p ∈ xs, (∀ y, beq p.1 y = true ↔ p.1 = y) ∧ (∀ y, beq p.2 y = true ↔ p.2 = y)) :
    ∀ ys, beqPairs xs ys = true ↔ xs = ys := by
  induction xs with
  | nil => intro ys; cases ys <;> simp [beqPairs]
  | cons x xs hxs =>
    intro ys
    obtain ⟨a, b⟩ := x
    cases ys with
    | nil => simp [beqPairs]
    | cons y ys =>
      obtain ⟨c, d⟩ := y
      have h := ih (a, b) (List.mem_cons_self _ _)
      simp [beqPairs, h.1 c, h.2 d,
        hxs (fun z hz => ih z (List.mem_cons_of_mem _ hz)) ys, and_assoc]

theorem beq_iff : ∀ a b : mrb_value, beq a b = true ↔ a = b := by
  intro a
  induction a using induct with
  | hnil => intro b; cases b <;> simp [beq]
  | hbool x => intro b; cases b <;> simp [beq]
  | hfix x => intro b; cases b <;> simp [beq]
  | hobj x => intro b; cases b <;> simp [beq]
  | hstr x => intro b; cases b <;> simp [beq]
  | hary xs ih => intro b; cases b <;> simp [beq, beqList_iff ih]
  | hhash kvs ih => intro b; cases b <;> simp [beq, beqPairs_iff ih]

end mrb_value

/-- Host key equality is decided by the structural test. -/
instance : DecidableEq mrb_value := fun a b =>
  decidable_of_iff (mrb_value.beq a b = true) (mrb_value.beq_iff a b)

/-! ## Lemmas -/

theorem mrb_eql_iff (a b : mrb_value) : mrb_eql a b = true ↔ a = b :=
  mrb_value.beq_iff a b

theorem get_node_append_left {d : yaml_document_t} {i : Nat} {n : yaml_node_t}
    (h : yaml_document_get_node d i = some n) (ext : yaml_document_t) :
    yaml_document_get_node (d ++ ext) i = some n := by
  unfold yaml_document_get_node at h ⊢
  split at h
  · rename_i hi
    have h1 : 0 < i ∧ i ≤ (d ++ ext).length := by
      rw [List.length_append]; omega
    rw [if_pos h1, List.get?_eq_getElem?, List.getElem?_append_left (by omega)]
    rw [List.get?_eq_getElem?] at h
    exact h
  · cases h

theorem get_node_middle (pre : yaml_document_t) (n : yaml_node_t) (post : yaml_document_t) :
    yaml_document_get_node (pre ++ n :: post) (pre.length + 1) = some n := by
  unfold yaml_document_get_node
  have h1 : 0 < pre.length + 1 ∧ pre.length + 1 ≤ (pre ++ n :: post).length := by
    rw [List.length_append, List.length_cons]; omega
  rw [if_pos h1]
  simp [List.getElem_append_right]

theorem decode_sequence_items_ok_iff (decode : Option yaml_node_t → Except Fault mrb_value)
    (document : yaml_document_t) :
    ∀ (items : List Nat) (acc : List mrb_value) (w : mrb_value),
      decode_sequence_items decode document items (.ary acc) = .ok w ↔
        ∃ vs, List.Forall₂
          (fun item v => decode (yaml_document_get_node document item) = .ok v) items vs ∧
          w = .ary (acc ++ vs) := by
  intro items
  induction items with
  | nil =>
    intro acc w
    simp only [decode_sequence_items, Except.ok.injEq]
    constructor
    · intro h; exact ⟨[], List.Forall₂.nil, by simp [h]⟩
    · rintro ⟨vs, hvs, rfl⟩
      cases hvs; simp
  | cons item rest ih =>
    intro acc w
    simp only [decode_sequence_items]
    cases hc : decode (yaml_document_get_node document item) with
    | error e =>
      simp only []
      constructor
      · intro h; cases h
      · rintro ⟨vs, hvs, -⟩
        cases hvs with
        | cons h1 _ => rw [hc] at h1; cases h1
    | ok child =>
      simp only [mrb_ary_push]
      rw [ih]
      constructor
      · rintro ⟨vs, hvs, rfl⟩
        exact ⟨child :: vs, List.Forall₂.cons hc hvs, by simp⟩
      · rintro ⟨vs, hvs, rfl⟩
        cases hvs with
        | cons h1 h2 =>
          rw [hc] at h1
          cases h1
          exact ⟨_, h2, by simp⟩

theorem decode_mapping_pairs_ok_iff (decode : Option yaml_node_t → Except Fault mrb_value)
    (document : yaml_document_t) :
    ∀ (pairs : List (Nat × Nat)) (acc : List (mrb_value × mrb_value)) (w : mrb_value),
      decode_mapping_pairs decode document pairs (.hash acc) = .ok w ↔
        ∃ kvs, List.Forall₂
          (fun (pair : Nat × Nat) (kv : mrb_value × mrb_value) =>
            decode (yaml_document_get_node document pair.1) = .ok kv.1 ∧
            decode (yaml_document_get_node document pair.2) = .ok kv.2) pairs kvs ∧
          w = kvs.foldl (fun h (kv : mrb_value × mrb_value) => mrb_hash_set h kv.1 kv.2)
            (.hash acc) := by
  intro pairs
  induction pairs with
  | nil =>
    intro acc w
    simp only [decode_mapping_pairs, Except.ok.injEq]
    constructor
    · intro h; exact ⟨[], List.Forall₂.nil, by simp [h]⟩
    · rintro ⟨vs, hvs, rfl⟩
      cases hvs; simp
  | cons pair rest ih =>
    intro acc w
    simp only [decode_mapping_pairs]
    cases hk : decode (yaml_document_get_node document pair.1) with
    | error e =>
      simp only []
      constructor
      · intro h; cases h
      · rintro ⟨vs, hvs, -⟩
        cases hvs with
        | cons h1 _ => rw [hk] at h1; cases h1.1
    | ok key =>
      simp only []
      cases hv : decode (yaml_document_get_node document pair.2) with
      | error e =>
        simp only []
        constructor
        · intro h; cases h
        · rintro ⟨vs, hvs, -⟩
          cases hvs with
          | cons h1 _ => rw [hv] at h1; cases h1.2
      | ok value =>
        simp only [mrb_hash_set]
        rw [ih]
        constructor
        · rintro ⟨kvs, hkvs, rfl⟩
          exact ⟨(key, value) :: kvs, List.Forall₂.cons ⟨hk, hv⟩ hkvs, by simp [mrb_hash_set]⟩
        · rintro ⟨kvs, hkvs, rfl⟩
          cases hkvs with
          | cons h1 h2 =>
            rename_i kv kvs
            obtain ⟨a, b⟩ := kv
            rw [hk, hv] at h1
            simp only [Except.ok.injEq] at h1
            obtain ⟨rfl, rfl⟩ := h1
            exact ⟨_, h2, by simp [mrb_hash_set]⟩

theorem yaml_node_to_mrb_mono (document : yaml_document_t) :
    ∀ (fuel : Nat) (node : Option yaml_node_t) (v : mrb_value),
      yaml_node_to_mrb fuel document node = .ok v →
      ∀ more, fuel ≤ more → yaml_node_to_mrb more document node = .ok v := by
  intro fuel
  induction fuel with
  | zero => intro node v h; simp [yaml_node_to_mrb] at h
  | succ fuel ih =>
    intro node v h more hle
    obtain ⟨m, rfl⟩ : ∃ m, more = m + 1 := ⟨more - 1, by omega⟩
    have hm : fuel ≤ m := by omega
    match node, h with
    | none, h => simp [yaml_node_to_mrb] at h
    | some .no_node, h => simpa [yaml_node_to_mrb] using h
    | some .alias_node, h => simpa [yaml_node_to_mrb] using h
    | some (.scalar b), h => simpa [yaml_node_to_mrb] using h
    | some (.sequence items), h =>
      simp only [yaml_node_to_mrb, mrb_ary_new] at h ⊢
      rw [decode_sequence_items_ok_iff] at h ⊢
      obtain ⟨vs, hvs, hw⟩ := h
      exact ⟨vs, hvs.imp (fun _ _ hx => ih _ _ hx m hm), hw⟩
    | some (.mapping pairs), h =>
      simp only [yaml_node_to_mrb, mrb_hash_new] at h ⊢
      rw [decode_mapping_pairs_ok_iff] at h ⊢
      obtain ⟨kvs, hkvs, hw⟩ := h
      exact ⟨kvs, hkvs.imp (fun _ _ hx => ⟨ih _ _ hx.1 m hm, ih _ _ hx.2 m hm⟩), hw⟩

theorem Decodes.unique {document : yaml_document_t} {node : Option yaml_node_t}
    {v w : mrb_value} (hv : Decodes document node v) (hw : Decodes document node w) :
    v = w := by
  obtain ⟨f, hf⟩ := hv
  obtain ⟨g, hg⟩ := hw
  have h1 := yaml_node_to_mrb_mono document f node v hf (max f g) (le_max_left _ _)
  have h2 := yaml_node_to_mrb_mono document g node w hg (max f g) (le_max_right _ _)
  rw [h1] at h2
  exact Except.ok.inj h2

theorem forall₂_decodes_fuel {document : yaml_document_t} {items : List Nat}
    {vs : List mrb_value}
    (h : List.Forall₂
      (fun item v => Decodes document (yaml_document_get_node document item) v) items vs) :
    ∃ fuel, List.Forall₂
      (fun item v => yaml_node_to_mrb fuel document (yaml_document_get_node document item)
        = .ok v) items vs := by
  induction h with
  | nil => exact ⟨0, List.Forall₂.nil⟩
  | cons h1 _ ih =>
    obtain ⟨f, hf⟩ := h1
    obtain ⟨g, hg⟩ := ih
    refine ⟨max f g, List.Forall₂.cons ?_ (hg.imp ?_)⟩
    · exact yaml_node_to_mrb_mono document f _ _ hf _ (le_max_left _ _)
    · intro a b hab
      exact yaml_node_to_mrb_mono document g _ _ hab _ (le_max_right _ _)

theorem forall₂_pairs_decodes_fuel {document : yaml_document_t} {pairs : List (Nat × Nat)}
    {kvs : List (mrb_value × mrb_value)}
    (h : List.Forall₂
      (fun (pair : Nat × Nat) (kv : mrb_value × mrb_value) =>
        Decodes document (yaml_document_get_node document pair.1) kv.1 ∧
        Decodes document (yaml_document_get_node document pair.2) kv.2) pairs kvs) :
    ∃ fuel, List.Forall₂
      (fun (pair : Nat × Nat) (kv : mrb_value × mrb_value) =>
        yaml_node_to_mrb fuel document (yaml_document_get_node document pair.1) = .ok kv.1 ∧
        yaml_node_to_mrb fuel document (yaml_document_get_node document pair.2) = .ok kv.2)
      pairs kvs := by
  induction h with
  | nil => exact ⟨0, List.Forall₂.nil⟩
  | cons h1 _ ih =>
    obtain ⟨⟨f1, hf1⟩, ⟨f2, hf2⟩⟩ := h1
    obtain ⟨g, hg⟩ := ih
    refine ⟨max (max f1 f2) g, List.Forall₂.cons ⟨?_, ?_⟩ (hg.imp ?_)⟩
    · exact yaml_node_to_mrb_mono document f1 _ _ hf1 _ (by omega)
    · exact yaml_node_to_mrb_mono document f2 _ _ hf2 _ (by omega)
    · intro a b hab
      exact ⟨yaml_node_to_mrb_mono document g _ _ hab.1 _ (le_max_right _ _),
        yaml_node_to_mrb_mono document g _ _ hab.2 _ (le_max_right _ _)⟩

theorem decodes_sequence_iff (document : yaml_document_t) (items : List Nat) (w : mrb_value) :
    Decodes document (some (.sequence items)) w ↔
      ∃ vs, w = .ary vs ∧ List.Forall₂
        (fun item v => Decodes document (yaml_document_get_node document item) v)
        items vs := by
  constructor
  · rintro ⟨fuel, h⟩
    cases fuel with
    | zero => simp [yaml_node_to_mrb] at h
    | succ fuel =>
      simp only [yaml_node_to_mrb, mrb_ary_new] at h
      rw [decode_sequence_items_ok_iff] at h
      obtain ⟨vs, hvs, hw⟩ := h
      exact ⟨vs, by simpa using hw, hvs.imp (fun _ _ hx => ⟨fuel, hx⟩)⟩
  · rintro ⟨vs, rfl, hvs⟩
    obtain ⟨fuel, hf⟩ := forall₂_decodes_fuel hvs
    refine ⟨fuel + 1, ?_⟩
    simp only [yaml_node_to_mrb, mrb_ary_new]
    rw [decode_sequence_items_ok_iff]
    exact ⟨vs, hf, by simp⟩

theorem decodes_mapping_iff (document : yaml_document_t) (pairs : List (Nat × Nat))
    (w : mrb_value) :
    Decodes document (some (.mapping pairs)) w ↔
      ∃ kvs, w = kvs.foldl (fun h (kv : mrb_value × mrb_value) => mrb_hash_set h kv.1 kv.2)
          mrb_hash_new ∧
        List.Forall₂
          (fun (pair : Nat × Nat) (kv : mrb_value × mrb_value) =>
            Decodes document (yaml_document_get_node document pair.1) kv.1 ∧
            Decodes document (yaml_document_get_node document pair.2) kv.2) pairs kvs := by
  constructor
  · rintro ⟨fuel, h⟩
    cases fuel with
    | zero => simp [yaml_node_to_mrb] at h
    | succ fuel =>
      simp only [yaml_node_to_mrb, mrb_hash_new] at h
      rw [decode_mapping_pairs_ok_iff] at h
      obtain ⟨kvs, hkvs, hw⟩ := h
      exact ⟨kvs, hw, hkvs.imp (fun _ _ hx => ⟨⟨fuel, hx.1⟩, ⟨fuel, hx.2⟩⟩)⟩
  · rintro ⟨kvs, rfl, hkvs⟩
    obtain ⟨fuel, hf⟩ := forall₂_pairs_decodes_fuel hkvs
    refine ⟨fuel + 1, ?_⟩
    simp only [yaml_node_to_mrb]
    rw [mrb_hash_new, decode_mapping_pairs_ok_iff]
    exact ⟨kvs, hf, rfl⟩

theorem forall₂_get? {α β : Type} {R : α → β → Prop} {l₁ : List α} {l₂ : List β}
    (h : List.Forall₂ R l₁ l₂) :
    ∀ (j : Nat) (a : α), l₁.get? j = some a → ∃ b, l₂.get? j = some b ∧ R a b := by
  induction h with
  | nil => intro j a hj; simp at hj
  | cons h1 _ ih =>
    intro j a hj
    cases j with
    | zero =>
      simp only [List.get?_cons_zero, Option.some.injEq] at hj
      subst hj
      exact ⟨_, by simp, h1⟩
    | succ j =>
      simp only [List.get?_cons_succ] at hj ⊢
      exact ih j a hj

theorem hash_fetch_store_same (key val : mrb_value) :
    ∀ kvs, hash_fetch key (hash_store key val kvs) = some val := by
  intro kvs
  induction kvs with
  | nil => simp [hash_store, hash_fetch, mrb_eql_iff]
  | cons p rest ih =>
    obtain ⟨k, v⟩ := p
    by_cases hk : mrb_eql k key = true
    · simp [hash_store, hash_fetch, hk]
    · simp [hash_store, hash_fetch, hk, ih]

theorem hash_fetch_store_other {key other : mrb_value} (val : mrb_value) (hne : key ≠ other) :
    ∀ kvs, hash_fetch other (hash_store key val kvs) = hash_fetch other kvs := by
  intro kvs
  have hko : mrb_eql key other = false := by
    cases h : mrb_eql key other with
    | false => rfl
    | true => exact absurd ((mrb_eql_iff _ _).1 h) hne
  induction kvs with
  | nil => simp [hash_store, hash_fetch, hko]
  | cons p rest ih =>
    obtain ⟨k, v⟩ := p
    by_cases hk : mrb_eql k key = true
    · have : k = key := (mrb_eql_iff _ _).1 hk
      subst this
      simp [hash_store, hash_fetch, hk, hko]
    · simp [hash_store, hash_fetch, hk, ih]

theorem hash_store_keys (key val : mrb_value) :
    ∀ kvs, (hash_store key val kvs).map Prod.fst =
      if key ∈ kvs.map Prod.fst then kvs.map Prod.fst else kvs.map Prod.fst ++ [key] := by
  intro kvs
  induction kvs with
  | nil => simp [hash_store]
  | cons p rest ih =>
    obtain ⟨k, v⟩ := p
    by_cases hk : mrb_eql k key = true
    · have : k = key := (mrb_eql_iff _ _).1 hk
      subst this
      simp [hash_store, hk]
    · have hne : ¬ key = k := fun h => hk ((mrb_eql_iff _ _).2 h.symm)
      simp only [hash_store, hk, Bool.false_eq_true, ↓reduceIte, List.map_cons, ih,
        List.mem_cons, hne, false_or]
      split <;> simp

theorem hash_store_keys_nodup (key val : mrb_value) {kvs : List (mrb_value × mrb_value)}
    (h : (kvs.map Prod.fst).Nodup) : ((hash_store key val kvs).map Prod.fst).Nodup := by
  rw [hash_store_keys]
  split
  · exact h
  · rename_i hmem
    rw [List.nodup_append]
    refine ⟨h, List.nodup_singleton _, ?_⟩
    intro a ha hb
    simp only [List.mem_singleton] at hb
    subst hb
    exact hmem ha

theorem foldl_mrb_hash_set (kvs : List (mrb_value × mrb_value)) :
    ∀ acc, kvs.foldl (fun h (kv : mrb_value × mrb_value) => mrb_hash_set h kv.1 kv.2)
      (.hash acc) = .hash (hash_store_all kvs acc) := by
  induction kvs with
  | nil => intro acc; rfl
  | cons p rest ih =>
    intro acc
    rw [List.foldl_cons,
      show mrb_hash_set (.hash acc) p.1 p.2 = .hash (hash_store p.1 p.2 acc) from rfl, ih]
    rfl

theorem hash_store_all_keys_nodup (kvs : List (mrb_value × mrb_value)) :
    ∀ acc, (acc.map Prod.fst).Nodup → ((hash_store_all kvs acc).map Prod.fst).Nodup := by
  induction kvs with
  | nil => intro acc h; exact h
  | cons p rest ih =>
    intro acc h
    exact ih _ (hash_store_keys_nodup p.1 p.2 h)

theorem hash_fetch_store_all_other {key : mrb_value} (kvs : List (mrb_value × mrb_value))
    (h : ∀ p ∈ kvs, p.1 ≠ key) :
    ∀ acc, hash_fetch key (hash_store_all kvs acc) = hash_fetch key acc := by
  induction kvs with
  | nil => intro acc; rfl
  | cons p rest ih =>
    intro acc
    have h1 : p.1 ≠ key := h p (List.mem_cons_self _ _)
    have := ih (fun q hq => h q (List.mem_cons_of_mem _ hq)) (hash_store p.1 p.2 acc)
    simp only [hash_store_all, List.foldl_cons] at this ⊢
    rw [this, hash_fetch_store_other _ h1]

theorem hash_fetch_store_all_last (l₁ l₂ : List (mrb_value × mrb_value))
    (key val : mrb_value) (h : ∀ p ∈ l₂, p.1 ≠ key) (acc : List (mrb_value × mrb_value)) :
    hash_fetch key (hash_store_all (l₁ ++ (key, val) :: l₂) acc) = some val := by
  have : hash_store_all (l₁ ++ (key, val) :: l₂) acc =
      hash_store_all l₂ (hash_store key val (hash_store_all l₁ acc)) := by
    simp [hash_store_all, List.foldl_append]
  rw [this, hash_fetch_store_all_other l₂ h, hash_fetch_store_same]

theorem hash_fetch_filter {key val : mrb_value} :
    ∀ {kvs : List (mrb_value × mrb_value)}, (kvs.map Prod.fst).Nodup →
      hash_fetch key kvs = some val →
      kvs.filter (fun p => mrb_eql p.1 key) = [(key, val)] := by
  intro kvs
  induction kvs with
  | nil => intro _ h; simp [hash_fetch] at h
  | cons p rest ih =>
    obtain ⟨k, v⟩ := p
    intro hnd hf
    simp only [List.map_cons, List.nodup_cons] at hnd
    by_cases hk : mrb_eql k key = true
    · have hkk : k = key := (mrb_eql_iff _ _).1 hk
      subst hkk
      simp only [hash_fetch, hk, ↓reduceIte, Option.some.injEq] at hf
      subst hf
      have hrest : rest.filter (fun p => mrb_eql p.1 k) = [] := by
        rw [List.filter_eq_nil_iff]
        intro q hq hqk
        have : q.1 = k := (mrb_eql_iff _ _).1 hqk
        exact hnd.1 (this ▸ List.mem_map_of_mem Prod.fst hq)
      simp [List.filter_cons, hk, hrest]
    · simp only [hash_fetch, hk, Bool.false_eq_true, ↓reduceIte] at hf
      simp [List.filter_cons, hk, ih hnd.2 hf]

theorem set_middle (pre : yaml_document_t) (n n' : yaml_node_t) (post : yaml_document_t) :
    (pre ++ n :: post).set pre.length n' = pre ++ n' :: post := by
  induction pre with
  | nil => rfl
  | cons a pre ih => simp [List.set, ih]

theorem get_node_new {d new : yaml_document_t} (h : new ≠ []) :
    ∃ n, yaml_document_get_node (d ++ new) (d.length + 1) = some n := by
  cases new with
  | nil => exact absurd rfl h
  | cons n t => exact ⟨n, get_node_middle d n t⟩

theorem append_sequence_item_middle (pre : yaml_document_t) (items : List Nat)
    (post : yaml_document_t) (item : Nat) (n : yaml_node_t)
    (h : yaml_document_get_node (pre ++ .sequence items :: post) item = some n) :
    yaml_document_append_sequence_item (pre ++ .sequence items :: post) (pre.length + 1) item
      = .ok (pre ++ .sequence (items ++ [item]) :: post) := by
  unfold yaml_document_append_sequence_item
  rw [get_node_middle, h]
  simp only [Nat.add_sub_cancel, set_middle]

theorem append_mapping_pair_middle (pre : yaml_document_t) (pairs : List (Nat × Nat))
    (post : yaml_document_t) (key value : Nat) (n m : yaml_node_t)
    (hk : yaml_document_get_node (pre ++ .mapping pairs :: post) key = some n)
    (hv : yaml_document_get_node (pre ++ .mapping pairs :: post) value = some m) :
    yaml_document_append_mapping_pair (pre ++ .mapping pairs :: post) (pre.length + 1)
      key value = .ok (pre ++ .mapping (pairs ++ [(key, value)]) :: post) := by
  unfold yaml_document_append_mapping_pair
  rw [get_node_middle, hk, hv]
  simp only [Nat.add_sub_cancel, set_middle]

theorem encode_array_items_spec
    (encode : yaml_document_t → mrb_value → Except Fault (yaml_document_t × Nat))
    (fuel : Nat) {xs ws : List mrb_value}
    (h : List.Forall₂ (fun x w => EncodesTo encode fuel x w) xs ws) :
    ∀ (d₀ : yaml_document_t) (its : List Nat) (rest : yaml_document_t),
      ∃ (ids : List Nat) (new : List yaml_node_t),
        encode_array_items encode (d₀.length + 1) xs (d₀ ++ .sequence its :: rest)
          = .ok (d₀ ++ .sequence (its ++ ids) :: (rest ++ new)) ∧
        ItemsRun encode (d₀.length + 1) xs (d₀ ++ .sequence its :: rest) ids
          (d₀ ++ .sequence (its ++ ids) :: (rest ++ new)) ∧
        ids.length = xs.length ∧
        ∀ pre ext : yaml_document_t, pre.length = d₀.length + 1 + rest.length →
          List.Forall₂ (fun id w => yaml_node_to_mrb fuel (pre ++ new ++ ext)
            (yaml_document_get_node (pre ++ new ++ ext) id) = .ok w) ids ws := by
  induction h with
  | nil =>
    intro d₀ its rest
    refine ⟨[], [], by simp [encode_array_items], ?_, rfl, fun _ _ _ => List.Forall₂.nil⟩
    simpa using ItemsRun.done _
  | @cons x w xs ws hx _ ih =>
    intro d₀ its rest
    obtain ⟨new₁, henc, hne, hdec⟩ := hx (d₀ ++ .sequence its :: rest)
    obtain ⟨n, hn⟩ := get_node_new (d := d₀ ++ .sequence its :: rest) hne
    have hlen : (d₀ ++ yaml_node_t.sequence its :: rest).length
        = d₀.length + 1 + rest.length := by
      simp [List.length_append]; omega
    have happ := append_sequence_item_middle d₀ its (rest ++ new₁)
      ((d₀ ++ yaml_node_t.sequence its :: rest).length + 1) n
      (by simpa [List.append_assoc] using hn)
    have happ' : yaml_document_append_sequence_item
        ((d₀ ++ yaml_node_t.sequence its :: rest) ++ new₁) (d₀.length + 1)
        ((d₀ ++ yaml_node_t.sequence its :: rest).length + 1)
        = .ok (d₀ ++ .sequence (its ++ [(d₀ ++ yaml_node_t.sequence its :: rest).length + 1])
            :: (rest ++ new₁)) := by
      simpa [List.append_assoc] using happ
    obtain ⟨ids, new, hloop, hrun, hlen', hdec'⟩ :=
      ih d₀ (its ++ [(d₀ ++ yaml_node_t.sequence its :: rest).length + 1]) (rest ++ new₁)
    refine ⟨((d₀ ++ yaml_node_t.sequence its :: rest).length + 1) :: ids, new₁ ++ new,
      ?_, ?_, by simp [hlen'], ?_⟩
    · simp only [encode_array_items, henc, happ', hloop]
      simp [List.append_assoc]
    · have := ItemsRun.step henc happ' hrun
      simpa [List.append_assoc] using this
    · intro pre ext hpre
      refine List.Forall₂.cons ?_ ?_
      · have := hdec pre (new ++ ext) (by omega)
        simpa [List.append_assoc] using this
      · have := hdec' (pre ++ new₁) ext (by simp [List.length_append]; omega)
        simpa [List.append_assoc] using this

theorem encode_hash_pairs_spec
    (encode : yaml_document_t → mrb_value → Except Fault (yaml_document_t × Nat))
    (fuel : Nat) (value : mrb_value) {keys : List mrb_value}
    {kws : List (mrb_value × mrb_value)}
    (h : List.Forall₂ (fun key (kw : mrb_value × mrb_value) =>
      EncodesTo encode fuel key kw.1 ∧ EncodesTo encode fuel (mrb_hash_get value key) kw.2)
      keys kws) :
    ∀ (d₀ : yaml_document_t) (ps : List (Nat × Nat)) (rest : yaml_document_t),
      ∃ (pairs : List (Nat × Nat)) (new : List yaml_node_t),
        encode_hash_pairs encode value (d₀.length + 1) keys (d₀ ++ .mapping ps :: rest)
          = .ok (d₀ ++ .mapping (ps ++ pairs) :: (rest ++ new)) ∧
        PairsRun encode value (d₀.length + 1) keys (d₀ ++ .mapping ps :: rest) pairs
          (d₀ ++ .mapping (ps ++ pairs) :: (rest ++ new)) ∧
        pairs.length = keys.length ∧
        ∀ pre ext : yaml_document_t, pre.length = d₀.length + 1 + rest.length →
          List.Forall₂ (fun (p : Nat × Nat) (kw : mrb_value × mrb_value) =>
            yaml_node_to_mrb fuel (pre ++ new ++ ext)
              (yaml_document_get_node (pre ++ new ++ ext) p.1) = .ok kw.1 ∧
            yaml_node_to_mrb fuel (pre ++ new ++ ext)
              (yaml_document_get_node (pre ++ new ++ ext) p.2) = .ok kw.2) pairs kws := by
  induction h with
  | nil =>
    intro d₀ ps rest
    refine ⟨[], [], by simp [encode_hash_pairs], ?_, rfl, fun _ _ _ => List.Forall₂.nil⟩
    simpa using PairsRun.done _
  | @cons key kw keys kws hx _ ih =>
    intro d₀ ps rest
    obtain ⟨new₁, henc₁, hne₁, hdec₁⟩ := hx.1 (d₀ ++ .mapping ps :: rest)
    obtain ⟨new₂, henc₂, hne₂, hdec₂⟩ := hx.2 ((d₀ ++ .mapping ps :: rest) ++ new₁)
    obtain ⟨n, hn⟩ := get_node_new (d := d₀ ++ .mapping ps :: rest) hne₁
    obtain ⟨m, hm⟩ := get_node_new (d := (d₀ ++ .mapping ps :: rest) ++ new₁) hne₂
    have hn' := get_node_append_left hn new₂
    have hlen : (d₀ ++ yaml_node_t.mapping ps :: rest).length
        = d₀.length + 1 + rest.length := by
      simp [List.length_append]; omega
    have happ := append_mapping_pair_middle d₀ ps (rest ++ new₁ ++ new₂)
      ((d₀ ++ yaml_node_t.mapping ps :: rest).length + 1)
      ((d₀ ++ yaml_node_t.mapping ps :: rest ++ new₁).length + 1) n m
      (by simpa [List.append_assoc] using hn') (by simpa [List.append_assoc] using hm)
    have happ' : yaml_document_append_mapping_pair
        (((d₀ ++ yaml_node_t.mapping ps :: rest) ++ new₁) ++ new₂) (d₀.length + 1)
        ((d₀ ++ yaml_node_t.mapping ps :: rest).length + 1)
        ((d₀ ++ yaml_node_t.mapping ps :: rest ++ new₁).length + 1)
        = .ok (d₀ ++ .mapping (ps ++ [((d₀ ++ yaml_node_t.mapping ps :: rest).length + 1,
            (d₀ ++ yaml_node_t.mapping ps :: rest ++ new₁).length + 1)])
            :: (rest ++ new₁ ++ new₂)) := by
      simpa [List.append_assoc] using happ
    obtain ⟨pairs, new, hloop, hrun, hlen', hdec'⟩ :=
      ih d₀ (ps ++ [((d₀ ++ yaml_node_t.mapping ps :: rest).length + 1,
            (d₀ ++ yaml_node_t.mapping ps :: rest ++ new₁).length + 1)]) (rest ++ new₁ ++ new₂)
    refine ⟨((d₀ ++ yaml_node_t.mapping ps :: rest).length + 1,
        (d₀ ++ yaml_node_t.mapping ps :: rest ++ new₁).length + 1) :: pairs,
      new₁ ++ new₂ ++ new, ?_, ?_, by simp [hlen'], ?_⟩
    · have henc₂' : encode (d₀ ++ yaml_node_t.mapping ps :: rest ++ new₁)
          (mrb_hash_get value key) = .ok (d₀ ++ yaml_node_t.mapping ps :: rest ++ new₁ ++ new₂,
            (d₀ ++ yaml_node_t.mapping ps :: rest ++ new₁).length + 1) := henc₂
      simp only [encode_hash_pairs, henc₁, henc₂', happ', hloop]
      simp [List.append_assoc]
    · have := PairsRun.step henc₁ henc₂ happ' hrun
      simpa [List.append_assoc] using this
    · intro pre ext hpre
      refine List.Forall₂.cons ⟨?_, ?_⟩ ?_
      · have := hdec₁ pre (new₂ ++ new ++ ext) (by omega)
        simpa [List.append_assoc] using this
      · have := hdec₂ (pre ++ new₁) (new ++ ext) (by simp [List.length_append]; omega)
        simpa [List.append_assoc] using this
      · have := hdec' (pre ++ new₁ ++ new₂) ext (by simp [List.length_append]; omega)
        simpa [List.append_assoc] using this

theorem depth_le_depthList {x : mrb_value} :
    ∀ {xs : List mrb_value}, x ∈ xs → x.depth ≤ depthList xs := by
  intro xs
  induction xs with
  | nil => intro h; cases h
  | cons y ys ih =>
    intro h
    simp only [depthList]
    rcases List.mem_cons.1 h with h | h
    · subst h; exact le_max_left _ _
    · exact le_trans (ih h) (le_max_right _ _)

theorem depth_le_depthPairs {p : mrb_value × mrb_value} :
    ∀ {kvs : List (mrb_value × mrb_value)}, p ∈ kvs →
      p.1.depth ≤ depthPairs kvs ∧ p.2.depth ≤ depthPairs kvs := by
  intro kvs
  induction kvs with
  | nil => intro h; cases h
  | cons q rest ih =>
    obtain ⟨k, v⟩ := q
    intro h
    simp only [depthPairs]
    rcases List.mem_cons.1 h with h | h
    · subst h
      exact ⟨le_trans (le_max_left _ _) (le_max_left _ _),
        le_trans (le_max_right _ _) (le_max_left _ _)⟩
    · exact ⟨le_trans (ih h).1 (le_max_right _ _), le_trans (ih h).2 (le_max_right _ _)⟩

theorem normalList_iff : ∀ {xs : List mrb_value},
    normalList xs = true ↔ ∀ x ∈ xs, x.normal = true := by
  intro xs
  induction xs with
  | nil => simp [normalList]
  | cons y ys ih => simp [normalList, ih]

theorem normalPairs_iff : ∀ {kvs : List (mrb_value × mrb_value)},
    normalPairs kvs = true ↔ ∀ p ∈ kvs, p.1.normal = true ∧ p.2.normal = true := by
  intro kvs
  induction kvs with
  | nil => simp [normalPairs]
  | cons q rest ih =>
    obtain ⟨k, v⟩ := q
    simp [normalPairs, ih, and_assoc]

theorem keys_unique_iff : ∀ {ks : List mrb_value}, keys_unique ks = true ↔ ks.Nodup := by
  intro ks
  induction ks with
  | nil => simp [keys_unique]
  | cons k ks ih =>
    simp only [keys_unique, Bool.and_eq_true, Bool.not_eq_true', ih, List.nodup_cons]
    refine and_congr ?_ Iff.rfl
    rw [← Bool.not_eq_true, List.any_eq_true]
    constructor
    · intro h hk
      exact h ⟨k, hk, (mrb_eql_iff _ _).2 rfl⟩
    · rintro h ⟨y, hy, hky⟩
      exact h ((mrb_eql_iff _ _).1 hky ▸ hy)

theorem hash_fetch_of_mem_keys {key : mrb_value} :
    ∀ {kvs : List (mrb_value × mrb_value)}, key ∈ kvs.map Prod.fst →
      ∃ p ∈ kvs, hash_fetch key kvs = some p.2 := by
  intro kvs
  induction kvs with
  | nil => intro h; simp at h
  | cons q rest ih =>
    obtain ⟨k, v⟩ := q
    intro h
    by_cases hk : mrb_eql k key = true
    · exact ⟨(k, v), List.mem_cons_self _ _, by simp [hash_fetch, hk]⟩
    · have hne : ¬ key = k := fun e => hk ((mrb_eql_iff _ _).2 e.symm)
      simp only [List.map_cons, List.mem_cons, hne, false_or] at h
      obtain ⟨p, hp, hf⟩ := ih h
      exact ⟨p, List.mem_cons_of_mem _ hp, by simp [hash_fetch, hk, hf]⟩

theorem hash_fetch_of_mem_nodup {key val : mrb_value} :
    ∀ {kvs : List (mrb_value × mrb_value)}, (kvs.map Prod.fst).Nodup → (key, val) ∈ kvs →
      hash_fetch key kvs = some val := by
  intro kvs
  induction kvs with
  | nil => intro _ h; cases h
  | cons q rest ih =>
    obtain ⟨k, v⟩ := q
    intro hnd hmem
    simp only [List.map_cons, List.nodup_cons] at hnd
    rcases List.mem_cons.1 hmem with h | h
    · cases h
      simp [hash_fetch, (mrb_eql_iff key key).2 rfl]
    · have hne : ¬ mrb_eql k key = true := by
        intro e
        have : k = key := (mrb_eql_iff _ _).1 e
        subst this
        exact hnd.1 (List.mem_map_of_mem Prod.fst h)
      simp [hash_fetch, hne, ih hnd.2 h]

theorem hash_store_fresh {key : mrb_value} (val : mrb_value) :
    ∀ {kvs : List (mrb_value × mrb_value)}, key ∉ kvs.map Prod.fst →
      hash_store key val kvs = kvs ++ [(key, val)] := by
  intro kvs
  induction kvs with
  | nil => intro _; rfl
  | cons q rest ih =>
    obtain ⟨k, v⟩ := q
    intro h
    simp only [List.map_cons, List.mem_cons, not_or] at h
    have hk : ¬ mrb_eql k key = true := fun e => h.1 ((mrb_eql_iff _ _).1 e).symm
    simp [hash_store, hk, ih h.2]

theorem hash_store_all_fresh : ∀ (kvs acc : List (mrb_value × mrb_value)),
    ((acc ++ kvs).map Prod.fst).Nodup → hash_store_all kvs acc = acc ++ kvs := by
  intro kvs
  induction kvs with
  | nil => intro acc _; simp [hash_store_all]
  | cons q rest ih =>
    intro acc h
    have hfresh : q.1 ∉ acc.map Prod.fst := by
      intro hmem
      rw [List.map_append, List.nodup_append] at h
      exact h.2.2 hmem (by simp)
    have hstep : hash_store_all (q :: rest) acc = hash_store_all rest (hash_store q.1 q.2 acc) :=
      rfl
    rw [hstep, hash_store_fresh q.2 hfresh, ih]
    · simp
    · simpa using h

theorem hash_store_mem {key val : mrb_value} {Q : mrb_value → Prop} :
    ∀ {kvs : List (mrb_value × mrb_value)}, Q key → Q val →
      (∀ p ∈ kvs, Q p.1 ∧ Q p.2) → ∀ p ∈ hash_store key val kvs, Q p.1 ∧ Q p.2 := by
  intro kvs
  induction kvs with
  | nil =>
    intro hk hv _ p hp
    simp only [hash_store, List.mem_singleton] at hp
    subst hp
    exact ⟨hk, hv⟩
  | cons q rest ih =>
    obtain ⟨k, v⟩ := q
    intro hk hv hall p hp
    have hq := hall (k, v) (List.mem_cons_self _ _)
    have hrest : ∀ p ∈ rest, Q p.1 ∧ Q p.2 := fun p hp => hall p (List.mem_cons_of_mem _ hp)
    by_cases he : mrb_eql k key = true
    · simp only [hash_store, he, ↓reduceIte, List.mem_cons] at hp
      rcases hp with hp | hp
      · subst hp; exact ⟨hq.1, hv⟩
      · exact hrest p hp
    · simp only [hash_store, he, Bool.false_eq_true, ↓reduceIte, List.mem_cons] at hp
      rcases hp with hp | hp
      · subst hp; exact hq
      · exact ih hk hv hrest p hp

theorem hash_store_all_mem {Q : mrb_value → Prop} :
    ∀ (kvs acc : List (mrb_value × mrb_value)), (∀ p ∈ kvs, Q p.1 ∧ Q p.2) →
      (∀ p ∈ acc, Q p.1 ∧ Q p.2) → ∀ p ∈ hash_store_all kvs acc, Q p.1 ∧ Q p.2 := by
  intro kvs
  induction kvs with
  | nil => intro acc _ hacc; exact hacc
  | cons q rest ih =>
    intro acc hk hacc
    have hq := hk q (List.mem_cons_self _ _)
    exact ih (hash_store q.1 q.2 acc) (fun p hp => hk p (List.mem_cons_of_mem _ hp))
      (hash_store_mem hq.1 hq.2 hacc)

theorem exists_forall₂ {α β : Type} {R : α → β → Prop} :
    ∀ {xs : List α}, (∀ x ∈ xs, ∃ w, R x w) → ∃ ws, List.Forall₂ R xs ws := by
  intro xs
  induction xs with
  | nil => intro _; exact ⟨[], List.Forall₂.nil⟩
  | cons x xs ih =>
    intro h
    obtain ⟨w, hw⟩ := h x (List.mem_cons_self _ _)
    obtain ⟨ws, hws⟩ := ih (fun y hy => h y (List.mem_cons_of_mem _ hy))
    exact ⟨w :: ws, List.Forall₂.cons hw hws⟩

theorem encodesTo_scalar
    (encode : yaml_document_t → mrb_value → Except Fault (yaml_document_t × Nat))
    (fuel : Nat) (x : mrb_value) (b : Bytes)
    (h : ∀ d, encode d x = .ok (d ++ [.scalar b], d.length + 1)) :
    EncodesTo encode (fuel + 1) x (.str b) := by
  intro d
  refine ⟨[.scalar b], h d, by simp, ?_⟩
  intro pre ext hpre
  rw [← hpre]
  have : pre ++ [yaml_node_t.scalar b] ++ ext = pre ++ yaml_node_t.scalar b :: ext := by simp
  rw [this, get_node_middle]
  rfl

theorem forall₂_normal_eq {xs ws : List mrb_value}
    (h : List.Forall₂ (fun x w => x.normal = true → w = x) xs ws)
    (hn : ∀ x ∈ xs, x.normal = true) : ws = xs := by
  induction h with
  | nil => rfl
  | cons h1 _ ih =>
    rw [h1 (hn _ (List.mem_cons_self _ _)), ih (fun y hy => hn y (List.mem_cons_of_mem _ hy))]

theorem forall₂_mem_right {α β : Type} {R : α → β → Prop} {xs : List α} {ws : List β}
    (h : List.Forall₂ R xs ws) : ∀ w ∈ ws, ∃ x ∈ xs, R x w := by
  induction h with
  | nil => intro w hw; cases hw
  | cons h1 _ ih =>
    intro w hw
    rcases List.mem_cons.1 hw with e | e
    · subst e; exact ⟨_, List.mem_cons_self _ _, h1⟩
    · obtain ⟨x, hx, hr⟩ := ih w e
      exact ⟨x, List.mem_cons_of_mem _ hx, hr⟩

theorem forall₂_eq_map {α β : Type} {R : α → β → Prop} {f : α → β} {xs : List α}
    {ws : List β} (h : List.Forall₂ R xs ws) (hf : ∀ x ∈ xs, ∀ w, R x w → w = f x) :
    ws = xs.map f := by
  induction h with
  | nil => rfl
  | cons h1 _ ih =>
    rw [List.map_cons, ← hf _ (List.mem_cons_self _ _) _ h1,
      ← ih (fun y hy => hf y (List.mem_cons_of_mem _ hy))]

/-- The bound on the number of characters in `yaml_check_utf8_from` does not matter once
it is at least the number of octets. -/
theorem yaml_check_utf8_from_bound : ∀ (fuel more : Nat) (octets : List Nat),
    octets.length ≤ fuel → fuel ≤ more →
    yaml_check_utf8_from fuel octets = yaml_check_utf8_from more octets := by
  intro fuel
  induction fuel with
  | zero =>
    intro more octets hlen _
    cases octets with
    | nil => cases more <;> rfl
    | cons o rest => simp at hlen
  | succ fuel ih =>
    intro more octets hlen hle
    obtain ⟨m, rfl⟩ : ∃ m, more = m + 1 := ⟨more - 1, by omega⟩
    cases octets with
    | nil => rfl
    | cons o rest =>
      have key : ∀ k, yaml_check_utf8_from fuel (rest.drop k)
          = yaml_check_utf8_from m (rest.drop k) := by
        intro k
        refine ih m _ ?_ (by omega)
        simp only [List.length_drop, List.length_cons] at hlen ⊢
        omega
      simp only [yaml_check_utf8_from, key]

/-- A byte string whose bytes are all below `0x80`, NUL included, passes
`yaml_check_utf8`. -/
theorem yaml_check_utf8_ascii : ∀ (b : Bytes), (∀ o ∈ b, o.val < 128) →
    yaml_check_utf8 b = true := by
  intro b
  induction b with
  | nil => intro _; rfl
  | cons o rest ih =>
    intro h
    have ho : o.val < 128 := h o (List.mem_cons_self _ _)
    have hrest := ih (fun x hx => h x (List.mem_cons_of_mem _ hx))
    simp only [yaml_check_utf8] at hrest ⊢
    simp only [List.length_cons, List.map_cons, yaml_check_utf8_from]
    simp [ho, hrest]

theorem encodableList_iff (mrb_obj_as_string : mrb_value → Bytes) :
    ∀ {xs : List mrb_value},
      encodableList mrb_obj_as_string xs = true ↔
        ∀ x ∈ xs, x.encodable mrb_obj_as_string = true := by
  intro xs
  induction xs with
  | nil => simp [encodableList]
  | cons y ys ih => simp [encodableList, ih]

theorem encodablePairs_iff (mrb_obj_as_string : mrb_value → Bytes) :
    ∀ {kvs : List (mrb_value × mrb_value)},
      encodablePairs mrb_obj_as_string kvs = true ↔
        ∀ p ∈ kvs, p.1.encodable mrb_obj_as_string = true ∧
          p.2.encodable mrb_obj_as_string = true := by
  intro kvs
  induction kvs with
  | nil => simp [encodablePairs]
  | cons q rest ih =>
    obtain ⟨k, v⟩ := q
    simp [encodablePairs, ih, and_assoc]

theorem forall₂_get?_both {α β : Type} {R : α → β → Prop} {l₁ : List α} {l₂ : List β}
    (h : List.Forall₂ R l₁ l₂) :
    ∀ (j : Nat) (a : α) (b : β), l₁.get? j = some a → l₂.get? j = some b → R a b := by
  intro j a b ha hb
  obtain ⟨b', hb', hr⟩ := forall₂_get? h j a ha
  rw [hb] at hb'
  cases hb'
  exact hr

theorem add_scalar_accepted {b : Bytes} (h : yaml_check_utf8 b = true) (d : yaml_document_t) :
    yaml_document_add_scalar d b = (d ++ [.scalar b], d.length + 1) := by
  simp [yaml_document_add_scalar, h]

theorem add_scalar_refused {b : Bytes} (h : yaml_check_utf8 b = false) (d : yaml_document_t) :
    yaml_document_add_scalar d b = (d, 0) := by
  simp [yaml_document_add_scalar, h]

/-- The encoder on an encodable value of depth at most `fuel`: it only appends nodes,
returns the id of the first node it appends, and that node decodes to the normal form
`w` of the value, which is normal and encodable and is the encoded value itself when
that is normal. -/
theorem yaml_mrb_to_node_spec (mrb_obj_as_string : mrb_value → Bytes) :
    ∀ (v : mrb_value) (fuel : Nat), v.depth ≤ fuel →
      v.encodable mrb_obj_as_string = true →
      ∃ w, EncodesTo (yaml_mrb_to_node mrb_obj_as_string fuel) fuel v w ∧
        (w.normal = true ∧ w.encodable mrb_obj_as_string = true) ∧
        (v.normal = true → w = v) ∧ Normalises mrb_obj_as_string v w := by
  intro v
  induction v using mrb_value.induct with
  | hnil =>
    intro fuel hf he
    obtain ⟨f, rfl⟩ : ∃ f, fuel = f + 1 := ⟨fuel - 1, by simp [mrb_value.depth] at hf; omega⟩
    simp only [mrb_value.encodable] at he
    exact ⟨_, encodesTo_scalar _ f _ _
      (fun d => by simp only [yaml_mrb_to_node]; rw [add_scalar_accepted he]),
      ⟨rfl, by simpa [mrb_value.encodable] using he⟩, by simp [mrb_value.normal],
      Normalises.leaf _ (by decide) (by decide) (by decide)⟩
  | hbool b =>
    intro fuel hf he
    obtain ⟨f, rfl⟩ : ∃ f, fuel = f + 1 := ⟨fuel - 1, by simp [mrb_value.depth] at hf; omega⟩
    simp only [mrb_value.encodable] at he
    exact ⟨_, encodesTo_scalar _ f _ _
      (fun d => by simp only [yaml_mrb_to_node]; rw [add_scalar_accepted he]),
      ⟨rfl, by simpa [mrb_value.encodable] using he⟩, by simp [mrb_value.normal],
      Normalises.leaf _ (by cases b <;> decide) (by cases b <;> decide)
        (by cases b <;> decide)⟩
  | hfix n =>
    intro fuel hf he
    obtain ⟨f, rfl⟩ : ∃ f, fuel = f + 1 := ⟨fuel - 1, by simp [mrb_value.depth] at hf; omega⟩
    simp only [mrb_value.encodable] at he
    exact ⟨_, encodesTo_scalar _ f _ _
      (fun d => by simp only [yaml_mrb_to_node]; rw [add_scalar_accepted he]),
      ⟨rfl, by simpa [mrb_value.encodable] using he⟩, by simp [mrb_value.normal],
      Normalises.leaf _ (by simp [mrb_type]) (by simp [mrb_type]) (by simp [mrb_type])⟩
  | hobj i =>
    intro fuel hf he
    obtain ⟨f, rfl⟩ : ∃ f, fuel = f + 1 := ⟨fuel - 1, by simp [mrb_value.depth] at hf; omega⟩
    simp only [mrb_value.encodable] at he
    exact ⟨_, encodesTo_scalar _ f _ _
      (fun d => by simp only [yaml_mrb_to_node]; rw [add_scalar_accepted he]),
      ⟨rfl, by simpa [mrb_value.encodable] using he⟩, by simp [mrb_value.normal],
      Normalises.leaf _ (by simp [mrb_type]) (by simp [mrb_type]) (by simp [mrb_type])⟩
  | hstr b =>
    intro fuel hf he
    obtain ⟨f, rfl⟩ : ∃ f, fuel = f + 1 := ⟨fuel - 1, by simp [mrb_value.depth] at hf; omega⟩
    have he' : yaml_check_utf8 b = true := by simpa [mrb_value.encodable] using he
    exact ⟨_, encodesTo_scalar _ f _ _
      (fun d => by simp only [yaml_mrb_to_node]; rw [add_scalar_accepted he']),
      ⟨rfl, he⟩, fun _ => rfl, Normalises.str b⟩
  | hary xs ih =>
    intro fuel hf he
    obtain ⟨f, rfl⟩ : ∃ f, fuel = f + 1 := ⟨fuel - 1, by simp [mrb_value.depth] at hf; omega⟩
    have hd : depthList xs ≤ f := by simpa [mrb_value.depth] using hf
    have hex : ∀ x ∈ xs, x.encodable mrb_obj_as_string = true := by
      simp only [mrb_value.encodable] at he
      exact (encodableList_iff mrb_obj_as_string).1 he
    obtain ⟨ws, hws⟩ := exists_forall₂
      (fun x hx => ih x hx f (le_trans (depth_le_depthList hx) hd) (hex x hx))
    have henc : List.Forall₂
        (fun x w => EncodesTo (yaml_mrb_to_node mrb_obj_as_string f) f x w) xs ws :=
      hws.imp (fun _ _ h => h.1)
    refine ⟨.ary ws, ?_, ⟨?_, ?_⟩, ?_, ?_⟩
    · intro d
      obtain ⟨ids, new, hloop, -, -, hdec⟩ :=
        encode_array_items_spec (yaml_mrb_to_node mrb_obj_as_string f) f henc d [] []
      refine ⟨.sequence ids :: new, ?_, by simp, ?_⟩
      · simp only [yaml_mrb_to_node, yaml_document_add_sequence]
        rw [hloop]
        simp
      · intro pre ext hpre
        rw [← hpre]
        have e1 : pre ++ yaml_node_t.sequence ids :: new ++ ext
            = pre ++ yaml_node_t.sequence ids :: (new ++ ext) := by simp
        rw [e1, get_node_middle]
        simp only [yaml_node_to_mrb, mrb_ary_new]
        rw [decode_sequence_items_ok_iff]
        refine ⟨ws, ?_, by simp⟩
        have := hdec (pre ++ [.sequence ids]) ext (by simp [hpre])
        simpa [List.append_assoc] using this
    · simp only [mrb_value.normal]
      rw [normalList_iff]
      intro w hw
      obtain ⟨x, -, hx⟩ := forall₂_mem_right hws w hw
      exact hx.2.1.1
    · simp only [mrb_value.encodable]
      rw [encodableList_iff]
      intro w hw
      obtain ⟨x, -, hx⟩ := forall₂_mem_right hws w hw
      exact hx.2.1.2
    · intro hn
      simp only [mrb_value.normal] at hn
      rw [normalList_iff] at hn
      rw [forall₂_normal_eq (hws.imp (fun _ _ h => h.2.2.1)) hn]
    · exact Normalises.ary xs ws hws.length_eq.symm
        (fun i x w hx hw => (forall₂_get?_both hws i x w hx hw).2.2.2)
  | hhash kvs ih =>
    intro fuel hf he
    obtain ⟨f, rfl⟩ : ∃ f, fuel = f + 1 := ⟨fuel - 1, by simp [mrb_value.depth] at hf; omega⟩
    have hd : depthPairs kvs ≤ f := by simpa [mrb_value.depth] using hf
    have hex : ∀ p ∈ kvs, p.1.encodable mrb_obj_as_string = true ∧
        p.2.encodable mrb_obj_as_string = true := by
      simp only [mrb_value.encodable] at he
      exact (encodablePairs_iff mrb_obj_as_string).1 he
    have hget : ∀ key ∈ kvs.map Prod.fst, ∃ p ∈ kvs,
        mrb_hash_get (.hash kvs) key = p.2 := by
      intro key hkey
      obtain ⟨p, hp, hfetch⟩ := hash_fetch_of_mem_keys hkey
      exact ⟨p, hp, by simp [mrb_hash_get, hfetch]⟩
    obtain ⟨kws, hkws⟩ := @exists_forall₂ _ _
      (fun key (kw : mrb_value × mrb_value) =>
        (EncodesTo (yaml_mrb_to_node mrb_obj_as_string f) f key kw.1 ∧
          (kw.1.normal = true ∧ kw.1.encodable mrb_obj_as_string = true) ∧
          (key.normal = true → kw.1 = key) ∧ Normalises mrb_obj_as_string key kw.1) ∧
        (EncodesTo (yaml_mrb_to_node mrb_obj_as_string f) f
            (mrb_hash_get (.hash kvs) key) kw.2 ∧
          (kw.2.normal = true ∧ kw.2.encodable mrb_obj_as_string = true) ∧
          ((mrb_hash_get (.hash kvs) key).normal = true →
            kw.2 = mrb_hash_get (.hash kvs) key) ∧
          Normalises mrb_obj_as_string (mrb_hash_get (.hash kvs) key) kw.2))
      (kvs.map Prod.fst) (by
        intro key hkey
        obtain ⟨q, hq, hqk⟩ := List.mem_map.1 hkey
        obtain ⟨p, hp, hpv⟩ := hget key hkey
        obtain ⟨w₁, h₁⟩ := (ih q hq).1 f (le_trans (depth_le_depthPairs hq).1 hd) (hex q hq).1
        obtain ⟨w₂, h₂⟩ := (ih p hp).2 f (le_trans (depth_le_depthPairs hp).2 hd) (hex p hp).2
        exact ⟨(w₁, w₂), hqk ▸ h₁, hpv ▸ h₂⟩)
    refine ⟨.hash (hash_store_all kws []), ?_, ⟨?_, ?_⟩, ?_, ?_⟩
    · intro d
      obtain ⟨pairs, new, hloop, -, -, hdec⟩ :=
        encode_hash_pairs_spec (yaml_mrb_to_node mrb_obj_as_string f) f (.hash kvs)
          (hkws.imp (fun _ _ h => ⟨h.1.1, h.2.1⟩)) d [] []
      refine ⟨.mapping pairs :: new, ?_, by simp, ?_⟩
      · simp only [yaml_mrb_to_node, yaml_document_add_mapping, mrb_hash_keys]
        rw [hloop]
        simp
      · intro pre ext hpre
        rw [← hpre]
        have e1 : pre ++ yaml_node_t.mapping pairs :: new ++ ext
            = pre ++ yaml_node_t.mapping pairs :: (new ++ ext) := by simp
        rw [e1, get_node_middle]
        simp only [yaml_node_to_mrb, mrb_hash_new]
        rw [decode_mapping_pairs_ok_iff]
        refine ⟨kws, ?_, (foldl_mrb_hash_set kws []).symm⟩
        have := hdec (pre ++ [.mapping pairs]) ext (by simp [hpre])
        simpa [List.append_assoc] using this
    · simp only [mrb_value.normal, Bool.and_eq_true]
      refine ⟨?_, keys_unique_iff.2 (hash_store_all_keys_nodup kws [] (by simp))⟩
      rw [normalPairs_iff]
      refine hash_store_all_mem (Q := fun x => x.normal = true) kws [] ?_ (by simp)
      intro kw hkw
      obtain ⟨key, -, hk⟩ := forall₂_mem_right hkws kw hkw
      exact ⟨hk.1.2.1.1, hk.2.2.1.1⟩
    · simp only [mrb_value.encodable]
      rw [encodablePairs_iff]
      refine hash_store_all_mem (Q := fun x => x.encodable mrb_obj_as_string = true)
        kws [] ?_ (by simp)
      intro kw hkw
      obtain ⟨key, -, hk⟩ := forall₂_mem_right hkws kw hkw
      exact ⟨hk.1.2.1.2, hk.2.2.1.2⟩
    · intro hn
      simp only [mrb_value.normal, Bool.and_eq_true] at hn
      obtain ⟨hnp, hnd⟩ := hn
      rw [normalPairs_iff] at hnp
      rw [keys_unique_iff] at hnd
      have hkv : kws = kvs := by
        have h2 : ∀ p ∈ kvs, mrb_hash_get (.hash kvs) p.1 = p.2 := by
          intro p hp
          simp [mrb_hash_get, hash_fetch_of_mem_nodup hnd (by simpa using hp)]
        have h3 : kws = (kvs.map Prod.fst).map
            (fun key => (key, mrb_hash_get (.hash kvs) key)) := by
          refine forall₂_eq_map hkws ?_
          rintro key hmem ⟨a, b⟩ hk
          obtain ⟨q, hq, hqk⟩ := List.mem_map.1 hmem
          obtain ⟨p, hp, hpv⟩ := hget key hmem
          have e1 : a = key := hk.1.2.2.1 (hqk ▸ (hnp q hq).1)
          have e2 : b = mrb_hash_get (.hash kvs) key := hk.2.2.2.1 (hpv ▸ (hnp p hp).2)
          rw [e1, e2]
        rw [h3, List.map_map]
        conv_rhs => rw [← List.map_id kvs]
        apply List.map_congr_left
        intro p hp
        simp only [Function.comp, id]
        rw [h2 p hp]
      rw [hkv, hash_store_all_fresh kvs [] (by simpa using hnd)]
      simp
    · have hk' := List.forall₂_map_left_iff.1 hkws
      have e := foldl_mrb_hash_set kws []
      rw [← e]
      exact Normalises.hash kvs kws (by simpa using hkws.length_eq.symm)
        (fun i kv kw hkv hkw => (forall₂_get?_both hk' i kv kw hkv hkw).1.2.2.2)
        (fun i kv kw hkv hkw => (forall₂_get?_both hk' i kv kw hkv hkw).2.2.2.2)

/-! ## The shape of the encoded document -/

theorem get_node_zero (d : yaml_document_t) : yaml_document_get_node d 0 = none := by
  simp [yaml_document_get_node]

theorem append_sequence_item_zero (d : yaml_document_t) (sequence : Nat) :
    yaml_document_append_sequence_item d sequence 0 = .error .assert_failed := by
  unfold yaml_document_append_sequence_item
  rw [get_node_zero]
  split <;> simp_all

theorem append_mapping_pair_key_zero (d : yaml_document_t) (mapping value : Nat) :
    yaml_document_append_mapping_pair d mapping 0 value = .error .assert_failed := by
  unfold yaml_document_append_mapping_pair
  rw [get_node_zero]
  split <;> simp_all

theorem append_mapping_pair_value_zero (d : yaml_document_t) (mapping key : Nat) :
    yaml_document_append_mapping_pair d mapping key 0 = .error .assert_failed := by
  unfold yaml_document_append_mapping_pair
  rw [get_node_zero]
  split <;> simp_all

theorem child_refs_append (a b : List yaml_node_t) :
    child_refs (a ++ b) = child_refs a ++ child_refs b := by
  induction a with
  | nil => rfl
  | cons n a ih => simp [child_refs, ih]

theorem well_formed_from_append (count : Nat) :
    ∀ (a b : List yaml_node_t) (id : Nat),
      well_formed_from count id (a ++ b)
        = (well_formed_from count id a && well_formed_from count (id + a.length) b) := by
  intro a
  induction a with
  | nil => intro b id; simp [well_formed_from]
  | cons n a ih =>
    intro b id
    have e : id + 1 + a.length = id + (a.length + 1) := by omega
    have := ih b (id + 1)
    rw [e] at this
    simp only [List.cons_append, well_formed_from, List.length_cons, Bool.and_assoc,
      List.append_eq, this]

theorem well_formed_from_mono {count more : Nat} (hle : count ≤ more) :
    ∀ (nodes : List yaml_node_t) (id : Nat),
      well_formed_from count id nodes = true → well_formed_from more id nodes = true := by
  intro nodes
  induction nodes with
  | nil => intro id _; rfl
  | cons n rest ih =>
    intro id h
    simp only [well_formed_from, Bool.and_eq_true, List.all_eq_true, decide_eq_true_eq] at h ⊢
    exact ⟨fun c hc => ⟨(h.1 c hc).1, le_trans (h.1 c hc).2 hle⟩, ih _ h.2⟩

theorem perm_cons_new {base : Nat} {new : List yaml_node_t} (hne : new ≠ [])
    (h : List.Perm (child_refs new) (List.range' (base + 2) (new.length - 1))) :
    List.Perm ((base + 1) :: child_refs new) (List.range' (base + 1) new.length) := by
  obtain ⟨n, hn⟩ : ∃ n, new.length = n + 1 :=
    ⟨new.length - 1, by have := List.length_pos.2 hne; omega⟩
  rw [hn, List.range'_succ]
  rw [hn] at h
  exact List.Perm.cons _ (by simpa using h)

theorem perm_loop_step {id : Nat} {ids cr₁ cr r₁ r : List Nat}
    (h₁ : List.Perm (id :: cr₁) r₁) (h₂ : List.Perm (ids ++ cr) r) :
    List.Perm ((id :: ids) ++ (cr₁ ++ cr)) (r₁ ++ r) := by
  have e : List.Perm ((id :: ids) ++ (cr₁ ++ cr)) ((id :: cr₁) ++ (ids ++ cr)) := by
    simp only [List.cons_append]
    refine List.Perm.cons _ ?_
    rw [← List.append_assoc, ← List.append_assoc]
    exact List.Perm.append_right _ List.perm_append_comm
  exact e.trans (List.Perm.append h₁ h₂)

theorem encode_array_items_shape
    {encode : yaml_document_t → mrb_value → Except Fault (yaml_document_t × Nat)}
    (henc : Appends encode) :
    ∀ (xs : List mrb_value) (d₀ : yaml_document_t) (its : List Nat)
      (rest final : yaml_document_t),
      encode_array_items encode (d₀.length + 1) xs (d₀ ++ .sequence its :: rest) = .ok final →
      ∃ (ids : List Nat) (new : List yaml_node_t),
        final = d₀ ++ .sequence (its ++ ids) :: (rest ++ new) ∧
        List.Perm (ids ++ child_refs new)
          (List.range' (d₀.length + 1 + rest.length + 1) new.length) ∧
        well_formed_from (d₀.length + 1 + rest.length + new.length)
          (d₀.length + 1 + rest.length + 1) new = true := by
  intro xs
  induction xs with
  | nil =>
    intro d₀ its rest final h
    simp only [encode_array_items, Except.ok.injEq] at h
    exact ⟨[], [], by simp [← h], by simp [child_refs], rfl⟩
  | cons x xs ih =>
    intro d₀ its rest final h
    simp only [encode_array_items] at h
    cases hx : encode (d₀ ++ .sequence its :: rest) x with
    | error e => rw [hx] at h; cases h
    | ok r =>
      obtain ⟨d₁, id⟩ := r
      rw [hx] at h
      simp only at h
      rcases henc _ _ _ _ hx with ⟨rfl, rfl⟩ | ⟨new₁, rfl, rfl, hne, hperm, hwf⟩
      · rw [append_sequence_item_zero] at h
        cases h
      obtain ⟨n, hn⟩ := get_node_new (d := d₀ ++ .sequence its :: rest) hne
      have hlen : (d₀ ++ yaml_node_t.sequence its :: rest).length
          = d₀.length + 1 + rest.length := by
        simp [List.length_append]; omega
      have happ := append_sequence_item_middle d₀ its (rest ++ new₁)
        ((d₀ ++ yaml_node_t.sequence its :: rest).length + 1) n
        (by simpa [List.append_assoc] using hn)
      have happ' : yaml_document_append_sequence_item
          ((d₀ ++ yaml_node_t.sequence its :: rest) ++ new₁) (d₀.length + 1)
          ((d₀ ++ yaml_node_t.sequence its :: rest).length + 1)
          = .ok (d₀ ++ .sequence (its ++ [(d₀ ++ yaml_node_t.sequence its :: rest).length + 1])
              :: (rest ++ new₁)) := by
        simpa [List.append_assoc] using happ
      rw [happ'] at h
      simp only at h
      obtain ⟨ids, new, rfl, hperm', hwf'⟩ := ih _ _ _ _ h
      refine ⟨((d₀ ++ yaml_node_t.sequence its :: rest).length + 1) :: ids, new₁ ++ new,
        by simp [List.append_assoc], ?_, ?_⟩
      · rw [child_refs_append]
        have h1 := perm_cons_new hne hperm
        have h2 := perm_loop_step h1 hperm'
        rw [hlen] at h2
        have e : d₀.length + 1 + (rest ++ new₁).length + 1
            = d₀.length + 1 + rest.length + 1 + new₁.length := by
          simp [List.length_append]; omega
        rw [e, List.range'_append_1] at h2
        have e2 : (new₁ ++ new).length = new.length + new₁.length := by
          simp [List.length_append]; omega
        rw [e2, hlen]
        exact h2
      · rw [well_formed_from_append, Bool.and_eq_true]
        constructor
        · rw [hlen] at hwf
          refine well_formed_from_mono ?_ _ _ hwf
          simp only [List.length_append]; omega
        · have e : d₀.length + 1 + (rest ++ new₁).length + 1
              = d₀.length + 1 + rest.length + 1 + new₁.length := by
            simp [List.length_append]; omega
          have e2 : d₀.length + 1 + (rest ++ new₁).length + new.length
              = d₀.length + 1 + rest.length + (new₁ ++ new).length := by
            simp [List.length_append]; omega
          rw [e, e2] at hwf'
          exact hwf'

theorem range'_append₃ {a b c s n₁ n₂ n t : Nat} (hb : b = a + n₁) (hc : c = a + n₁ + n₂)
    (hs : s = a) (ht : t = n₁ + n₂ + n) :
    List.range' a n₁ ++ (List.range' b n₂ ++ List.range' c n) = List.range' s t := by
  subst hb hc hs ht
  rw [List.range'_append_1, List.range'_append_1]
  congr 1
  omega

theorem encode_hash_pairs_shape
    {encode : yaml_document_t → mrb_value → Except Fault (yaml_document_t × Nat)}
    (henc : Appends encode) (value : mrb_value) :
    ∀ (keys : List mrb_value) (d₀ : yaml_document_t) (ps : List (Nat × Nat))
      (rest final : yaml_document_t),
      encode_hash_pairs encode value (d₀.length + 1) keys (d₀ ++ .mapping ps :: rest)
        = .ok final →
      ∃ (pairs : List (Nat × Nat)) (new : List yaml_node_t),
        final = d₀ ++ .mapping (ps ++ pairs) :: (rest ++ new) ∧
        List.Perm (pair_refs pairs ++ child_refs new)
          (List.range' (d₀.length + 1 + rest.length + 1) new.length) ∧
        well_formed_from (d₀.length + 1 + rest.length + new.length)
          (d₀.length + 1 + rest.length + 1) new = true := by
  intro keys
  induction keys with
  | nil =>
    intro d₀ ps rest final h
    simp only [encode_hash_pairs, Except.ok.injEq] at h
    exact ⟨[], [], by simp [← h], by simp [child_refs, pair_refs], rfl⟩
  | cons key keys ih =>
    intro d₀ ps rest final h
    simp only [encode_hash_pairs] at h
    cases hk : encode (d₀ ++ .mapping ps :: rest) key with
    | error e => rw [hk] at h; cases h
    | ok r =>
      obtain ⟨d₁, key_node⟩ := r
      rw [hk] at h
      simp only at h
      rcases henc _ _ _ _ hk with ⟨rfl, rfl⟩ | ⟨new₁, rfl, rfl, hne₁, hperm₁, hwf₁⟩
      · cases hv : encode (d₀ ++ .mapping ps :: rest) (mrb_hash_get value key) with
        | error e => rw [hv] at h; cases h
        | ok r =>
          rw [hv] at h
          simp only at h
          rw [append_mapping_pair_key_zero] at h
          cases h
      cases hv : encode ((d₀ ++ .mapping ps :: rest) ++ new₁) (mrb_hash_get value key) with
      | error e => rw [hv] at h; cases h
      | ok r =>
        obtain ⟨d₂, child_node⟩ := r
        rw [hv] at h
        simp only at h
        rcases henc _ _ _ _ hv with ⟨rfl, rfl⟩ | ⟨new₂, rfl, rfl, hne₂, hperm₂, hwf₂⟩
        · rw [append_mapping_pair_value_zero] at h
          cases h
        obtain ⟨n, hn⟩ := get_node_new (d := d₀ ++ .mapping ps :: rest) hne₁
        obtain ⟨m, hm⟩ := get_node_new (d := (d₀ ++ .mapping ps :: rest) ++ new₁) hne₂
        have hn' := get_node_append_left hn new₂
        have hlen : (d₀ ++ yaml_node_t.mapping ps :: rest).length
            = d₀.length + 1 + rest.length := by
          simp [List.length_append]; omega
        have hlen₁ : (d₀ ++ yaml_node_t.mapping ps :: rest ++ new₁).length
            = d₀.length + 1 + rest.length + new₁.length := by
          simp [List.length_append]; omega
        have happ := append_mapping_pair_middle d₀ ps (rest ++ new₁ ++ new₂)
          ((d₀ ++ yaml_node_t.mapping ps :: rest).length + 1)
          ((d₀ ++ yaml_node_t.mapping ps :: rest ++ new₁).length + 1) n m
          (by simpa [List.append_assoc] using hn') (by simpa [List.append_assoc] using hm)
        have happ' : yaml_document_append_mapping_pair
            (((d₀ ++ yaml_node_t.mapping ps :: rest) ++ new₁) ++ new₂) (d₀.length + 1)
            ((d₀ ++ yaml_node_t.mapping ps :: rest).length + 1)
            ((d₀ ++ yaml_node_t.mapping ps :: rest ++ new₁).length + 1)
            = .ok (d₀ ++ .mapping (ps ++ [((d₀ ++ yaml_node_t.mapping ps :: rest).length + 1,
                (d₀ ++ yaml_node_t.mapping ps :: rest ++ new₁).length + 1)])
                :: (rest ++ new₁ ++ new₂)) := by
          simpa [List.append_assoc] using happ
        rw [happ'] at h
        simp only at h
        obtain ⟨pairs, new, rfl, hperm', hwf'⟩ := ih _ _ _ _ h
        refine ⟨((d₀ ++ yaml_node_t.mapping ps :: rest).length + 1,
            (d₀ ++ yaml_node_t.mapping ps :: rest ++ new₁).length + 1) :: pairs,
          new₁ ++ new₂ ++ new, by simp [List.append_assoc], ?_, ?_⟩
        · rw [child_refs_append, child_refs_append, List.append_assoc (child_refs new₁)]
          have h1 := perm_cons_new hne₁ hperm₁
          have h2 := perm_cons_new hne₂ hperm₂
          have h3 := perm_loop_step h1 (perm_loop_step h2 hperm')
          refine h3.trans (List.Perm.of_eq ?_)
          refine range'_append₃ ?_ ?_ ?_ ?_ <;> simp only [List.length_append,
            List.length_cons] <;> omega
        · rw [well_formed_from_append, well_formed_from_append, Bool.and_eq_true,
            Bool.and_eq_true]
          refine ⟨⟨?_, ?_⟩, ?_⟩
          · rw [hlen] at hwf₁
            refine well_formed_from_mono ?_ _ _ hwf₁
            simp only [List.length_append]; omega
          · rw [hlen₁] at hwf₂
            have e : d₀.length + 1 + rest.length + 1 + new₁.length
                = d₀.length + 1 + rest.length + new₁.length + 1 := by omega
            rw [e]
            refine well_formed_from_mono ?_ _ _ hwf₂
            simp only [List.length_append]; omega
          · have e : d₀.length + 1 + (rest ++ new₁ ++ new₂).length + 1
                = d₀.length + 1 + rest.length + 1 + (new₁ ++ new₂).length := by
              simp [List.length_append]; omega
            have e2 : d₀.length + 1 + (rest ++ new₁ ++ new₂).length + new.length
                = d₀.length + 1 + rest.length + (new₁ ++ new₂ ++ new).length := by
              simp [List.length_append]; omega
            rw [e, e2] at hwf'
            exact hwf'

theorem range'_bounds {s n c : Nat} (h : c ∈ List.range' s n) : s ≤ c ∧ c < s + n :=
  List.mem_range'_1.1 h

/-- Every call of the encoder that returns has left the document unchanged and returned
`0`, or has only appended nodes, in the shape described by `Appends`. -/
theorem yaml_mrb_to_node_appends (mrb_obj_as_string : mrb_value → Bytes) :
    ∀ fuel : Nat, Appends (yaml_mrb_to_node mrb_obj_as_string fuel) := by
  intro fuel
  induction fuel with
  | zero => intro d v d' id h; simp [yaml_mrb_to_node] at h
  | succ fuel ih =>
    have leaf : ∀ (d : yaml_document_t) (b : Bytes) (d' : yaml_document_t) (id : Nat),
        yaml_document_add_scalar d b = (d', id) →
        (d' = d ∧ id = 0) ∨
        ∃ new : List yaml_node_t, d' = d ++ new ∧ id = d.length + 1 ∧ new ≠ [] ∧
          List.Perm (child_refs new) (List.range' (d.length + 2) (new.length - 1)) ∧
          well_formed_from (d.length + new.length) (d.length + 1) new = true := by
      intro d b d' id h
      cases hc : yaml_check_utf8 b with
      | false =>
        rw [add_scalar_refused hc] at h
        simp only [Prod.mk.injEq] at h
        exact Or.inl ⟨h.1.symm, h.2.symm⟩
      | true =>
        rw [add_scalar_accepted hc] at h
        simp only [Prod.mk.injEq] at h
        obtain ⟨rfl, rfl⟩ := h
        exact Or.inr ⟨[.scalar b], rfl, rfl, by simp, by simp [child_refs, node_refs],
          by simp [well_formed_from, node_refs]⟩
    intro d v d' id h
    cases v with
    | nil =>
      simp only [yaml_mrb_to_node, Except.ok.injEq] at h
      exact leaf d _ d' id h
    | bool b =>
      simp only [yaml_mrb_to_node, Except.ok.injEq] at h
      exact leaf d _ d' id h
    | fixnum n =>
      simp only [yaml_mrb_to_node, Except.ok.injEq] at h
      exact leaf d _ d' id h
    | obj i =>
      simp only [yaml_mrb_to_node, Except.ok.injEq] at h
      exact leaf d _ d' id h
    | str b =>
      simp only [yaml_mrb_to_node, Except.ok.injEq] at h
      exact leaf d _ d' id h
    | ary xs =>
      simp only [yaml_mrb_to_node, yaml_document_add_sequence] at h
      cases hloop : encode_array_items (yaml_mrb_to_node mrb_obj_as_string fuel)
          (d.length + 1) xs (d ++ [.sequence []]) with
      | error e => rw [hloop] at h; cases h
      | ok final =>
        rw [hloop] at h
        simp only [Except.ok.injEq, Prod.mk.injEq] at h
        obtain ⟨rfl, rfl⟩ := h
        obtain ⟨ids, new, rfl, hperm, hwf⟩ :=
          encode_array_items_shape ih xs d [] [] final hloop
        simp only [List.nil_append, List.length_nil, Nat.add_zero] at hperm hwf
        refine Or.inr ⟨.sequence ids :: new, rfl, rfl, by simp, ?_, ?_⟩
        · simpa [child_refs, node_refs] using hperm
        · simp only [well_formed_from, node_refs, Bool.and_eq_true, List.all_eq_true,
            decide_eq_true_eq, List.length_cons]
          refine ⟨?_, ?_⟩
          · intro c hc
            have := range'_bounds (hperm.subset (List.mem_append_left _ hc))
            omega
          · have e : d.length + (new.length + 1) = d.length + 1 + new.length := by omega
            rw [e]
            exact hwf
    | hash kvs =>
      simp only [yaml_mrb_to_node, yaml_document_add_mapping] at h
      cases hloop : encode_hash_pairs (yaml_mrb_to_node mrb_obj_as_string fuel)
          (.hash kvs) (d.length + 1) (mrb_hash_keys (.hash kvs)) (d ++ [.mapping []]) with
      | error e => rw [hloop] at h; cases h
      | ok final =>
        rw [hloop] at h
        simp only [Except.ok.injEq, Prod.mk.injEq] at h
        obtain ⟨rfl, rfl⟩ := h
        obtain ⟨pairs, new, rfl, hperm, hwf⟩ :=
          encode_hash_pairs_shape ih (.hash kvs) _ d [] [] final hloop
        simp only [List.nil_append, List.length_nil, Nat.add_zero] at hperm hwf
        refine Or.inr ⟨.mapping pairs :: new, rfl, rfl, by simp, ?_, ?_⟩
        · simpa [child_refs, node_refs] using hperm
        · simp only [well_formed_from, node_refs, Bool.and_eq_true, List.all_eq_true,
            decide_eq_true_eq, List.length_cons]
          refine ⟨?_, ?_⟩
          · intro c hc
            have := range'_bounds (hperm.subset (List.mem_append_left _ hc))
            omega
          · have e : d.length + (new.length + 1) = d.length + 1 + new.length := by omega
            rw [e]
            exact hwf

/-! ## The claims on the decoder, the encoder and the entry point `mrb_yaml_load` -/

theorem plainList_iff : ∀ {xs : List mrb_value},
    plainList xs = true ↔ ∀ x ∈ xs, x.plain = true := by
  intro xs
  induction xs with
  | nil => simp [plainList]
  | cons y ys ih => simp [plainList, ih]

theorem plainPairs_iff : ∀ {kvs : List (mrb_value × mrb_value)},
    plainPairs kvs = true ↔ ∀ p ∈ kvs, mrb_string_p p.1 = true ∧ p.2.plain = true := by
  intro kvs
  induction kvs with
  | nil => simp [plainPairs]
  | cons q rest ih =>
    obtain ⟨k, v⟩ := q
    simp [plainPairs, ih, and_assoc]

theorem normal_of_string {k : mrb_value} (h : mrb_string_p k = true) : k.normal = true := by
  cases k <;> simp [mrb_string_p] at h
  rfl

theorem normal_of_plain : ∀ v : mrb_value, v.plain = true → v.normal = true := by
  intro v
  induction v using mrb_value.induct with
  | hnil => intro h; simp [mrb_value.plain] at h
  | hbool b => intro h; simp [mrb_value.plain] at h
  | hfix n => intro h; simp [mrb_value.plain] at h
  | hobj i => intro h; simp [mrb_value.plain] at h
  | hstr b => intro _; rfl
  | hary xs ih =>
    intro h
    simp only [mrb_value.plain] at h
    simp only [mrb_value.normal]
    rw [plainList_iff] at h
    rw [normalList_iff]
    exact fun x hx => ih x hx (h x hx)
  | hhash kvs ih =>
    intro h
    simp only [mrb_value.plain, Bool.and_eq_true] at h
    simp only [mrb_value.normal, Bool.and_eq_true]
    refine ⟨?_, h.2⟩
    have h1 := plainPairs_iff.1 h.1
    rw [normalPairs_iff]
    exact fun p hp => ⟨normal_of_string (h1 p hp).1, (ih p hp).2 (h1 p hp).2⟩

theorem check_utf8_refuses_ff : yaml_check_utf8 [255] = false := by
  rfl

theorem encode_refused_string (mrb_obj_as_string : mrb_value → Bytes) (fuel : Nat)
    (d : yaml_document_t) :
    yaml_mrb_to_node mrb_obj_as_string (fuel + 1) d (.str [255]) = .ok (d, 0) := by
  simp only [yaml_mrb_to_node]
  rw [add_scalar_refused check_utf8_refuses_ff]

/-- C1 as stated fails: the string with the single byte `0xff` is a plain tree, but
libyaml refuses its bytes, `yaml_mrb_to_node` hands the returned `0` on with nothing
appended, and decoding node `0` of the empty document dereferences `NULL`; no recursion
depth gives the round trip. -/
theorem roundtrip_fails_on_refused_string :
    (mrb_value.str [255]).plain = true ∧
    yaml_mrb_to_node (fun _ => []) 1 yaml_document_new (.str [255]) = .ok ([], 0) ∧
    yaml_node_to_mrb 1 [] (yaml_document_get_node [] 0) = .error .null_deref ∧
    ¬ ∃ (fuel : Nat) (document : yaml_document_t) (node : Nat),
      yaml_mrb_to_node (fun _ => []) fuel yaml_document_new (.str [255])
        = .ok (document, node) ∧
      yaml_node_to_mrb fuel document (yaml_document_get_node document node)
        = .ok (.str [255]) := by
  refine ⟨rfl, rfl, rfl, ?_⟩
  rintro ⟨fuel, document, node, h1, h2⟩
  cases fuel with
  | zero => simp [yaml_mrb_to_node] at h1
  | succ fuel =>
    rw [encode_refused_string] at h1
    simp only [Except.ok.injEq, Prod.mk.injEq] at h1
    obtain ⟨rfl, rfl⟩ := h1
    simp [yaml_document_new, yaml_document_get_node, yaml_node_to_mrb] at h2

/-- C1, amended. Round trip at the document level: a plain tree `v` (strings, arrays and
mappings with pairwise different string keys) all of whose strings pass libyaml's
`yaml_check_utf8`, encoded into a fresh empty document by `yaml_mrb_to_node` with
recursion depth `fuel` at least the depth of `v`, gives a document and a node id, and
`yaml_node_to_mrb` on that node returns `v` itself, so with every array in the same
element order and every mapping in the same key order. -/
theorem roundtrip_plain_tree (mrb_obj_as_string : mrb_value → Bytes) (v : mrb_value)
    (fuel : Nat) (hplain : v.plain = true)
    (hutf8 : v.encodable mrb_obj_as_string = true) (hfuel : v.depth ≤ fuel) :
    ∃ (document : yaml_document_t) (node : Nat),
      yaml_mrb_to_node mrb_obj_as_string fuel yaml_document_new v = .ok (document, node) ∧
      yaml_node_to_mrb fuel document (yaml_document_get_node document node) = .ok v := by
  obtain ⟨w, henc, -, hw, -⟩ := yaml_mrb_to_node_spec mrb_obj_as_string v fuel hfuel hutf8
  obtain ⟨new, h1, -, h2⟩ := henc yaml_document_new
  have e := hw (normal_of_plain v hplain)
  subst e
  refine ⟨yaml_document_new ++ new, yaml_document_new.length + 1, h1, ?_⟩
  have := h2 [] [] rfl
  simpa [yaml_document_new] using this

/-- Witness for C1: the mapping `{"a" => ["x", "y"], "b" => "z"}` of the specification. -/
theorem roundtrip_plain_tree_witness :
    ∃ (document : yaml_document_t) (node : Nat),
      yaml_mrb_to_node (fun _ => []) 3 yaml_document_new
          (.hash [(.str [97], .ary [.str [120], .str [121]]), (.str [98], .str [122])])
        = .ok (document, node) ∧
      yaml_node_to_mrb 3 document (yaml_document_get_node document node)
        = .ok (.hash [(.str [97], .ary [.str [120], .str [121]]), (.str [98], .str [122])]) :=
  roundtrip_plain_tree (fun _ => []) _ 3 (by decide) (by decide) (by decide)

theorem self_reference_out_of_fuel : ∀ fuel : Nat,
    yaml_node_to_mrb fuel [.sequence [1]] (some (.sequence [1])) = .error .out_of_fuel := by
  intro fuel
  induction fuel with
  | zero => rfl
  | succ fuel ih =>
    simp only [yaml_node_to_mrb, decode_sequence_items]
    have : yaml_document_get_node [yaml_node_t.sequence [1]] 1 = some (.sequence [1]) := rfl
    rw [this, ih]

theorem mapping_self_reference_out_of_fuel : ∀ fuel : Nat,
    yaml_node_to_mrb fuel [.mapping [(2, 1)], .scalar [107]] (some (.mapping [(2, 1)]))
      = .error .out_of_fuel := by
  intro fuel
  induction fuel with
  | zero => rfl
  | succ fuel ih =>
    simp only [yaml_node_to_mrb, decode_mapping_pairs]
    have h1 : yaml_document_get_node [yaml_node_t.mapping [(2, 1)], .scalar [107]] 1
        = some (.mapping [(2, 1)]) := rfl
    have h2 : yaml_document_get_node [yaml_node_t.mapping [(2, 1)], .scalar [107]] 2
        = some (.scalar [107]) := rfl
    rw [h1, h2, ih]
    cases fuel with
    | zero => rfl
    | succ fuel => rfl

/-- C2 as stated fails: in the document whose only node is a sequence listing its own
id, which libyaml loads from `&a [*a]`, the one item id is valid, yet the decoder runs
out of every recursion depth and returns no array at all. -/
theorem decode_sequence_valid_ids_no_result :
    yaml_document_get_node [.sequence [1]] 1 = some (.sequence [1]) ∧
    (∀ fuel, yaml_node_to_mrb fuel [.sequence [1]] (some (.sequence [1]))
      = .error .out_of_fuel) ∧
    ¬ ∃ w, Decodes [.sequence [1]] (some (.sequence [1])) w := by
  refine ⟨rfl, self_reference_out_of_fuel, ?_⟩
  rintro ⟨w, fuel, h⟩
  rw [self_reference_out_of_fuel fuel] at h
  cases h

/-- C2, amended. Decoder sequence order: a sequence node with item ids `items` decodes to
`w` exactly when every item node decodes and `w` is the array `vs` with one element per
item id, the `k`-th element being the decoding of the node with the `k`-th id; nothing is
reordered, dropped or merged. -/
theorem decode_sequence_order (document : yaml_document_t) (items : List Nat)
    (w : mrb_value) :
    Decodes document (some (.sequence items)) w ↔
      ∃ vs, w = .ary vs ∧ vs.length = items.length ∧
        List.Forall₂
          (fun item v => Decodes document (yaml_document_get_node document item) v)
          items vs := by
  rw [decodes_sequence_iff]
  constructor
  · rintro ⟨vs, hw, hvs⟩
    exact ⟨vs, hw, hvs.length_eq.symm, hvs⟩
  · rintro ⟨vs, hw, -, hvs⟩
    exact ⟨vs, hw, hvs⟩

/-- The example of C2: the scalars `"3"`, `"1"`, `"2"` decode to `["3", "1", "2"]`. -/
theorem decode_sequence_example :
    yaml_node_to_mrb 2 [.sequence [2, 3, 4], .scalar [51], .scalar [49], .scalar [50]]
        (some (.sequence [2, 3, 4]))
      = .ok (.ary [.str [51], .str [49], .str [50]]) := by
  rfl

/-- C3 as stated fails: in the document that libyaml loads from `&a {k: *a}`, a mapping
whose value is the mapping itself, both ids of the pair are valid, yet the decoder runs
out of every recursion depth and returns no mapping at all. -/
theorem decode_mapping_valid_ids_no_result :
    yaml_document_get_node [.mapping [(2, 1)], .scalar [107]] 2 = some (.scalar [107]) ∧
    yaml_document_get_node [.mapping [(2, 1)], .scalar [107]] 1
      = some (.mapping [(2, 1)]) ∧
    (∀ fuel, yaml_node_to_mrb fuel [.mapping [(2, 1)], .scalar [107]]
      (some (.mapping [(2, 1)])) = .error .out_of_fuel) ∧
    ¬ ∃ w, Decodes [.mapping [(2, 1)], .scalar [107]] (some (.mapping [(2, 1)])) w := by
  refine ⟨rfl, rfl, mapping_self_reference_out_of_fuel, ?_⟩
  rintro ⟨w, fuel, h⟩
  rw [mapping_self_reference_out_of_fuel fuel] at h
  cases h

/-- C3, amended. Decoder mapping, last write wins: when the key and value nodes of the
pairs of a mapping node decode to `kvs`, the node decodes to the mapping obtained from the empty one
by `mrb_hash_set` with the decoded pairs in pair order.  Its keys are pairwise different,
and for the last pair with a given decoded key, a lookup of that key gives that pair's
value and the mapping has exactly one entry for the key, holding that value. -/
theorem decode_mapping_last_write_wins (document : yaml_document_t)
    (pairs : List (Nat × Nat)) (kvs : List (mrb_value × mrb_value))
    (h : List.Forall₂
      (fun (pair : Nat × Nat) (kv : mrb_value × mrb_value) =>
        Decodes document (yaml_document_get_node document pair.1) kv.1 ∧
        Decodes document (yaml_document_get_node document pair.2) kv.2) pairs kvs) :
    ∃ entries : List (mrb_value × mrb_value),
      Decodes document (some (.mapping pairs)) (.hash entries) ∧
      mrb_value.hash entries
        = kvs.foldl (fun h (kv : mrb_value × mrb_value) => mrb_hash_set h kv.1 kv.2)
            mrb_hash_new ∧
      (mrb_hash_keys (.hash entries)).Nodup ∧
      ∀ (before : List (mrb_value × mrb_value)) (key val : mrb_value)
        (after : List (mrb_value × mrb_value)),
        kvs = before ++ (key, val) :: after → (∀ p ∈ after, p.1 ≠ key) →
          mrb_hash_get (.hash entries) key = val ∧
          entries.filter (fun p => mrb_eql p.1 key) = [(key, val)] := by
  have hfold := foldl_mrb_hash_set kvs []
  have hnd : ((hash_store_all kvs []).map Prod.fst).Nodup :=
    hash_store_all_keys_nodup kvs [] (by simp)
  refine ⟨hash_store_all kvs [], ?_, hfold.symm, hnd, ?_⟩
  · rw [decodes_mapping_iff]
    exact ⟨kvs, hfold.symm, h⟩
  · intro l₁ key val l₂ hk hlast
    have hf : hash_fetch key (hash_store_all kvs []) = some val := by
      rw [hk]; exact hash_fetch_store_all_last l₁ l₂ key val hlast []
    exact ⟨by simp [mrb_hash_get, hf], hash_fetch_filter hnd hf⟩

/-- Witness for C3: a mapping node whose two pairs have the same key `"a"`. -/
theorem decode_mapping_last_write_wins_witness :
    ∃ entries : List (mrb_value × mrb_value),
      Decodes [.mapping [(2, 3), (4, 5)], .scalar [97], .scalar [49], .scalar [97],
          .scalar [50]] (some (.mapping [(2, 3), (4, 5)])) (.hash entries) ∧
      mrb_value.hash entries
        = [(mrb_value.str [97], mrb_value.str [49]), (.str [97], .str [50])].foldl
            (fun h (kv : mrb_value × mrb_value) => mrb_hash_set h kv.1 kv.2) mrb_hash_new ∧
      (mrb_hash_keys (.hash entries)).Nodup ∧
      ∀ (before : List (mrb_value × mrb_value)) (key val : mrb_value)
        (after : List (mrb_value × mrb_value)),
        [(mrb_value.str [97], mrb_value.str [49]), (.str [97], .str [50])]
            = before ++ (key, val) :: after →
          (∀ p ∈ after, p.1 ≠ key) →
          mrb_hash_get (.hash entries) key = val ∧
          entries.filter (fun p => mrb_eql p.1 key) = [(key, val)] :=
  decode_mapping_last_write_wins _ [(2, 3), (4, 5)]
    [(.str [97], .str [49]), (.str [97], .str [50])]
    (List.Forall₂.cons ⟨⟨1, rfl⟩, ⟨1, rfl⟩⟩
      (List.Forall₂.cons ⟨⟨1, rfl⟩, ⟨1, rfl⟩⟩ List.Forall₂.nil))

/-- The example of C3 evaluated: the later value `"2"` survives under the key `"a"`. -/
theorem decode_mapping_example :
    yaml_node_to_mrb 2 [.mapping [(2, 3), (4, 5)], .scalar [97], .scalar [49], .scalar [97],
        .scalar [50]] (some (.mapping [(2, 3), (4, 5)]))
      = .ok (.hash [(.str [97], .str [50])]) := by
  rfl

theorem get_node_beyond (d : yaml_document_t) : yaml_document_get_node d (d.length + 1) = none := by
  unfold yaml_document_get_node
  rw [if_neg (by omega)]

theorem encodesTo_of_depth (mrb_obj_as_string : mrb_value → Bytes) {x : mrb_value}
    {fuel : Nat} (h : x.depth ≤ fuel) (he : x.encodable mrb_obj_as_string = true) :
    ∃ w, EncodesTo (yaml_mrb_to_node mrb_obj_as_string fuel) fuel x w := by
  obtain ⟨w, hw, -⟩ := yaml_mrb_to_node_spec mrb_obj_as_string x fuel h he
  exact ⟨w, hw⟩

theorem encode_refused_item (mrb_obj_as_string : mrb_value → Bytes) (fuel : Nat)
    (d : yaml_document_t) :
    yaml_mrb_to_node mrb_obj_as_string (fuel + 2) d (.ary [.str [255]])
      = .error .assert_failed := by
  simp only [yaml_mrb_to_node, encode_array_items, yaml_document_add_sequence]
  rw [add_scalar_refused check_utf8_refuses_ff]
  simp only [append_sequence_item_zero]

/-- C4 as stated fails: on the array whose one element is the string with the byte
`0xff`, libyaml refuses the scalar, the element's id is `0`, and
`yaml_document_append_sequence_item` fails its assertion `item > 0`: no recursion depth
makes the call return a sequence node. -/
theorem encode_sequence_aborts_on_refused_item :
    yaml_mrb_to_node (fun _ => []) 2 yaml_document_new (.ary [.str [255]])
      = .error .assert_failed ∧
    ¬ ∃ (fuel : Nat) (d' : yaml_document_t) (id : Nat),
      yaml_mrb_to_node (fun _ => []) fuel yaml_document_new (.ary [.str [255]])
        = .ok (d', id) := by
  refine ⟨rfl, ?_⟩
  rintro ⟨fuel, d', id, h⟩
  match fuel, h with
  | 0, h => simp [yaml_mrb_to_node] at h
  | 1, h => simp [yaml_mrb_to_node, encode_array_items, yaml_document_add_sequence] at h
  | fuel + 2, h =>
    rw [encode_refused_item] at h
    cases h

/-- C4, amended. Encoder sequence order: on an array `xs` of depth at most `fuel + 1`
all of whose scalars libyaml accepts (every string in it and the string conversion of
every other leaf pass `yaml_check_utf8`), `yaml_mrb_to_node` returns the id `d.length + 1`, which names no node of `d` and names a
sequence node afterwards; that node has exactly as many items as `xs` has elements, and
the items are the ids returned by the recursive calls on the elements, made in index
order starting from `d` with the empty sequence node appended, each id being appended
right after its call. -/
theorem encode_sequence_order (mrb_obj_as_string : mrb_value → Bytes)
    (xs : List mrb_value) (fuel : Nat) (d : yaml_document_t)
    (hfuel : (mrb_value.ary xs).depth ≤ fuel + 1)
    (hutf8 : (mrb_value.ary xs).encodable mrb_obj_as_string = true) :
    ∃ (ids : List Nat) (d' : yaml_document_t),
      yaml_mrb_to_node mrb_obj_as_string (fuel + 1) d (.ary xs) = .ok (d', d.length + 1) ∧
      yaml_document_get_node d (d.length + 1) = none ∧
      yaml_document_get_node d' (d.length + 1) = some (.sequence ids) ∧
      ids.length = xs.length ∧
      ItemsRun (yaml_mrb_to_node mrb_obj_as_string fuel) (d.length + 1) xs
        (yaml_document_add_sequence d).1 ids d' := by
  have hd : depthList xs ≤ fuel := by simpa [mrb_value.depth] using hfuel
  have hex : ∀ x ∈ xs, x.encodable mrb_obj_as_string = true := by
    simp only [mrb_value.encodable] at hutf8
    exact (encodableList_iff mrb_obj_as_string).1 hutf8
  obtain ⟨ws, hws⟩ := @exists_forall₂ _ _
    (fun x w => EncodesTo (yaml_mrb_to_node mrb_obj_as_string fuel) fuel x w) xs
    (fun x hx => encodesTo_of_depth mrb_obj_as_string
      (le_trans (depth_le_depthList hx) hd) (hex x hx))
  obtain ⟨ids, new, hloop, hrun, hlen, -⟩ :=
    encode_array_items_spec (yaml_mrb_to_node mrb_obj_as_string fuel) fuel hws d [] []
  refine ⟨ids, d ++ .sequence ids :: new, ?_, get_node_beyond d, get_node_middle d _ _, hlen, ?_⟩
  · simp only [yaml_mrb_to_node, yaml_document_add_sequence]
    rw [hloop]
    simp
  · simpa [yaml_document_add_sequence] using hrun

/-- Witness for C4: the array `["b", ["c"], "d"]` encoded into a document of one node. -/
theorem encode_sequence_order_witness :
    ∃ (ids : List Nat) (d' : yaml_document_t),
      yaml_mrb_to_node (fun _ => []) (2 + 1) [.scalar [97]]
          (.ary [.str [98], .ary [.str [99]], .str [100]])
        = .ok (d', [yaml_node_t.scalar [97]].length + 1) ∧
      yaml_document_get_node [.scalar [97]] ([yaml_node_t.scalar [97]].length + 1) = none ∧
      yaml_document_get_node d' ([yaml_node_t.scalar [97]].length + 1)
        = some (.sequence ids) ∧
      ids.length = [mrb_value.str [98], .ary [.str [99]], .str [100]].length ∧
      ItemsRun (yaml_mrb_to_node (fun _ => []) 2) ([yaml_node_t.scalar [97]].length + 1)
        [.str [98], .ary [.str [99]], .str [100]]
        (yaml_document_add_sequence [.scalar [97]]).1 ids d' :=
  encode_sequence_order (fun _ => []) [.str [98], .ary [.str [99]], .str [100]] 2
    [.scalar [97]] (by decide) (by decide)

/-- The example of C4 evaluated: the sequence node lists the ids `3`, `4`, `6` of the
nodes of its three elements in element order. -/
theorem encode_sequence_example :
    yaml_mrb_to_node (fun _ => []) 3 [.scalar [97]]
        (.ary [.str [98], .ary [.str [99]], .str [100]])
      = .ok ([.scalar [97], .sequence [3, 4, 6], .scalar [98], .sequence [5], .scalar [99],
          .scalar [100]], 2) := by
  rfl

theorem encode_refused_pair_value (mrb_obj_as_string : mrb_value → Bytes) (fuel : Nat)
    (d : yaml_document_t) :
    yaml_mrb_to_node mrb_obj_as_string (fuel + 2) d (.hash [(.str [107], .str [255])])
      = .error .assert_failed := by
  have hk : yaml_check_utf8 [107] = true := rfl
  have hg : mrb_hash_get (.hash [(.str [107], .str [255])]) (.str [107]) = .str [255] := rfl
  simp only [yaml_mrb_to_node, encode_hash_pairs, yaml_document_add_mapping, mrb_hash_keys,
    List.map_cons, List.map_nil, hg]
  rw [add_scalar_accepted hk]
  simp only []
  rw [add_scalar_refused check_utf8_refuses_ff]
  simp only [append_mapping_pair_value_zero]

/-- C5 as stated fails: on the mapping that holds, under the key `"k"`, the string with
the byte `0xff`, libyaml refuses the value's
scalar, the value id is `0`, and `yaml_document_append_mapping_pair` fails its assertion
`value > 0`: no recursion depth makes the call return a mapping node. -/
theorem encode_mapping_aborts_on_refused_value :
    yaml_mrb_to_node (fun _ => []) 2 yaml_document_new (.hash [(.str [107], .str [255])])
      = .error .assert_failed ∧
    ¬ ∃ (fuel : Nat) (d' : yaml_document_t) (id : Nat),
      yaml_mrb_to_node (fun _ => []) fuel yaml_document_new
        (.hash [(.str [107], .str [255])]) = .ok (d', id) := by
  refine ⟨rfl, ?_⟩
  rintro ⟨fuel, d', id, h⟩
  match fuel, h with
  | 0, h => simp [yaml_mrb_to_node] at h
  | 1, h =>
    simp [yaml_mrb_to_node, encode_hash_pairs, yaml_document_add_mapping, mrb_hash_keys] at h
  | fuel + 2, h =>
    rw [encode_refused_pair_value] at h
    cases h

/-- C5, amended. Encoder mapping order: on a mapping of depth at most `fuel + 1` all of
whose scalars libyaml accepts (every string in it and the string conversion of every
other leaf pass `yaml_check_utf8`) and whose key enumeration `mrb_hash_keys` is `keys`,
`yaml_mrb_to_node` returns the id `d.length + 1`,
which names no node of `d` and names a mapping node afterwards; that node has exactly one
pair per key, and the pairs are, in enumeration order, the ids returned by the recursive
call on the key and then by the recursive call on the value looked up under that key. -/
theorem encode_mapping_order (mrb_obj_as_string : mrb_value → Bytes)
    (kvs : List (mrb_value × mrb_value)) (fuel : Nat) (d : yaml_document_t)
    (hfuel : (mrb_value.hash kvs).depth ≤ fuel + 1)
    (hutf8 : (mrb_value.hash kvs).encodable mrb_obj_as_string = true) :
    ∃ (pairs : List (Nat × Nat)) (d' : yaml_document_t),
      yaml_mrb_to_node mrb_obj_as_string (fuel + 1) d (.hash kvs) = .ok (d', d.length + 1) ∧
      yaml_document_get_node d (d.length + 1) = none ∧
      yaml_document_get_node d' (d.length + 1) = some (.mapping pairs) ∧
      pairs.length = (mrb_hash_keys (.hash kvs)).length ∧
      PairsRun (yaml_mrb_to_node mrb_obj_as_string fuel) (.hash kvs) (d.length + 1)
        (mrb_hash_keys (.hash kvs)) (yaml_document_add_mapping d).1 pairs d' := by
  have hd : depthPairs kvs ≤ fuel := by simpa [mrb_value.depth] using hfuel
  have hex : ∀ p ∈ kvs, p.1.encodable mrb_obj_as_string = true ∧
      p.2.encodable mrb_obj_as_string = true := by
    simp only [mrb_value.encodable] at hutf8
    exact (encodablePairs_iff mrb_obj_as_string).1 hutf8
  obtain ⟨kws, hkws⟩ := @exists_forall₂ _ _
    (fun key (kw : mrb_value × mrb_value) =>
      EncodesTo (yaml_mrb_to_node mrb_obj_as_string fuel) fuel key kw.1 ∧
      EncodesTo (yaml_mrb_to_node mrb_obj_as_string fuel) fuel
        (mrb_hash_get (.hash kvs) key) kw.2)
    (kvs.map Prod.fst) (by
      intro key hkey
      obtain ⟨q, hq, hqk⟩ := List.mem_map.1 hkey
      obtain ⟨p, hp, hfetch⟩ := hash_fetch_of_mem_keys hkey
      have hpv : mrb_hash_get (.hash kvs) key = p.2 := by simp [mrb_hash_get, hfetch]
      obtain ⟨w₁, h₁⟩ := encodesTo_of_depth mrb_obj_as_string
        (le_trans (depth_le_depthPairs hq).1 hd) (hex q hq).1
      obtain ⟨w₂, h₂⟩ := encodesTo_of_depth mrb_obj_as_string
        (le_trans (depth_le_depthPairs hp).2 hd) (hex p hp).2
      exact ⟨(w₁, w₂), hqk ▸ h₁, hpv ▸ h₂⟩)
  obtain ⟨pairs, new, hloop, hrun, hlen, -⟩ :=
    encode_hash_pairs_spec (yaml_mrb_to_node mrb_obj_as_string fuel) fuel (.hash kvs)
      hkws d [] []
  refine ⟨pairs, d ++ .mapping pairs :: new, ?_, get_node_beyond d, get_node_middle d _ _,
    by simpa [mrb_hash_keys] using hlen, ?_⟩
  · simp only [yaml_mrb_to_node, yaml_document_add_mapping, mrb_hash_keys]
    rw [hloop]
    simp
  · simpa [yaml_document_add_mapping, mrb_hash_keys] using hrun

/-- Witness for C5: the mapping `{"a" => ["x"], "b" => "z"}` encoded into an empty
document. -/
theorem encode_mapping_order_witness :
    ∃ (pairs : List (Nat × Nat)) (d' : yaml_document_t),
      yaml_mrb_to_node (fun _ => []) (2 + 1) []
          (.hash [(.str [97], .ary [.str [120]]), (.str [98], .str [122])])
        = .ok (d', ([] : yaml_document_t).length + 1) ∧
      yaml_document_get_node [] (([] : yaml_document_t).length + 1) = none ∧
      yaml_document_get_node d' (([] : yaml_document_t).length + 1)
        = some (.mapping pairs) ∧
      pairs.length
        = (mrb_hash_keys (.hash [(.str [97], .ary [.str [120]]), (.str [98], .str [122])])).length ∧
      PairsRun (yaml_mrb_to_node (fun _ => []) 2)
        (.hash [(.str [97], .ary [.str [120]]), (.str [98], .str [122])])
        (([] : yaml_document_t).length + 1)
        (mrb_hash_keys (.hash [(.str [97], .ary [.str [120]]), (.str [98], .str [122])]))
        (yaml_document_add_mapping []).1 pairs d' :=
  encode_mapping_order (fun _ => []) [(.str [97], .ary [.str [120]]), (.str [98], .str [122])]
    2 [] (by decide) (by decide)

/-- The example of C5 evaluated: the pairs are `(2, 3)` and `(5, 6)`, key id first. -/
theorem encode_mapping_example :
    yaml_mrb_to_node (fun _ => []) 3 []
        (.hash [(.str [97], .ary [.str [120]]), (.str [98], .str [122])])
      = .ok ([.mapping [(2, 3), (5, 6)], .scalar [97], .sequence [4], .scalar [120],
          .scalar [98], .scalar [122]], 1) := by
  rfl

/-- C6 as stated fails: when the host's string conversion of nil yields the byte `0xff`,
libyaml refuses the scalar: `yaml_mrb_to_node` appends no node and returns `0`, not the
id of a scalar node holding those bytes. -/
theorem encode_default_appends_nothing_when_refused :
    mrb_type .nil ≠ .MRB_TT_ARRAY ∧ mrb_type .nil ≠ .MRB_TT_HASH ∧
    mrb_type .nil ≠ .MRB_TT_STRING ∧
    yaml_mrb_to_node (fun _ => [255]) 1 yaml_document_new .nil = .ok ([], 0) ∧
    yaml_mrb_to_node (fun _ => [255]) 1 yaml_document_new .nil
      ≠ .ok (yaml_document_new ++ [.scalar [255]], yaml_document_new.length + 1) := by
  refine ⟨by decide, by decide, by decide, rfl, ?_⟩
  intro h
  have e : yaml_mrb_to_node (fun _ => [255]) 1 yaml_document_new .nil = .ok ([], 0) := rfl
  rw [e] at h
  simp [yaml_document_new] at h

/-- C6, amended. Default stringification: for a value whose type tag is none of
`MRB_TT_ARRAY`, `MRB_TT_HASH` and `MRB_TT_STRING`, whatever else it is, the result of
`yaml_mrb_to_node` is that of `yaml_document_add_scalar` on the host's string conversion
of the value; when that conversion passes `yaml_check_utf8`, exactly one node is
appended, the scalar whose bytes are the conversion, and its id is returned. -/
theorem encode_default_stringification (mrb_obj_as_string : mrb_value → Bytes)
    (fuel : Nat) (d : yaml_document_t) (value : mrb_value)
    (hary : mrb_type value ≠ .MRB_TT_ARRAY) (hhash : mrb_type value ≠ .MRB_TT_HASH)
    (hstr : mrb_type value ≠ .MRB_TT_STRING) :
    yaml_mrb_to_node mrb_obj_as_string (fuel + 1) d value
      = .ok (yaml_document_add_scalar d (mrb_obj_as_string value)) ∧
    (yaml_check_utf8 (mrb_obj_as_string value) = true →
      yaml_mrb_to_node mrb_obj_as_string (fuel + 1) d value
        = .ok (d ++ [.scalar (mrb_obj_as_string value)], d.length + 1)) := by
  have h1 : yaml_mrb_to_node mrb_obj_as_string (fuel + 1) d value
      = .ok (yaml_document_add_scalar d (mrb_obj_as_string value)) := by
    cases value with
    | nil => rfl
    | bool b => rfl
    | fixnum n => rfl
    | obj i => rfl
    | str b => exact absurd rfl hstr
    | ary xs => exact absurd rfl hary
    | hash kvs => exact absurd rfl hhash
  exact ⟨h1, fun hc => by rw [h1, add_scalar_accepted hc]⟩

/-- Witness for C6: the true value, with a string conversion that gives `"true"` for it. -/
theorem encode_default_stringification_witness :
    yaml_mrb_to_node (fun v => if v = .bool true then [116, 114, 117, 101] else [])
        (0 + 1) [] (.bool true)
      = .ok ([] ++ [.scalar ((fun v : mrb_value => if v = .bool true then
          ([116, 114, 117, 101] : Bytes) else []) (.bool true))],
          ([] : yaml_document_t).length + 1) :=
  (encode_default_stringification _ 0 [] (.bool true) (by decide) (by decide)
    (by decide)).2 (by decide)

/-- C7 as stated fails in the encoding direction: for the string with the single byte
`0xff` libyaml refuses the scalar, and `yaml_mrb_to_node` appends no node and returns
`0`. -/
theorem scalar_encode_appends_nothing_when_refused :
    yaml_check_utf8 [255] = false ∧
    yaml_mrb_to_node (fun _ => []) 1 yaml_document_new (.str [255]) = .ok ([], 0) ∧
    yaml_mrb_to_node (fun _ => []) 1 yaml_document_new (.str [255])
      ≠ .ok (yaml_document_new ++ [.scalar [255]], yaml_document_new.length + 1) := by
  refine ⟨rfl, rfl, ?_⟩
  intro h
  have e : yaml_mrb_to_node (fun _ => []) 1 yaml_document_new (.str [255])
      = .ok ([], 0) := rfl
  rw [e] at h
  simp [yaml_document_new] at h

/-- C7, amended. Scalar identity in both directions: decoding a scalar node with bytes
`b` gives the string with exactly the bytes `b`, for every byte list; encoding the
string with bytes `b` appends exactly one node, the scalar with bytes `b`, for every
byte list that passes libyaml's `yaml_check_utf8`, which every list of bytes below
`0x80` does, the empty list and lists with NUL bytes included. -/
theorem scalar_identity (mrb_obj_as_string : mrb_value → Bytes) (fuel : Nat)
    (d : yaml_document_t) (b : Bytes) :
    yaml_node_to_mrb (fuel + 1) d (some (.scalar b)) = .ok (.str b) ∧
    (yaml_check_utf8 b = true →
      yaml_mrb_to_node mrb_obj_as_string (fuel + 1) d (.str b)
        = .ok (d ++ [.scalar b], d.length + 1)) ∧
    ((∀ o ∈ b, o.val < 128) → yaml_check_utf8 b = true) ∧
    yaml_check_utf8 [] = true ∧ yaml_check_utf8 [97, 0, 98] = true :=
  ⟨rfl, fun hc => by simp only [yaml_mrb_to_node]; rw [add_scalar_accepted hc],
    yaml_check_utf8_ascii b, rfl, rfl⟩

/-- Witness for C7: a string of three bytes, the second of which is NUL. -/
theorem scalar_identity_witness :
    yaml_mrb_to_node (fun _ => []) (0 + 1) [] (.str [97, 0, 98])
      = .ok ([] ++ [.scalar [97, 0, 98]], ([] : yaml_document_t).length + 1) :=
  (scalar_identity (fun _ => []) 0 [] [97, 0, 98]).2.1 rfl

/-- C8. The entry point `mrb_yaml_load` raises exactly when the parser reports an error
after loading: it ends by raising if and only if `parser.error` is not `YAML_NO_ERROR`;
in that case the message raised is `parser.problem`, the decoder is not among the calls
made and no value is returned, whatever the document and the recursion depth; otherwise
the run ends as the decoder ends on the root node of the loaded document, returning the
decoded value when there is one. -/
theorem load_raises_iff_parser_error
    (yaml_parser_load : Bytes → yaml_parser_t × yaml_document_t) (fuel : Nat)
    (yaml_str : Bytes) :
    ((∃ message, (mrb_yaml_load yaml_parser_load fuel yaml_str).outcome = .raised message) ↔
      (yaml_parser_load yaml_str).1.error ≠ .YAML_NO_ERROR) ∧
    ((yaml_parser_load yaml_str).1.error ≠ .YAML_NO_ERROR →
      (mrb_yaml_load yaml_parser_load fuel yaml_str).outcome
        = .raised (yaml_parser_load yaml_str).1.problem ∧
      Call.yaml_node_to_mrb ∉ (mrb_yaml_load yaml_parser_load fuel yaml_str).calls ∧
      ∀ result, (mrb_yaml_load yaml_parser_load fuel yaml_str).outcome ≠ .returned result) ∧
    ((yaml_parser_load yaml_str).1.error = .YAML_NO_ERROR →
      (mrb_yaml_load yaml_parser_load fuel yaml_str).outcome
        = match yaml_node_to_mrb fuel (yaml_parser_load yaml_str).2
            (yaml_document_get_root_node (yaml_parser_load yaml_str).2) with
          | .ok result => .returned result
          | .error f => .fault f) := by
  by_cases herr : (yaml_parser_load yaml_str).1.error = .YAML_NO_ERROR
  · have hrun : (mrb_yaml_load yaml_parser_load fuel yaml_str).outcome
        = match yaml_node_to_mrb fuel (yaml_parser_load yaml_str).2
            (yaml_document_get_root_node (yaml_parser_load yaml_str).2) with
          | .ok result => .returned result
          | .error f => .fault f := by
      simp only [mrb_yaml_load, herr, ne_eq, not_true_eq_false, ↓reduceIte]
      cases yaml_node_to_mrb fuel (yaml_parser_load yaml_str).2
          (yaml_document_get_root_node (yaml_parser_load yaml_str).2) <;> rfl
    refine ⟨?_, fun h => absurd herr h, fun _ => hrun⟩
    constructor
    · rintro ⟨message, hm⟩
      rw [hrun] at hm
      cases hdec : yaml_node_to_mrb fuel (yaml_parser_load yaml_str).2
          (yaml_document_get_root_node (yaml_parser_load yaml_str).2) <;>
        rw [hdec] at hm <;> cases hm
    · intro h; exact absurd herr h
  · have hrun : mrb_yaml_load yaml_parser_load fuel yaml_str
        = ⟨.raised (yaml_parser_load yaml_str).1.problem,
            [Call.yaml_parser_init, Call.yaml_parser_set_input_string,
              Call.yaml_parser_load, Call.mrb_raise]⟩ := by
      simp [mrb_yaml_load, herr]
    refine ⟨⟨fun _ => herr, fun _ => ⟨_, by rw [hrun]⟩⟩, fun _ => ?_, fun h => absurd h herr⟩
    rw [hrun]
    exact ⟨rfl, by simp, fun result h => by cases h⟩

/-- Witness for C8: a parser that reports a parser error on every input. -/
theorem load_raises_iff_parser_error_witness :
    (mrb_yaml_load (fun _ => (⟨.YAML_PARSER_ERROR, "did not find expected node content"⟩,
        [.scalar [97]])) 5 [123, 97, 58, 32, 49]).outcome
      = .raised "did not find expected node content" :=
  ((load_raises_iff_parser_error (fun _ =>
      (⟨.YAML_PARSER_ERROR, "did not find expected node content"⟩, [.scalar [97]]))
    5 [123, 97, 58, 32, 49]).2.1 (by decide)).1

/-- C9, the failing input.  When the parser loads the empty text without error into a
document that has no nodes, `yaml_document_get_root_node` gives `NULL` and
`yaml_node_to_mrb` dereferences it: the run ends in a fault at its first step and
returns no value, while the claim says that `mrb_yaml_load` returns a value there. -/
theorem load_empty_document_null_deref (fuel : Nat) :
    yaml_document_get_root_node (yaml_document_new) = none ∧
    (mrb_yaml_load (fun _ => (⟨.YAML_NO_ERROR, ""⟩, yaml_document_new)) (fuel + 1) []).outcome
      = .fault .null_deref ∧
    ∀ result,
      (mrb_yaml_load (fun _ => (⟨.YAML_NO_ERROR, ""⟩, yaml_document_new))
        (fuel + 1) []).outcome ≠ .returned result := by
  refine ⟨rfl, rfl, ?_⟩
  intro result h
  have e : (mrb_yaml_load (fun _ => (⟨.YAML_NO_ERROR, ""⟩, yaml_document_new))
      (fuel + 1) []).outcome = .fault .null_deref := rfl
  rw [e] at h
  cases h

theorem decodes_unsupported {document : yaml_document_t} {node : yaml_node_t}
    (hscalar : node.type ≠ .YAML_SCALAR_NODE) (hseq : node.type ≠ .YAML_SEQUENCE_NODE)
    (hmap : node.type ≠ .YAML_MAPPING_NODE) (fuel : Nat) :
    yaml_node_to_mrb (fuel + 1) document (some node) = .ok mrb_nil_value := by
  cases node with
  | no_node => rfl
  | alias_node => rfl
  | scalar b => exact absurd rfl hscalar
  | sequence items => exact absurd rfl hseq
  | mapping pairs => exact absurd rfl hmap

/-- C10. Unsupported node kinds decode to nil: for a node whose type tag is none of
scalar, sequence and mapping, `yaml_node_to_mrb` returns the nil value already with
recursion depth `1`, that is without a nested call, and with every larger depth, and
never anything else.  When a sequence node lists such a node at position `j`, the decoded
array has nil at position `j`; when a mapping node has it as the key or the value of its
pair `j`, the `j`-th pair stored by `mrb_hash_set` has nil as its key or value. -/
theorem decode_unsupported_kind_nil (document : yaml_document_t) (node : yaml_node_t)
    (hscalar : node.type ≠ .YAML_SCALAR_NODE) (hseq : node.type ≠ .YAML_SEQUENCE_NODE)
    (hmap : node.type ≠ .YAML_MAPPING_NODE) :
    yaml_node_to_mrb 1 document (some node) = .ok mrb_nil_value ∧
    (∀ fuel, yaml_node_to_mrb (fuel + 1) document (some node) = .ok mrb_nil_value) ∧
    (∀ v, Decodes document (some node) v → v = mrb_nil_value) ∧
    (∀ items w, Decodes document (some (.sequence items)) w →
      ∃ vs, w = .ary vs ∧ vs.length = items.length ∧
        ∀ j item, items.get? j = some item →
          yaml_document_get_node document item = some node →
          vs.get? j = some mrb_nil_value) ∧
    (∀ pairs w, Decodes document (some (.mapping pairs)) w →
      ∃ kvs : List (mrb_value × mrb_value),
        w = kvs.foldl (fun h (kv : mrb_value × mrb_value) => mrb_hash_set h kv.1 kv.2)
          mrb_hash_new ∧
        kvs.length = pairs.length ∧
        ∀ j (pair : Nat × Nat), pairs.get? j = some pair →
          (yaml_document_get_node document pair.1 = some node →
            ∃ val, kvs.get? j = some (mrb_nil_value, val)) ∧
          (yaml_document_get_node document pair.2 = some node →
            ∃ key, kvs.get? j = some (key, mrb_nil_value))) := by
  have hnil : ∀ v, Decodes document (some node) v → v = mrb_nil_value := by
    intro v hv
    exact hv.unique ⟨1, decodes_unsupported hscalar hseq hmap 0⟩
  refine ⟨decodes_unsupported hscalar hseq hmap 0,
    fun fuel => decodes_unsupported hscalar hseq hmap fuel, hnil, ?_, ?_⟩
  · intro items w hw
    obtain ⟨vs, rfl, hvs⟩ := (decodes_sequence_iff document items w).1 hw
    refine ⟨vs, rfl, hvs.length_eq.symm, ?_⟩
    intro j item hj hnode
    obtain ⟨v, hv, hdec⟩ := forall₂_get? hvs j item hj
    rw [hnode] at hdec
    rw [hv, hnil v hdec]
  · intro pairs w hw
    obtain ⟨kvs, rfl, hkvs⟩ := (decodes_mapping_iff document pairs w).1 hw
    refine ⟨kvs, rfl, hkvs.length_eq.symm, ?_⟩
    intro j pair hj
    obtain ⟨⟨key, val⟩, hkv, hdec⟩ := forall₂_get? hkvs j pair hj
    constructor
    · intro hnode
      have := hdec.1
      rw [hnode] at this
      exact ⟨val, by rw [hkv, hnil key this]⟩
    · intro hnode
      have := hdec.2
      rw [hnode] at this
      exact ⟨key, by rw [hkv, hnil val this]⟩

/-- Witness for C10: an alias node listed first in a sequence; the array decoded from the
sequence has nil at that position. -/
theorem decode_unsupported_kind_nil_witness :
    ∃ vs, mrb_value.ary [mrb_nil_value, .str [97]] = .ary vs ∧
      vs.length = [2, 3].length ∧
      ∀ j item, [2, 3].get? j = some item →
        yaml_document_get_node [.sequence [2, 3], .alias_node, .scalar [97]] item
          = some .alias_node →
        vs.get? j = some mrb_nil_value :=
  (decode_unsupported_kind_nil [.sequence [2, 3], .alias_node, .scalar [97]] .alias_node
    (by decide) (by decide) (by decide)).2.2.2.1 [2, 3] (.ary [mrb_nil_value, .str [97]])
    ⟨2, rfl⟩

/-! ## The claims on the sink, the encoder output and totality -/

theorem emit_chunks_str : ∀ (chunks : List Bytes) (b : Bytes),
    emit_chunks chunks ⟨.str b⟩
      = (⟨.str (b ++ chunks.flatten)⟩, List.replicate chunks.length 1) := by
  intro chunks
  induction chunks with
  | nil => intro b; simp [emit_chunks]
  | cons c rest ih =>
    intro b
    simp [emit_chunks, yaml_write, mrb_str_buf_cat, ih, List.replicate_succ]

/-- C11. Byte sink accumulation: every call of `yaml_write` returns `1`; starting from
the empty sink that `mrb_yaml_dump` creates, handing the chunks `chunks` to `yaml_write`
in order makes one call per chunk, each returning `1`, and leaves the concatenation of
the chunks in the sink; and when the encoder returns, `mrb_yaml_dump` returns the
concatenation of the chunks the emitter writes for the encoded document. -/
theorem byte_sink_accumulates (chunks : List Bytes) :
    (∀ (data : yaml_write_data_t) (buffer : Bytes), (yaml_write data buffer).2 = 1) ∧
    emit_chunks chunks ⟨mrb_str_new []⟩
      = (⟨.str chunks.flatten⟩, List.replicate chunks.length 1) ∧
    ∀ (mrb_obj_as_string : mrb_value → Bytes)
      (yaml_emitter_dump : yaml_document_t → List Bytes) (fuel : Nat) (root : mrb_value)
      (document : yaml_document_t) (node : Nat),
      yaml_mrb_to_node mrb_obj_as_string fuel yaml_document_new root = .ok (document, node) →
      mrb_yaml_dump mrb_obj_as_string yaml_emitter_dump fuel root
        = .ok (.str (yaml_emitter_dump document).flatten) := by
  refine ⟨fun _ _ => rfl, ?_, ?_⟩
  · have := emit_chunks_str chunks []
    simpa [mrb_str_new] using this
  · intro to_s emitter fuel root document node h
    simp only [mrb_yaml_dump, h]
    have := emit_chunks_str (emitter document) []
    simp only [mrb_str_new]
    rw [this]
    simp

/-- The example of C11 evaluated: three chunks, the second one empty. -/
theorem byte_sink_example :
    emit_chunks [[45, 45], [], [45, 10]] ⟨mrb_str_new []⟩
      = (⟨.str [45, 45, 45, 10]⟩, [1, 1, 1]) := by
  rfl

/-- The encoder on an encodable value of depth at most `fuel` returns, and what it has
done to the document has the shape described by `Appends`. -/
theorem yaml_mrb_to_node_total (mrb_obj_as_string : mrb_value → Bytes) (v : mrb_value)
    (fuel : Nat) (d : yaml_document_t) (hfuel : v.depth ≤ fuel)
    (hutf8 : v.encodable mrb_obj_as_string = true) :
    ∃ new : List yaml_node_t,
      yaml_mrb_to_node mrb_obj_as_string fuel d v = .ok (d ++ new, d.length + 1) ∧
      new ≠ [] ∧
      List.Perm (child_refs new) (List.range' (d.length + 2) (new.length - 1)) ∧
      well_formed_from (d.length + new.length) (d.length + 1) new = true := by
  obtain ⟨w, henc, -⟩ := yaml_mrb_to_node_spec mrb_obj_as_string v fuel hfuel hutf8
  obtain ⟨new, h1, -, -⟩ := henc d
  rcases yaml_mrb_to_node_appends mrb_obj_as_string fuel _ _ _ _ h1 with
    ⟨-, h0⟩ | ⟨new', e1, -, hne, hperm, hwf⟩
  · omega
  · have : new = new' := List.append_cancel_left e1
    subst this
    exact ⟨new, h1, hne, hperm, hwf⟩

/-- C12. Encoder output is a tree.  Whenever `yaml_mrb_to_node` returns on the fresh
empty document, the child references of the resulting document (items, keys and values
of all its nodes) are, up to order, exactly the ids `2, ..., node count`, each once: no
id is referenced twice, the returned id is referenced by none, and every other node is
referenced exactly once, also when the value holds the same sub-value several times.
On a value of depth at most `fuel` all of whose scalars libyaml accepts the call does
return, with id `1`. -/
theorem encoder_output_is_tree (mrb_obj_as_string : mrb_value → Bytes) (v : mrb_value)
    (fuel : Nat) :
    (∀ (document : yaml_document_t) (node : Nat),
      yaml_mrb_to_node mrb_obj_as_string fuel yaml_document_new v = .ok (document, node) →
      List.Perm (child_refs document) (List.range' 2 (document.length - 1)) ∧
      (child_refs document).Nodup ∧
      (child_refs document).count node = 0 ∧
      ∀ id, 1 ≤ id → id ≤ document.length → id ≠ node →
        (child_refs document).count id = 1) ∧
    (v.depth ≤ fuel → v.encodable mrb_obj_as_string = true →
      ∃ document : yaml_document_t, document ≠ [] ∧
        yaml_mrb_to_node mrb_obj_as_string fuel yaml_document_new v
          = .ok (document, 1)) := by
  constructor
  · intro document node h
    rcases yaml_mrb_to_node_appends mrb_obj_as_string fuel _ _ _ _ h with
      ⟨hdoc, hid⟩ | ⟨new, hdoc, hid, hne, hperm, -⟩
    · subst hdoc hid
      refine ⟨by simp [yaml_document_new, child_refs], by simp [yaml_document_new, child_refs],
        by simp [yaml_document_new, child_refs], ?_⟩
      intro id h1 h2
      simp [yaml_document_new] at h2
      omega
    · have hnew : document = new := by simpa [yaml_document_new] using hdoc
      have hone : node = 1 := by simpa [yaml_document_new] using hid
      subst hnew hone
      have hperm' : List.Perm (child_refs document) (List.range' 2 (document.length - 1)) := by
        simpa [yaml_document_new] using hperm
      have hnd : (child_refs document).Nodup :=
        hperm'.nodup_iff.2 (List.nodup_range' 2 _)
      refine ⟨hperm', hnd, ?_, ?_⟩
      · rw [List.count_eq_zero]
        intro h1
        have := List.mem_range'_1.1 (hperm'.subset h1)
        omega
      · intro id h1 hle hne1
        refine List.count_eq_one_of_mem hnd (hperm'.symm.subset ?_)
        rw [List.mem_range'_1]
        omega
  · intro hfuel hutf8
    obtain ⟨new, henc, hne, -⟩ :=
      yaml_mrb_to_node_total mrb_obj_as_string v fuel yaml_document_new hfuel hutf8
    exact ⟨new, hne, by simpa [yaml_document_new] using henc⟩

/-- Witness for C12: an array that holds the same sub-value `["x"]` twice. -/
theorem encoder_output_is_tree_witness :
    List.Perm
      (child_refs [.sequence [2, 4], .sequence [3], .scalar [120], .sequence [5],
        .scalar [120]])
      (List.range' 2
        ([yaml_node_t.sequence [2, 4], .sequence [3], .scalar [120], .sequence [5],
          .scalar [120]].length - 1)) ∧
    (child_refs [.sequence [2, 4], .sequence [3], .scalar [120], .sequence [5],
      .scalar [120]]).Nodup ∧
    (child_refs [.sequence [2, 4], .sequence [3], .scalar [120], .sequence [5],
      .scalar [120]]).count 1 = 0 ∧
    ∀ id, 1 ≤ id →
      id ≤ [yaml_node_t.sequence [2, 4], .sequence [3], .scalar [120], .sequence [5],
        .scalar [120]].length → id ≠ 1 →
      (child_refs [.sequence [2, 4], .sequence [3], .scalar [120], .sequence [5],
        .scalar [120]]).count id = 1 :=
  (encoder_output_is_tree (fun _ => []) (.ary [.ary [.str [120]], .ary [.str [120]]]) 3).1
    [.sequence [2, 4], .sequence [3], .scalar [120], .sequence [5], .scalar [120]] 1 rfl

/-- The example of C12 evaluated: five nodes, referenced ids `2, 4, 3, 5`. -/
theorem encoder_output_example :
    yaml_mrb_to_node (fun _ => []) 3 yaml_document_new
        (.ary [.ary [.str [120]], .ary [.str [120]]])
      = .ok ([.sequence [2, 4], .sequence [3], .scalar [120], .sequence [5], .scalar [120]],
          1) := by
  rfl

/-- C13. The encoder only appends: whenever `yaml_mrb_to_node` returns, the document it
returns is the old document followed by new nodes (none when libyaml refused the
scalar), so its node count is not smaller and every id that named a node before names
the very same node (same kind, same bytes, items or pairs) afterwards.  On a value of
depth at most `fuel` all of whose scalars libyaml accepts the call does return. -/
theorem encoder_only_appends (mrb_obj_as_string : mrb_value → Bytes) (v : mrb_value)
    (fuel : Nat) (d : yaml_document_t) :
    (∀ (d' : yaml_document_t) (id : Nat),
      yaml_mrb_to_node mrb_obj_as_string fuel d v = .ok (d', id) →
      d.length ≤ d'.length ∧
      (∃ new : List yaml_node_t, d' = d ++ new) ∧
      ∀ (i : Nat) (n : yaml_node_t),
        yaml_document_get_node d i = some n → yaml_document_get_node d' i = some n) ∧
    (v.depth ≤ fuel → v.encodable mrb_obj_as_string = true →
      ∃ (d' : yaml_document_t) (id : Nat),
        yaml_mrb_to_node mrb_obj_as_string fuel d v = .ok (d', id)) := by
  constructor
  · intro d' id h
    rcases yaml_mrb_to_node_appends mrb_obj_as_string fuel _ _ _ _ h with
      ⟨rfl, rfl⟩ | ⟨new, rfl, rfl, -, -, -⟩
    · exact ⟨le_refl _, ⟨[], by simp⟩, fun i n hn => hn⟩
    · exact ⟨by simp, ⟨new, rfl⟩, fun i n hn => get_node_append_left hn new⟩
  · intro hfuel hutf8
    obtain ⟨new, henc, -⟩ := yaml_mrb_to_node_total mrb_obj_as_string v fuel d hfuel hutf8
    exact ⟨d ++ new, d.length + 1, henc⟩

/-- Witness for C13: an array encoded into a document that already holds a sequence and
a scalar. -/
theorem encoder_only_appends_witness :
    [yaml_node_t.sequence [2], .scalar [97]].length
      ≤ [yaml_node_t.sequence [2], .scalar [97], .sequence [4, 5], .scalar [98],
          .scalar []].length ∧
    (∃ new : List yaml_node_t,
      [yaml_node_t.sequence [2], .scalar [97], .sequence [4, 5], .scalar [98], .scalar []]
        = [.sequence [2], .scalar [97]] ++ new) ∧
    ∀ (i : Nat) (n : yaml_node_t),
      yaml_document_get_node [.sequence [2], .scalar [97]] i = some n →
      yaml_document_get_node
        [.sequence [2], .scalar [97], .sequence [4, 5], .scalar [98], .scalar []] i
        = some n :=
  (encoder_only_appends (fun _ => []) (.ary [.str [98], .nil]) 2
    [.sequence [2], .scalar [97]]).1
    [.sequence [2], .scalar [97], .sequence [4, 5], .scalar [98], .scalar []] 3 rfl

/-- C14 as stated fails: on the string with the byte `0xff` the call returns the id `0`,
which names no node, and on the array holding that string the call aborts in libyaml's
assertion; no recursion depth makes either call return the id of an existing node. -/
theorem encoder_not_total_on_refused_scalar :
    yaml_mrb_to_node (fun _ => []) 1 yaml_document_new (.str [255]) = .ok ([], 0) ∧
    yaml_document_get_node [] 0 = none ∧
    yaml_mrb_to_node (fun _ => []) 2 yaml_document_new (.ary [.str [255]])
      = .error .assert_failed ∧
    ¬ ∃ (fuel : Nat) (d' : yaml_document_t) (id : Nat) (n : yaml_node_t),
      yaml_mrb_to_node (fun _ => []) fuel yaml_document_new (.str [255]) = .ok (d', id) ∧
      yaml_document_get_node d' id = some n := by
  refine ⟨rfl, rfl, rfl, ?_⟩
  rintro ⟨fuel, d', id, n, h1, h2⟩
  cases fuel with
  | zero => simp [yaml_mrb_to_node] at h1
  | succ fuel =>
    rw [encode_refused_string] at h1
    simp only [Except.ok.injEq, Prod.mk.injEq] at h1
    obtain ⟨rfl, rfl⟩ := h1
    rw [get_node_zero] at h2
    cases h2

/-- C14, amended. Encoder totality: for every value all of whose scalars libyaml accepts
(every string in it and the string conversion of every other leaf pass
`yaml_check_utf8`) and every document, a recursion depth of at least the depth of the
value is enough for `yaml_mrb_to_node` to return, and the id it returns names a node of
the resulting document; with that depth `mrb_yaml_dump` returns a host string, whatever
the emitter writes. -/
theorem encoder_total (mrb_obj_as_string : mrb_value → Bytes) (v : mrb_value)
    (fuel : Nat) (d : yaml_document_t) (hfuel : v.depth ≤ fuel)
    (hutf8 : v.encodable mrb_obj_as_string = true) :
    (∃ (d' : yaml_document_t) (id : Nat) (n : yaml_node_t),
      yaml_mrb_to_node mrb_obj_as_string fuel d v = .ok (d', id) ∧
      yaml_document_get_node d' id = some n) ∧
    ∀ yaml_emitter_dump : yaml_document_t → List Bytes,
      ∃ out : Bytes,
        mrb_yaml_dump mrb_obj_as_string yaml_emitter_dump fuel v = .ok (.str out) := by
  constructor
  · obtain ⟨new, henc, hne, -⟩ :=
      yaml_mrb_to_node_total mrb_obj_as_string v fuel d hfuel hutf8
    obtain ⟨n, hn⟩ := get_node_new (d := d) hne
    exact ⟨d ++ new, d.length + 1, n, henc, hn⟩
  · intro emitter
    obtain ⟨new, henc, -⟩ :=
      yaml_mrb_to_node_total mrb_obj_as_string v fuel yaml_document_new hfuel hutf8
    refine ⟨(emitter (yaml_document_new ++ new)).flatten, ?_⟩
    simp only [mrb_yaml_dump, henc, mrb_str_new]
    rw [emit_chunks_str]
    simp

/-- Witness for C14: a value that mixes nil, a number, a boolean, an object, an array and
a mapping. -/
theorem encoder_total_witness :
    (∃ (d' : yaml_document_t) (id : Nat) (n : yaml_node_t),
      yaml_mrb_to_node (fun _ => [63]) 3 [.scalar [97]]
          (.hash [(.fixnum 1, .ary [.nil, .bool true, .obj 7]), (.nil, .str [])])
        = .ok (d', id) ∧
      yaml_document_get_node d' id = some n) ∧
    ∀ yaml_emitter_dump : yaml_document_t → List Bytes,
      ∃ out : Bytes,
        mrb_yaml_dump (fun _ => [63]) yaml_emitter_dump 3
          (.hash [(.fixnum 1, .ary [.nil, .bool true, .obj 7]), (.nil, .str [])])
          = .ok (.str out) :=
  encoder_total (fun _ => [63])
    (.hash [(.fixnum 1, .ary [.nil, .bool true, .obj 7]), (.nil, .str [])]) 3
    [.scalar [97]] (by decide) (by decide)

theorem get_root_node_eq_first (d : yaml_document_t) (hne : d ≠ []) :
    yaml_document_get_root_node d = yaml_document_get_node d 1 := by
  cases d with
  | nil => exact absurd rfl hne
  | cons n rest => simp [yaml_document_get_root_node, yaml_document_get_node]

/-- C17 as stated fails: on a document of one node and the string with the byte `0xff`
the call returns `0`, not `2`, and appends no node. -/
theorem encoder_returns_zero_on_refused_scalar :
    yaml_mrb_to_node (fun _ => []) 1 [.scalar [97]] (.str [255])
      = .ok ([.scalar [97]], 0) ∧
    yaml_mrb_to_node (fun _ => []) 1 yaml_document_new (.str [255]) = .ok ([], 0) ∧
    ¬ ∃ (fuel : Nat) (d' : yaml_document_t),
      yaml_mrb_to_node (fun _ => []) fuel [.scalar [97]] (.str [255])
        = .ok (d', [yaml_node_t.scalar [97]].length + 1) := by
  refine ⟨rfl, rfl, ?_⟩
  rintro ⟨fuel, d', h⟩
  cases fuel with
  | zero => simp [yaml_mrb_to_node] at h
  | succ fuel =>
    rw [encode_refused_string] at h
    simp at h

/-- C17, amended. The encoded value is the document root: on a document of `n` nodes and
a value of depth at most `fuel` all of whose scalars libyaml accepts (every string in it
and the string conversion of every other leaf pass `yaml_check_utf8`),
`yaml_mrb_to_node` returns `n + 1`, the id of the first node it
appends; that node decodes to the normal form of the value (the value itself when it is
normal); every child reference held by the new nodes is larger than `n + 1` and names a
node, and each new node refers only to ids larger than its own.  On the fresh empty
document of `mrb_yaml_dump` the returned id is `1`, node `1` is the root node, and the
emitter is run on that document although the id is discarded. -/
theorem encoded_value_is_root (mrb_obj_as_string : mrb_value → Bytes) (v : mrb_value)
    (fuel : Nat) (d : yaml_document_t) (hfuel : v.depth ≤ fuel)
    (hutf8 : v.encodable mrb_obj_as_string = true) :
    (∃ new : List yaml_node_t,
      yaml_mrb_to_node mrb_obj_as_string fuel d v = .ok (d ++ new, d.length + 1) ∧
      yaml_document_get_node d (d.length + 1) = none ∧
      (∃ n, yaml_document_get_node (d ++ new) (d.length + 1) = some n ∧
        new.head? = some n) ∧
      (∃ w, yaml_node_to_mrb fuel (d ++ new)
          (yaml_document_get_node (d ++ new) (d.length + 1)) = .ok w ∧
        (v.normal = true → w = v)) ∧
      (∀ r ∈ child_refs new, d.length + 1 < r ∧ r ≤ (d ++ new).length) ∧
      well_formed_from (d ++ new).length (d.length + 1) new = true) ∧
    (∃ document : yaml_document_t,
      yaml_mrb_to_node mrb_obj_as_string fuel yaml_document_new v = .ok (document, 1) ∧
      yaml_document_get_root_node document = yaml_document_get_node document 1 ∧
      (yaml_document_get_root_node document).isSome = true ∧
      ∀ yaml_emitter_dump : yaml_document_t → List Bytes,
        mrb_yaml_dump mrb_obj_as_string yaml_emitter_dump fuel v
          = .ok (.str (yaml_emitter_dump document).flatten)) := by
  constructor
  · obtain ⟨new, henc, hne, hperm, hwf⟩ :=
      yaml_mrb_to_node_total mrb_obj_as_string v fuel d hfuel hutf8
    obtain ⟨w, hw, -, hwv, -⟩ := yaml_mrb_to_node_spec mrb_obj_as_string v fuel hfuel hutf8
    obtain ⟨new', henc', -, hdec⟩ := hw d
    have e : new' = new := by
      rw [henc] at henc'
      simp only [Except.ok.injEq, Prod.mk.injEq, and_true] at henc'
      exact (List.append_cancel_left henc').symm
    subst e
    refine ⟨new', henc, get_node_beyond d, ?_, ⟨w, ?_, hwv⟩, ?_, ?_⟩
    · cases new' with
      | nil => exact absurd rfl hne
      | cons n t => exact ⟨n, get_node_middle d n t, rfl⟩
    · have := hdec d [] rfl
      simpa using this
    · intro r hr
      have := List.mem_range'_1.1 (hperm.subset hr)
      have hpos := List.length_pos.2 hne
      simp only [List.length_append]
      omega
    · simpa [List.length_append] using hwf
  · obtain ⟨new, henc, hne, -⟩ :=
      yaml_mrb_to_node_total mrb_obj_as_string v fuel yaml_document_new hfuel hutf8
    have henc' : yaml_mrb_to_node mrb_obj_as_string fuel yaml_document_new v
        = .ok (new, 1) := by simpa [yaml_document_new] using henc
    refine ⟨new, henc', get_root_node_eq_first new hne, ?_, ?_⟩
    · cases new with
      | nil => exact absurd rfl hne
      | cons n t => rfl
    · intro emitter
      simp only [mrb_yaml_dump, henc', mrb_str_new]
      rw [emit_chunks_str]
      simp

/-- Witness for C17: an array encoded into a document of two nodes gets id `3`. -/
theorem encoded_value_is_root_witness :
    ∃ new : List yaml_node_t,
      yaml_mrb_to_node (fun _ => []) 2 [.sequence [2], .scalar [97]] (.ary [.str [98], .nil])
        = .ok ([.sequence [2], .scalar [97]] ++ new,
            [yaml_node_t.sequence [2], .scalar [97]].length + 1) ∧
      yaml_document_get_node [.sequence [2], .scalar [97]]
        ([yaml_node_t.sequence [2], .scalar [97]].length + 1) = none ∧
      (∃ n, yaml_document_get_node ([.sequence [2], .scalar [97]] ++ new)
          ([yaml_node_t.sequence [2], .scalar [97]].length + 1) = some n ∧
        new.head? = some n) ∧
      (∃ w, yaml_node_to_mrb 2 ([.sequence [2], .scalar [97]] ++ new)
          (yaml_document_get_node ([.sequence [2], .scalar [97]] ++ new)
            ([yaml_node_t.sequence [2], .scalar [97]].length + 1)) = .ok w ∧
        ((mrb_value.ary [.str [98], .nil]).normal = true → w = .ary [.str [98], .nil])) ∧
      (∀ r ∈ child_refs new, [yaml_node_t.sequence [2], .scalar [97]].length + 1 < r ∧
        r ≤ ([yaml_node_t.sequence [2], .scalar [97]] ++ new).length) ∧
      well_formed_from ([yaml_node_t.sequence [2], .scalar [97]] ++ new).length
        ([yaml_node_t.sequence [2], .scalar [97]].length + 1) new = true :=
  (encoded_value_is_root (fun _ => []) (.ary [.str [98], .nil]) 2
    [.sequence [2], .scalar [97]] (by decide) (by decide)).1

theorem decodedList_iff : ∀ {xs : List mrb_value},
    decodedList xs = true ↔ ∀ x ∈ xs, x.decoded = true := by
  intro xs
  induction xs with
  | nil => simp [decodedList]
  | cons y ys ih => simp [decodedList, ih]

theorem decodedPairs_iff : ∀ {kvs : List (mrb_value × mrb_value)},
    decodedPairs kvs = true ↔ ∀ p ∈ kvs, p.1.decoded = true ∧ p.2.decoded = true := by
  intro kvs
  induction kvs with
  | nil => simp [decodedPairs]
  | cons q rest ih =>
    obtain ⟨k, v⟩ := q
    simp [decodedPairs, ih, and_assoc]

theorem depthList_le {bound : Nat} : ∀ {xs : List mrb_value},
    (∀ x ∈ xs, x.depth ≤ bound) → depthList xs ≤ bound := by
  intro xs
  induction xs with
  | nil => intro _; simp [depthList]
  | cons y ys ih =>
    intro h
    simp only [depthList]
    exact max_le (h y (List.mem_cons_self _ _)) (ih (fun x hx => h x (List.mem_cons_of_mem _ hx)))

theorem depthPairs_le {bound : Nat} : ∀ {kvs : List (mrb_value × mrb_value)},
    (∀ p ∈ kvs, p.1.depth ≤ bound ∧ p.2.depth ≤ bound) → depthPairs kvs ≤ bound := by
  intro kvs
  induction kvs with
  | nil => intro _; simp [depthPairs]
  | cons q rest ih =>
    obtain ⟨k, v⟩ := q
    intro h
    simp only [depthPairs]
    have hq := h (k, v) (List.mem_cons_self _ _)
    exact max_le (max_le hq.1 hq.2) (ih (fun x hx => h x (List.mem_cons_of_mem _ hx)))

/-- What the decoder returns is built only from strings, arrays, mappings and nil, and
its depth is at most the recursion depth that was used. -/
theorem yaml_node_to_mrb_decoded (document : yaml_document_t) :
    ∀ (fuel : Nat) (node : Option yaml_node_t) (v : mrb_value),
      yaml_node_to_mrb fuel document node = .ok v → v.decoded = true ∧ v.depth ≤ fuel := by
  intro fuel
  induction fuel with
  | zero => intro node v h; simp [yaml_node_to_mrb] at h
  | succ fuel ih =>
    intro node v h
    match node, h with
    | none, h => simp [yaml_node_to_mrb] at h
    | some .no_node, h =>
      simp only [yaml_node_to_mrb, Except.ok.injEq] at h
      subst h
      exact ⟨rfl, by simp [mrb_nil_value, mrb_value.depth]⟩
    | some .alias_node, h =>
      simp only [yaml_node_to_mrb, Except.ok.injEq] at h
      subst h
      exact ⟨rfl, by simp [mrb_nil_value, mrb_value.depth]⟩
    | some (.scalar b), h =>
      simp only [yaml_node_to_mrb, Except.ok.injEq] at h
      subst h
      exact ⟨rfl, by simp [mrb_str_new, mrb_value.depth]⟩
    | some (.sequence items), h =>
      simp only [yaml_node_to_mrb, mrb_ary_new] at h
      rw [decode_sequence_items_ok_iff] at h
      obtain ⟨vs, hvs, rfl⟩ := h
      have hall : ∀ x ∈ vs, x.decoded = true ∧ x.depth ≤ fuel := by
        intro x hx
        obtain ⟨item, -, hi⟩ := forall₂_mem_right hvs x hx
        exact ih _ _ hi
      simp only [List.nil_append, mrb_value.decoded, mrb_value.depth]
      exact ⟨decodedList_iff.2 (fun x hx => (hall x hx).1),
        Nat.succ_le_succ (depthList_le (fun x hx => (hall x hx).2))⟩
    | some (.mapping pairs), h =>
      simp only [yaml_node_to_mrb, mrb_hash_new] at h
      rw [decode_mapping_pairs_ok_iff] at h
      obtain ⟨kvs, hkvs, rfl⟩ := h
      rw [foldl_mrb_hash_set]
      have hall : ∀ p ∈ kvs, (p.1.decoded = true ∧ p.1.depth ≤ fuel) ∧
          (p.2.decoded = true ∧ p.2.depth ≤ fuel) := by
        intro p hp
        obtain ⟨pair, -, hi⟩ := forall₂_mem_right hkvs p hp
        exact ⟨ih _ _ hi.1, ih _ _ hi.2⟩
      have hent := hash_store_all_mem (Q := fun x => x.decoded = true ∧ x.depth ≤ fuel)
        kvs [] hall (by simp)
      simp only [mrb_value.decoded, mrb_value.depth]
      exact ⟨decodedPairs_iff.2 (fun p hp => ⟨(hent p hp).1.1, (hent p hp).2.1⟩),
        Nat.succ_le_succ (depthPairs_le (fun p hp => ⟨(hent p hp).1.2, (hent p hp).2.2⟩))⟩

theorem within_depth {x v : mrb_value} (h : Within x v) : x.depth < v.depth := by
  induction h with
  | elem h => simp only [mrb_value.depth]; exact Nat.lt_succ_of_le (depth_le_depthList h)
  | key h => simp only [mrb_value.depth]; exact Nat.lt_succ_of_le (depth_le_depthPairs h).1
  | val h => simp only [mrb_value.depth]; exact Nat.lt_succ_of_le (depth_le_depthPairs h).2
  | step _ _ ih₁ ih₂ => exact lt_trans ih₁ ih₂

/-- C15. Decoder output kinds: whenever `yaml_node_to_mrb` returns a value, that value is
built at every depth only from strings, arrays, mappings and nil, and it is a finite
tree: it does not occur inside itself, and its nesting depth is at most the recursion
depth of the call. -/
theorem decoder_output_kinds (fuel : Nat) (document : yaml_document_t)
    (node : Option yaml_node_t) (v : mrb_value)
    (h : yaml_node_to_mrb fuel document node = .ok v) :
    v.decoded = true ∧ ¬ Within v v ∧ v.depth ≤ fuel :=
  ⟨(yaml_node_to_mrb_decoded document fuel node v h).1,
    fun hw => Nat.lt_irrefl _ (within_depth hw),
    (yaml_node_to_mrb_decoded document fuel node v h).2⟩

/-- Witness for C15: a mapping node with an alias key and a sequence value. -/
theorem decoder_output_kinds_witness :
    (mrb_value.hash [(.nil, .ary [.str [97]])]).decoded = true ∧
    ¬ Within (mrb_value.hash [(.nil, .ary [.str [97]])])
      (mrb_value.hash [(.nil, .ary [.str [97]])]) ∧
    (mrb_value.hash [(.nil, .ary [.str [97]])]).depth ≤ 3 :=
  decoder_output_kinds 3 [.mapping [(2, 3)], .alias_node, .sequence [4], .scalar [97]]
    (some (.mapping [(2, 3)])) (.hash [(.nil, .ary [.str [97]])]) rfl

theorem load_error_path (yaml_parser_load : Bytes → yaml_parser_t × yaml_document_t)
    (fuel : Nat) (yaml_str : Bytes)
    (herr : (yaml_parser_load yaml_str).1.error ≠ .YAML_NO_ERROR) :
    mrb_yaml_load yaml_parser_load fuel yaml_str
      = ⟨.raised (yaml_parser_load yaml_str).1.problem,
          [Call.yaml_parser_init, Call.yaml_parser_set_input_string,
            Call.yaml_parser_load, Call.mrb_raise]⟩ := by
  simp [mrb_yaml_load, herr]

/-- C16, the failing input.  When the parser reports an error, `mrb_yaml_load` leaves
through `mrb_raise` right after `yaml_parser_load`: neither `yaml_document_delete` nor
`yaml_parser_delete` is among the calls made, while the claim says both are called on
every path.  The path on which a value is returned does end with these two calls. -/
theorem load_error_path_skips_release
    (yaml_parser_load : Bytes → yaml_parser_t × yaml_document_t) (fuel : Nat)
    (yaml_str : Bytes) :
    ((yaml_parser_load yaml_str).1.error ≠ .YAML_NO_ERROR →
      (mrb_yaml_load yaml_parser_load fuel yaml_str).calls
        = [Call.yaml_parser_init, Call.yaml_parser_set_input_string,
            Call.yaml_parser_load, Call.mrb_raise] ∧
      Call.yaml_document_delete ∉ (mrb_yaml_load yaml_parser_load fuel yaml_str).calls ∧
      Call.yaml_parser_delete ∉ (mrb_yaml_load yaml_parser_load fuel yaml_str).calls) ∧
    (∀ result, (mrb_yaml_load yaml_parser_load fuel yaml_str).outcome = .returned result →
      (mrb_yaml_load yaml_parser_load fuel yaml_str).calls
        = [Call.yaml_parser_init, Call.yaml_parser_set_input_string,
            Call.yaml_parser_load, Call.yaml_document_get_root_node,
            Call.yaml_node_to_mrb, Call.yaml_document_delete, Call.yaml_parser_delete]) := by
  constructor
  · intro herr
    rw [load_error_path yaml_parser_load fuel yaml_str herr]
    exact ⟨rfl, by simp, by simp⟩
  · intro result hres
    by_cases herr : (yaml_parser_load yaml_str).1.error = .YAML_NO_ERROR
    · simp only [mrb_yaml_load, herr, ne_eq, not_true_eq_false, ↓reduceIte] at hres ⊢
      cases hdec : yaml_node_to_mrb fuel (yaml_parser_load yaml_str).2
          (yaml_document_get_root_node (yaml_parser_load yaml_str).2) with
      | error f => rw [hdec] at hres; cases hres
      | ok v => rfl
    · rw [load_error_path yaml_parser_load fuel yaml_str herr] at hres
      cases hres

/-- C16 at a concrete input: a parser that reports a parser error on the text `{a: 1`. -/
theorem load_error_path_example :
    (mrb_yaml_load (fun _ => (⟨.YAML_PARSER_ERROR, "did not find expected node content"⟩,
        [])) 5 [123, 97, 58, 32, 49]).calls
      = [Call.yaml_parser_init, Call.yaml_parser_set_input_string, Call.yaml_parser_load,
          Call.mrb_raise] := by
  rfl

theorem well_formed_from_get? {count : Nat} :
    ∀ (nodes : List yaml_node_t) (id : Nat), well_formed_from count id nodes = true →
      ∀ (j : Nat) (n : yaml_node_t), nodes.get? j = some n →
        ∀ c ∈ node_refs n, id + j < c ∧ c ≤ count := by
  intro nodes
  induction nodes with
  | nil => intro id _ j n hj; simp at hj
  | cons m rest ih =>
    intro id h j n hj c hc
    simp only [well_formed_from, Bool.and_eq_true, List.all_eq_true, decide_eq_true_eq] at h
    cases j with
    | zero =>
      simp only [List.get?_cons_zero, Option.some.injEq] at hj
      subst hj
      simpa using h.1 c hc
    | succ j =>
      simp only [List.get?_cons_succ] at hj
      have := ih (id + 1) h.2 j n hj c hc
      omega

theorem document_well_formed_refs {d : yaml_document_t} (hwf : document_well_formed d = true)
    {i : Nat} {n : yaml_node_t} (hn : yaml_document_get_node d i = some n) :
    ∀ c ∈ node_refs n, i < c ∧ c ≤ d.length := by
  intro c hc
  unfold yaml_document_get_node at hn
  split at hn
  · rename_i hi
    have := well_formed_from_get? d 1 hwf (i - 1) n hn c hc
    omega
  · cases hn

theorem get_node_of_le (d : yaml_document_t) {c : Nat} (h0 : 0 < c) (hle : c ≤ d.length) :
    ∃ n, yaml_document_get_node d c = some n := by
  unfold yaml_document_get_node
  rw [if_pos ⟨h0, hle⟩, List.get?_eq_getElem?]
  exact ⟨d[c - 1], List.getElem?_eq_getElem (by omega)⟩

theorem mem_pair_refs {p : Nat × Nat} :
    ∀ {pairs : List (Nat × Nat)}, p ∈ pairs → p.1 ∈ pair_refs pairs ∧ p.2 ∈ pair_refs pairs := by
  intro pairs
  induction pairs with
  | nil => intro h; cases h
  | cons q rest ih =>
    obtain ⟨k, v⟩ := q
    intro h
    simp only [pair_refs, List.mem_cons]
    rcases List.mem_cons.1 h with e | e
    · subst e; exact ⟨Or.inl rfl, Or.inr (Or.inl rfl)⟩
    · exact ⟨Or.inr (Or.inr (ih e).1), Or.inr (Or.inr (ih e).2)⟩

/-- On a well-formed document the decoder returns on every node, with a recursion depth
of one more than the number of nodes that follow the node. -/
theorem yaml_node_to_mrb_well_formed {d : yaml_document_t}
    (hwf : document_well_formed d = true) :
    ∀ (fuel i : Nat) (n : yaml_node_t), yaml_document_get_node d i = some n →
      d.length - i < fuel → ∃ v, yaml_node_to_mrb fuel d (some n) = .ok v := by
  intro fuel
  induction fuel with
  | zero => intro i n _ h; omega
  | succ fuel ih =>
    intro i n hn hfuel
    have hchild : ∀ c ∈ node_refs n,
        ∃ v, yaml_node_to_mrb fuel d (yaml_document_get_node d c) = .ok v := by
      intro c hc
      have hb := document_well_formed_refs hwf hn c hc
      obtain ⟨m, hm⟩ := get_node_of_le d (by omega) hb.2
      rw [hm]
      exact ih c m hm (by omega)
    cases n with
    | no_node => exact ⟨_, rfl⟩
    | alias_node => exact ⟨_, rfl⟩
    | scalar b => exact ⟨_, rfl⟩
    | sequence items =>
      obtain ⟨vs, hvs⟩ := @exists_forall₂ _ _
        (fun item v => yaml_node_to_mrb fuel d (yaml_document_get_node d item) = .ok v)
        items (fun c hc => hchild c hc)
      refine ⟨.ary vs, ?_⟩
      simp only [yaml_node_to_mrb, mrb_ary_new]
      rw [decode_sequence_items_ok_iff]
      exact ⟨vs, hvs, by simp⟩
    | mapping pairs =>
      obtain ⟨kvs, hkvs⟩ := @exists_forall₂ _ _
        (fun (pair : Nat × Nat) (kv : mrb_value × mrb_value) =>
          yaml_node_to_mrb fuel d (yaml_document_get_node d pair.1) = .ok kv.1 ∧
          yaml_node_to_mrb fuel d (yaml_document_get_node d pair.2) = .ok kv.2)
        pairs (by
          intro p hp
          obtain ⟨k, hk⟩ := hchild p.1 (mem_pair_refs hp).1
          obtain ⟨v, hv⟩ := hchild p.2 (mem_pair_refs hp).2
          exact ⟨(k, v), hk, hv⟩)
      refine ⟨kvs.foldl (fun h (kv : mrb_value × mrb_value) => mrb_hash_set h kv.1 kv.2)
        (.hash []), ?_⟩
      simp only [yaml_node_to_mrb, mrb_hash_new]
      rw [decode_mapping_pairs_ok_iff]
      exact ⟨kvs, hkvs, rfl⟩

/-- C18. Decoder totality needs a well-formed document.  On a document in which every
item, key and value id names an existing node and is larger than the id of the node that
holds it, `yaml_node_to_mrb` returns a value on every node, a recursion depth of one
more than the number of following nodes being enough, so no missing node is inspected;
every document that the encoder returns from the empty document is of that kind, and it
does return one on a value within the recursion depth all of whose scalars libyaml
accepts.  On the document whose only node is a sequence listing its own id, no recursion
depth is ever enough, and on a sequence listing an id outside the node table the decoder
dereferences `NULL`; neither of the two documents is well-formed. -/
theorem decoder_total_on_well_formed :
    (∀ (d : yaml_document_t), document_well_formed d = true →
      ∀ (i : Nat) (n : yaml_node_t), yaml_document_get_node d i = some n →
        ∃ v, yaml_node_to_mrb (d.length - i + 1) d (some n) = .ok v) ∧
    (∀ (mrb_obj_as_string : mrb_value → Bytes) (v : mrb_value) (fuel : Nat),
      (∀ (document : yaml_document_t) (node : Nat),
        yaml_mrb_to_node mrb_obj_as_string fuel yaml_document_new v = .ok (document, node) →
        document_well_formed document = true) ∧
      (v.depth ≤ fuel → v.encodable mrb_obj_as_string = true →
        ∃ document : yaml_document_t,
          yaml_mrb_to_node mrb_obj_as_string fuel yaml_document_new v
            = .ok (document, 1))) ∧
    (document_well_formed [.sequence [1]] = false ∧
      (∀ fuel, yaml_node_to_mrb fuel [.sequence [1]]
        (yaml_document_get_node [.sequence [1]] 1) = .error .out_of_fuel) ∧
      ∀ v, ¬ Decodes [.sequence [1]] (yaml_document_get_node [.sequence [1]] 1) v) ∧
    (document_well_formed [.sequence [2]] = false ∧
      ∀ fuel, yaml_node_to_mrb (fuel + 2) [.sequence [2]]
        (yaml_document_get_node [.sequence [2]] 1) = .error .null_deref) := by
  refine ⟨?_, ?_, ⟨rfl, ?_, ?_⟩, ⟨rfl, fun fuel => rfl⟩⟩
  · intro d hwf i n hn
    exact yaml_node_to_mrb_well_formed hwf _ i n hn (by omega)
  · intro to_s v fuel
    constructor
    · intro document node h
      rcases yaml_mrb_to_node_appends to_s fuel _ _ _ _ h with
        ⟨hdoc, -⟩ | ⟨new, hdoc, -, -, -, hwf⟩
      · subst hdoc; rfl
      · have hnew : document = new := by simpa [yaml_document_new] using hdoc
        subst hnew
        simpa [yaml_document_new, document_well_formed] using hwf
    · intro hfuel hutf8
      obtain ⟨new, henc, -⟩ :=
        yaml_mrb_to_node_total to_s v fuel yaml_document_new hfuel hutf8
      exact ⟨new, by simpa [yaml_document_new] using henc⟩
  · intro fuel
    exact self_reference_out_of_fuel fuel
  · rintro v ⟨fuel, h⟩
    have : yaml_document_get_node [yaml_node_t.sequence [1]] 1 = some (.sequence [1]) := rfl
    rw [this, self_reference_out_of_fuel fuel] at h
    cases h

/-- Witness for C18: every node of a well-formed document of five nodes decodes; here
its root. -/
theorem decoder_total_on_well_formed_witness :
    ∃ v, yaml_node_to_mrb
      ([yaml_node_t.mapping [(2, 3)], .scalar [97], .sequence [4, 5], .alias_node,
          .scalar [98]].length - 1 + 1)
      [.mapping [(2, 3)], .scalar [97], .sequence [4, 5], .alias_node, .scalar [98]]
      (some (.mapping [(2, 3)])) = .ok v :=
  decoder_total_on_well_formed.1
    [.mapping [(2, 3)], .scalar [97], .sequence [4, 5], .alias_node, .scalar [98]]
    (by decide) 1 (.mapping [(2, 3)]) rfl

/-- C19 as stated fails: the normalisation of the string with the byte `0xff` is not
defined, because libyaml refuses the scalar and the decoder is then handed node `0`; no
recursion depth gives it a value. -/
theorem normalise_undefined_on_refused_scalar :
    normalise (fun _ => []) 1 (.str [255]) = .error .null_deref ∧
    ¬ ∃ (fuel : Nat) (w : mrb_value), normalise (fun _ => []) fuel (.str [255]) = .ok w := by
  refine ⟨rfl, ?_⟩
  rintro ⟨fuel, w, h⟩
  cases fuel with
  | zero => simp [normalise, yaml_mrb_to_node] at h
  | succ fuel =>
    simp only [normalise] at h
    rw [encode_refused_string] at h
    simp [yaml_document_new, yaml_document_get_node, yaml_node_to_mrb] at h

theorem normalises_hash_inv {mrb_obj_as_string : mrb_value → Bytes}
    {kvs : List (mrb_value × mrb_value)} {w : mrb_value}
    (h : Normalises mrb_obj_as_string (.hash kvs) w) :
    ∃ kws : List (mrb_value × mrb_value), kws.length = kvs.length ∧
      (∀ (i : Nat) (kv kw : mrb_value × mrb_value), kvs.get? i = some kv →
        kws.get? i = some kw →
        Normalises mrb_obj_as_string kv.1 kw.1 ∧
        Normalises mrb_obj_as_string (mrb_hash_get (.hash kvs) kv.1) kw.2) ∧
      w = kws.foldl (fun h (kw : mrb_value × mrb_value) => mrb_hash_set h kw.1 kw.2)
        mrb_hash_new := by
  cases h with
  | leaf _ _ hhash _ => exact absurd rfl hhash
  | hash _ kws hlen hkey hval =>
    exact ⟨kws, hlen, fun i kv kw h1 h2 => ⟨hkey i kv kw h1 h2, hval i kv kw h1 h2⟩, rfl⟩

/-- C19, amended. Normalisation is idempotent: for every value `v` of depth at most
`fuel` all of whose scalars libyaml accepts (every string in it and the string
conversion of every other leaf pass `yaml_check_utf8`), the normalisation of `v`
returns a value `w`, and the normalisation of `w` returns `w` again.  `w` is the normal
form of `v` at every depth: strings are kept, every other leaf is replaced by the string
of its string conversion, arrays are normalised element by element, and a mapping is
rebuilt by `mrb_hash_set` from the normalised keys and values in enumeration order, so
that a lookup of a normalised key gives the normalised value of the last pair with that
key.  `w` is normal (strings, arrays, mappings with pairwise different keys). -/
theorem normalise_idempotent (mrb_obj_as_string : mrb_value → Bytes) (v : mrb_value)
    (fuel : Nat) (hfuel : v.depth ≤ fuel)
    (hutf8 : v.encodable mrb_obj_as_string = true) :
    ∃ w, normalise mrb_obj_as_string fuel v = .ok w ∧
      normalise mrb_obj_as_string fuel w = .ok w ∧
      w.normal = true ∧
      Normalises mrb_obj_as_string v w ∧
      (mrb_type v ≠ .MRB_TT_ARRAY → mrb_type v ≠ .MRB_TT_HASH →
        mrb_type v ≠ .MRB_TT_STRING → w = .str (mrb_obj_as_string v)) ∧
      (∀ kvs, v = .hash kvs →
        ∃ kws : List (mrb_value × mrb_value), kws.length = kvs.length ∧
          (∀ (i : Nat) (kv kw : mrb_value × mrb_value), kvs.get? i = some kv →
            kws.get? i = some kw →
            Normalises mrb_obj_as_string kv.1 kw.1 ∧
            Normalises mrb_obj_as_string (mrb_hash_get v kv.1) kw.2) ∧
          ∀ (before : List (mrb_value × mrb_value)) (key val : mrb_value)
            (after : List (mrb_value × mrb_value)),
            kws = before ++ (key, val) :: after → (∀ p ∈ after, p.1 ≠ key) →
            mrb_hash_get w key = val) := by
  have hnorm : ∀ (u w : mrb_value),
      EncodesTo (yaml_mrb_to_node mrb_obj_as_string fuel) fuel u w →
      normalise mrb_obj_as_string fuel u = .ok w ∧ w.depth ≤ fuel := by
    intro u w hu
    obtain ⟨new, henc, -, hdec⟩ := hu yaml_document_new
    have h := hdec [] [] rfl
    simp only [yaml_document_new, List.nil_append, List.append_nil, List.length_nil,
      Nat.zero_add] at henc h
    refine ⟨?_, (yaml_node_to_mrb_decoded _ _ _ _ h).2⟩
    simp only [normalise, yaml_document_new, henc]
    exact h
  obtain ⟨w, hw, ⟨hwn, hwe⟩, -, hrel⟩ :=
    yaml_mrb_to_node_spec mrb_obj_as_string v fuel hfuel hutf8
  obtain ⟨h1, hdepth⟩ := hnorm v w hw
  obtain ⟨w', hw', -, hww, -⟩ := yaml_mrb_to_node_spec mrb_obj_as_string w fuel hdepth hwe
  have e := hww hwn
  subst e
  refine ⟨w', h1, (hnorm w' w' hw').1, hwn, hrel, ?_, ?_⟩
  · intro hary hhash hstr
    cases hrel with
    | leaf _ _ _ _ => rfl
    | str b => exact absurd rfl hstr
    | ary _ _ _ _ => exact absurd rfl hary
    | hash _ _ _ _ _ => exact absurd rfl hhash
  · intro kvs hv
    subst hv
    obtain ⟨kws, hlen, hpt, hfold⟩ := normalises_hash_inv hrel
    refine ⟨kws, hlen, hpt, ?_⟩
    intro before key val after hk hlast
    have hf : hash_fetch key (hash_store_all kws []) = some val := by
      rw [hk]; exact hash_fetch_store_all_last before after key val hlast []
    rw [hfold, mrb_hash_new, foldl_mrb_hash_set]
    simp [mrb_hash_get, hf]

/-- Witness for C19: a mapping with a number key and a string key that collide once the
number is turned into the string `"1"`. -/
theorem normalise_idempotent_witness :
    ∃ w, normalise (fun v => if v = .fixnum 1 then [49] else []) 3
        (.hash [(.fixnum 1, .str [97]), (.str [49], .ary [.nil])]) = .ok w ∧
      normalise (fun v => if v = .fixnum 1 then [49] else []) 3 w = .ok w ∧
      w.normal = true :=
  (normalise_idempotent (fun v => if v = .fixnum 1 then [49] else [])
    (.hash [(.fixnum 1, .str [97]), (.str [49], .ary [.nil])]) 3 (by decide)
    (by decide)).imp (fun _ h => ⟨h.1, h.2.1, h.2.2.1⟩)

/-- The example of C19 evaluated: the later value survives under the key `"1"`, and the
nested nil has become the empty string. -/
theorem normalise_example :
    normalise (fun v => if v = .fixnum 1 then [49] else []) 3
        (.hash [(.fixnum 1, .str [97]), (.str [49], .ary [.nil])])
      = .ok (.hash [(.str [49], .ary [.str []])]) := by
  rfl

end MrubyYaml
